import Mathlib

/-!
# Symbolic differentiation engine (`Assesment_2_1`): shallow embedding

The C++ sources `Equation.h` / `Equation.cpp` are embedded function by function.

Modelling conventions
* `double` is modelled by the exact rationals `ℚ`; rounding of floating point
  arithmetic is outside the model.  `exp` and `pow` at non-integer exponents
  are not rational functions and are taken from a `Libm` parameter.  The
  conversions between text and `double` are modelled with their rounding and
  their range: `std::stod` rounds the decimal numeral to the nearest `double`
  and throws `std::out_of_range` outside the range (`roundToDouble`), and
  `std::to_string` rounds to six decimals, ties to even.
* `std::shared_ptr<Operator>` is the type `Operator`, the tree the pointer
  leads to; its constructor `null` is the null pointer.  Calling a member
  function through a null pointer is reported as `Failure.null_dereference`.
  The one operation that changes objects in place, `addDeep`, is also embedded
  on objects with addresses (`Memory`), where sharing is visible.
* A thrown C++ exception is an `Except.error`; all functions that can throw
  or crash return `Result`.
* An `int` depth is an `Int`; incrementing a depth that has reached `INT_MAX`
  has no defined behaviour and is reported as `Failure.undefined_arithmetic`,
  as is `std::lround` of a value outside the range of `long`.
* A `std::string` is the list of its characters; `std::isdigit` is
  `Char.isDigit`.
* Division by zero is outside the model: `x / 0` is `0` in `ℚ`, where a
  `double` gives an infinity or a NaN; statements about quotients assume
  nonzero divisors.

The determinant utility `Assesment_2_2/Matrix.h` is embedded in the same way:
a `std::vector` is a `List`, an index out of range has no defined behaviour.
-/

namespace math

/-! ## Token types and the literal table (`Equation.h` 14-63) -/

/-- The enumeration `TokenType`. -/
inductive TokenType
  | exp
  | ext
  | plus
  | minus
  | multipl
  | devision
  | left_bracket
  | right_bracket
  | value
  | var_xi
  | var_mi
  | var_di
  | all
  | any
  | bracket_gr
  | exp_gr
  | ext_gr
  | plus_gr
  | minus_gr
  | multipl_gr
  | devision_gr
  | single_minus_gr
  | nothing
  | phi_i_1
  deriving DecidableEq, Repr

/-- The integer value of an enumerator (`static_cast<int>`). -/
def TokenType.toInt : TokenType → Int
  | exp => 0
  | ext => 1
  | plus => 2
  | minus => 3
  | multipl => 4
  | devision => 5
  | left_bracket => 6
  | right_bracket => 7
  | value => 8
  | var_xi => 9
  | var_mi => 10
  | var_di => 11
  | all => 12
  | any => 13
  | bracket_gr => 14
  | exp_gr => 15
  | ext_gr => 16
  | plus_gr => 17
  | minus_gr => 18
  | multipl_gr => 19
  | devision_gr => 20
  | single_minus_gr => 21
  | nothing => 22
  | phi_i_1 => 23

/-- The table `g_TokenLiterals`: literal text to token type. -/
def g_TokenLiterals : List (String × TokenType) :=
  [ ("exp", TokenType.exp),
    ("^", TokenType.ext),
    ("+", TokenType.plus),
    ("-", TokenType.minus),
    ("*", TokenType.multipl),
    ("/", TokenType.devision),
    ("(", TokenType.left_bracket),
    (")", TokenType.right_bracket),
    ("xi", TokenType.var_xi),
    ("mi", TokenType.var_mi),
    ("di", TokenType.var_di),
    ("phi(i-1)", TokenType.phi_i_1) ]

/-- The lookup `g_TokenLiterals.find(buffer)`. -/
def findLiteral (buffer : String) : Option TokenType :=
  (g_TokenLiterals.find? (fun p => p.1 == buffer)).map Prod.snd

/-- The inverse table `g_LiteralTokens`; `none` is a missing key. -/
def g_LiteralTokens (t : TokenType) : Option String :=
  (g_TokenLiterals.find? (fun p => p.2 == t)).map Prod.fst

/-! ## Failures -/

/-- The ways a call can end without a value. -/
inductive Failure
  /-- A thrown `std::runtime_error` with its message. -/
  | runtime_error (what : String)
  /-- A thrown `std::out_of_range` (`unordered_map::at` on a missing key,
  `std::stod` of a numeral outside the range of `double`). -/
  | out_of_range
  /-- A thrown `std::invalid_argument` (`std::stod` without a digit). -/
  | invalid_argument
  /-- A thrown `std::bad_function_call` (empty `std::function`). -/
  | bad_function_call
  /-- A member call or iterator step that has no defined behaviour. -/
  | null_dereference
  /-- An arithmetic step for which C++ defines no result: `++` on an `int`
  that holds `INT_MAX`, `std::lround` of a value outside the range of `long`. -/
  | undefined_arithmetic
  /-- The recursion budget of the embedding ran out (never a C++ outcome). -/
  | fuel_exhausted
  deriving DecidableEq, Repr

/-- Outcome of a fallible call. -/
abbrev Result (α : Type) := Except Failure α

instance instDecidableEqResult {α : Type} [DecidableEq α] : DecidableEq (Result α)
  | .ok a, .ok b =>
    if h : a = b then isTrue (by rw [h]) else isFalse (fun h2 => h (by cases h2; rfl))
  | .error a, .error b =>
    if h : a = b then isTrue (by rw [h]) else isFalse (fun h2 => h (by cases h2; rfl))
  | .ok _, .error _ => isFalse (fun h => by cases h)
  | .error _, .ok _ => isFalse (fun h => by cases h)

/-- The result of `g_LiteralTokens.at(t)`. -/
def literalAt (t : TokenType) : Result String :=
  match g_LiteralTokens t with
  | some s => .ok s
  | none => .error Failure.out_of_range

/-! ## The operator hierarchy (`Equation.h` 75-473) -/

/-- A `std::shared_ptr<Operator>`: `null` or a node of one of the concrete
classes.  `OneValueOperator` and `SquareOperator` are the subclasses of
`ConstantOperator` holding 1 and 2. -/
inductive Operator
  | null
  | ConstantOperator (v : ℚ)
  | OneValueOperator
  | SquareOperator
  | VariableOperator (t : TokenType) (deep : Int)
  | UnaryOperator (t : TokenType) (sub_group : Operator)
  | BinaryOperator (t : TokenType) (left right : Operator)
  | Functional (sintaxis_tree_root : Operator)
  deriving DecidableEq, Repr

open Operator

/-- The constant `tol = 1e-6`. -/
def tol : ℚ := mkRat 1 1000000

/-- The function `fabs`. -/
def fabs (x : ℚ) : ℚ := if x < 0 then -x else x

/-- The function `std::round`: nearest integer, halves away from zero. -/
def round (x : ℚ) : Int :=
  if x < 0 then -Rat.floor (-x + mkRat 1 2) else Rat.floor (x + mkRat 1 2)

/-- The constant `LONG_MAX` of a 64-bit `long`. -/
def LONG_MAX : Int := 9223372036854775807

/-- The constant `INT_MAX` of a 32-bit `int`. -/
def INT_MAX : Int := 2147483647

/-- The function `std::lround`: `std::round` as a `long`; outside the range
of `long` the result is not specified. -/
def lround (x : ℚ) : Result Int :=
  if -LONG_MAX - 1 ≤ round x ∧ round x ≤ LONG_MAX then .ok (round x)
  else .error Failure.undefined_arithmetic

/-- The quotient `n / d` of two naturals rounded to the nearest natural, a
tie to the even one. -/
def roundHalfEven (n d : Nat) : Nat :=
  if 2 * (n % d) < d then n / d
  else if d < 2 * (n % d) then n / d + 1
  else if (n / d) % 2 = 0 then n / d
  else n / d + 1

/-- The field `_v` seen through `dynamic_pointer_cast<ConstantOperator>`:
`none` when the node is not a constant. -/
def constantValue : Operator → Option ℚ
  | ConstantOperator v => some v
  | OneValueOperator => some 1
  | SquareOperator => some 2
  | _ => none

/-- The virtual `isNearOne`. -/
def isNearOne : Operator → Result Bool
  | null => .error Failure.null_dereference
  | ConstantOperator v => .ok (decide (fabs (1 - v) ≤ tol))
  | OneValueOperator => .ok true
  | SquareOperator => .ok (decide (fabs (1 - 2) ≤ tol))
  | _ => .ok false

/-- The virtual `isParametrique(paramT, deep)`. -/
def isParametrique : Operator → TokenType → Int → Result Bool
  | null, _, _ => .error Failure.null_dereference
  | ConstantOperator _, _, _ => .ok false
  | OneValueOperator, _, _ => .ok false
  | SquareOperator, _, _ => .ok false
  | VariableOperator t d, paramT, deep => .ok (decide (d = deep) && decide (t = paramT))
  | UnaryOperator _ sub, paramT, deep => isParametrique sub paramT deep
  | BinaryOperator _ l r, paramT, deep => do
      if (← isParametrique l paramT deep) then return true
      isParametrique r paramT deep
  | Functional root, paramT, deep => isParametrique root paramT deep

/-- The virtual `clone`. -/
def clone : Operator → Result Operator
  | null => .error Failure.null_dereference
  | ConstantOperator v => .ok (ConstantOperator v)
  | OneValueOperator => .ok (ConstantOperator 1)
  | SquareOperator => .ok (ConstantOperator 2)
  | VariableOperator t d => .ok (VariableOperator t d)
  | UnaryOperator t sub => do
      let s ← clone sub
      return UnaryOperator t s
  | BinaryOperator t l r => do
      let lc ← clone l
      let rc ← clone r
      return BinaryOperator t lc rc
  | Functional root => clone root

/-- The virtual `addDeep` as a function on tree values: the depth of every
Variable plus one (`_deep++`, which has no defined result at `INT_MAX`).  It is what the in-place `addDeepIn` does to a tree none of
whose objects is shared (`TreeAt.addDeep`). -/
def addDeep : Operator → Result Operator
  | null => .error Failure.null_dereference
  | ConstantOperator v => .ok (ConstantOperator v)
  | OneValueOperator => .ok OneValueOperator
  | SquareOperator => .ok SquareOperator
  | VariableOperator t d =>
      if INT_MAX ≤ d then .error Failure.undefined_arithmetic
      else .ok (VariableOperator t (d + 1))
  | UnaryOperator t sub => do
      let s ← addDeep sub
      return UnaryOperator t s
  | BinaryOperator t l r => do
      let l1 ← addDeep l
      let r1 ← addDeep r
      return BinaryOperator t l1 r1
  | Functional root => do
      let r1 ← addDeep root
      return Functional r1

/-! ### The combinators (`Equation.cpp` 105-136) -/

/-- The combinator `operator+`. -/
def operator_plus (left right : Operator) : Operator :=
  BinaryOperator TokenType.plus left right

/-- The combinator `operator-`. -/
def operator_minus (left right : Operator) : Operator :=
  BinaryOperator TokenType.minus left right

/-- The combinator `operator*`. -/
def operator_mul (left right : Operator) : Result Operator := do
  if (← isNearOne left) then return right
  if (← isNearOne right) then return left
  return BinaryOperator TokenType.multipl left right

/-- The combinator `operator^`. -/
def operator_pow (left right : Operator) : Result Operator := do
  if (← isNearOne right) then return left
  return BinaryOperator TokenType.ext left right

/-- The combinator `operator/`. -/
def operator_div (left right : Operator) : Operator :=
  BinaryOperator TokenType.devision left right

/-! ### Rendering (`Equation.h` 126-191, 295-308, 450-453; `Equation.cpp` 27-47) -/

/-- Decimal digits of `n`, left-padded with zeros to `width` characters. -/
def padDigits (width n : Nat) : String :=
  let s := toString n
  String.mk (List.replicate (width - s.length) '0') ++ s

/-- The function `std::to_string(double)`: the format `%f`, fixed notation
with six decimals, the exact value rounded to the nearest, a tie to even. -/
def to_string_double (v : ℚ) : String :=
  let n : Nat := roundHalfEven ((fabs v).num.toNat * 1000000) (fabs v).den
  (if v < 0 then "-" else "") ++ toString (n / 1000000) ++ "." ++ padDigits 6 (n % 1000000)

/-- The method `ConstantOperator::toString`. -/
def constantToString (v : ℚ) : Result String :=
  if fabs ((round v : ℚ) - v) ≤ tol then do
    let n ← lround v
    return toString n
  else return to_string_double v

/-- The test of `UnaryOperator::toString`, lines 36-38: the node is a
`BinaryOperator` whose tag is not `ext`. -/
def isBinaryOtherThanPower : Operator → Bool
  | BinaryOperator st _ _ => decide (st ≠ TokenType.ext)
  | _ => false

/-- The virtual `toString`. -/
def toString : Operator → Result String
  | null => .error Failure.null_dereference
  | ConstantOperator v => constantToString v
  | OneValueOperator => .ok "1"
  | SquareOperator => .ok "2"
  | VariableOperator t d => do
      let token ← literalAt t
      if d = 0 then return token
      return String.mk (token.toList.take 1) ++ "(i-" ++ ToString.toString d ++ ")"
  | UnaryOperator t sub =>
      if sub = null then .ok ""
      else if t = TokenType.minus ∧ isBinaryOtherThanPower sub then do
        let m ← literalAt t
        let s ← toString sub
        return m ++ "(" ++ s ++ ")"
      else if t = TokenType.bracket_gr then do
        let s ← toString sub
        return "(" ++ s ++ ")"
      else do
        let m ← literalAt t
        let s ← toString sub
        return m ++ s
  | BinaryOperator t l r => do
      let ls ← toString l
      let m ← literalAt t
      let rs ← toString r
      return ls ++ m ++ rs
  | Functional root => toString root

/-! ### Evaluation (`Equation.h` 121-124, 179-182, 217-237, 263-293, 445-448) -/

/-- The library functions that have no rational model: `exp`, and `pow` at a
non-integer exponent. -/
structure Libm where
  exp : ℚ → ℚ
  pow : ℚ → ℚ → ℚ

/-- The function `pow(lv, rv)`: the exact integer power when `rv` is an
integer. -/
def powValue (L : Libm) (lv rv : ℚ) : ℚ :=
  if rv.den = 1 then lv ^ rv.num else L.pow lv rv

/-- Exact value of a tree under an assignment `env` of numbers to
(symbol, depth) pairs.  It is the virtual `produce` except that a Variable
node reads `env` at its own symbol and depth; `produce` binds every Variable
to the one context scalar, which is `value` at a constant assignment.  The
`_action` of a node is chosen by the constructor's `switch`; a tag without a
case leaves it empty. -/
def value (L : Libm) (env : TokenType → Int → ℚ) : Operator → Result ℚ
  | null => .error Failure.null_dereference
  | ConstantOperator v => .ok v
  | OneValueOperator => .ok 1
  | SquareOperator => .ok 2
  | VariableOperator t d => .ok (env t d)
  | UnaryOperator t sub => do
      let v ← value L env sub
      match t with
      | TokenType.bracket_gr => return v
      | TokenType.exp_gr => return L.exp v
      | TokenType.minus => return -v
      | _ => throw Failure.bad_function_call
  | BinaryOperator t l r => do
      let lVl ← value L env l
      let rVl ← value L env r
      match t with
      | TokenType.ext => return powValue L lVl rVl
      | TokenType.multipl => return lVl * rVl
      | TokenType.devision => return lVl / rVl
      | TokenType.plus => return lVl + rVl
      | TokenType.minus => return lVl - rVl
      | _ => throw Failure.bad_function_call
  | Functional root => value L env root

/-- The class `CalculationContext`. -/
structure CalculationContext where
  _parameterV : ℚ

/-- The virtual `produce(context)`.  The `_action` of a Unary or Binary node is
the one the constructor's `switch` on `_t` stored; a tag without a case leaves
the `std::function` empty, and calling it throws `std::bad_function_call`. -/
def produce (L : Libm) (context : CalculationContext) : Operator → Result ℚ
  | null => .error Failure.null_dereference
  | ConstantOperator v => .ok v
  | OneValueOperator => .ok 1
  | SquareOperator => .ok 2
  | VariableOperator _ _ => .ok context._parameterV
  | UnaryOperator t sub => do
      let v ← produce L context sub
      match t with
      | TokenType.bracket_gr => return v
      | TokenType.exp_gr => return L.exp v
      | TokenType.minus => return -v
      | _ => throw Failure.bad_function_call
  | BinaryOperator t l r => do
      let lVl ← produce L context l
      let rVl ← produce L context r
      match t with
      | TokenType.ext => return powValue L lVl rVl
      | TokenType.multipl => return lVl * rVl
      | TokenType.devision => return lVl / rVl
      | TokenType.plus => return lVl + rVl
      | TokenType.minus => return lVl - rVl
      | _ => throw Failure.bad_function_call
  | Functional root => produce L context root


/-! ### Differentiation (`Equation.h` 144-147, 203-206, 320-429, 465-468;
`Equation.cpp` 5-25) -/

/-- The general power rule of line 362:
`constOperator->clone() * (_left->clone() ^ ConstantOperator(_v - 1.)) * l`. -/
def powerRule (left right : Operator) (cv : ℚ) (l : Operator) : Result Operator := do
  let c ← clone right
  let b ← clone left
  let p ← operator_pow b (ConstantOperator (cv - 1))
  let cp ← operator_mul c p
  operator_mul cp l

/-- The expanded square of lines 349-357: `(llc^2 ± 2*llc*rrc) + rrc^2` built
from clones of the two terms. -/
def expandedSquare (st : TokenType) (sl sr : Operator) : Result Operator := do
  let llc ← clone sl
  let rrc ← clone sr
  let llc_sqare ← operator_pow llc SquareOperator
  let rrc_sqare ← operator_pow rrc SquareOperator
  let two_llc ← operator_mul SquareOperator llc
  let two_ab ← operator_mul two_llc rrc
  let fsumm :=
    if st = TokenType.plus then operator_plus llc_sqare two_ab else operator_minus llc_sqare two_ab
  return operator_plus fsumm rrc_sqare

/-- The `case TokenType::ext` of `BinaryOperator::derevative` (lines 327-363);
`l` and `r` are the locals of lines 322-323 and `self` stands for the virtual
call `->derevative(t, deep)`. -/
def derevativePower (self : Operator → Result Operator) (left right l r : Operator) :
    Result Operator :=
  if r ≠ null then throw (Failure.runtime_error "This math operator isn't supported")
  else if l = null then return null
  else
    match constantValue right with
    | none => throw (Failure.runtime_error "This math operator isn't supported")
    | some cv =>
        if right = OneValueOperator then return l
        else
          match right, left with
          | SquareOperator, UnaryOperator _ (BinaryOperator st sl sr) =>
              if st = TokenType.plus ∨ st = TokenType.minus then do
                let e ← expandedSquare st sl sr
                self e
              else powerRule left right cv l
          | _, _ => powerRule left right cv l

/-- One activation of the virtual `derevative(t, deep)`; `self` stands for
the virtual call `->derevative(t, deep)` made on another node. -/
def derevativeBody (self : Operator → Result Operator) (t : TokenType) (deep : Int) :
    Operator → Result Operator
  | null => .error Failure.null_dereference
  | ConstantOperator _ => .ok null
  | OneValueOperator => .ok null
  | SquareOperator => .ok null
  | VariableOperator vt d =>
      .ok (if t = vt ∧ d = deep then OneValueOperator else null)
  | UnaryOperator ut sub => do
      if !(← isParametrique sub t deep) then return null
      let unaryDerevative ← self sub
      match ut with
      | TokenType.bracket_gr => return unaryDerevative
      | TokenType.exp => do
          let c ← clone (UnaryOperator ut sub)
          operator_mul c unaryDerevative
      | TokenType.minus => return UnaryOperator TokenType.minus unaryDerevative
      | _ => return null
  | BinaryOperator bt left right => do
      let l ← (do if (← isParametrique left t deep) then self left else pure null)
      let r ← (do if (← isParametrique right t deep) then self right else pure null)
      match bt with
      | TokenType.ext => derevativePower self left right l r
      | TokenType.plus =>
          if l = null then return r
          else if r = null then return l
          else return operator_plus l r
      | TokenType.minus =>
          if l = null then
            if r = null then return null
            else return UnaryOperator TokenType.minus r
          else if r = null then return l
          else return operator_minus l r
      | TokenType.multipl =>
          if l = null then
            if r = null then return null
            else do
              let lc ← clone left
              operator_mul lc r
          else if r = null then do
            let rc ← clone right
            operator_mul l rc
          else do
            let rc ← clone right
            let a ← operator_mul l rc
            let lc ← clone left
            let b ← operator_mul lc r
            return operator_plus a b
      | TokenType.devision =>
          if l = null ∧ r = null then return null
          else do
            let top ←
              (if l = null then do
                  let lc ← clone left
                  let m ← operator_mul lc r
                  pure (UnaryOperator TokenType.minus m)
                else if r = null then do
                  let rc ← clone right
                  operator_mul l rc
                else do
                  let rc ← clone right
                  let a ← operator_mul l rc
                  let lc ← clone left
                  let b ← operator_mul lc r
                  pure (operator_minus a b))
            let rc ← clone right
            let den ← operator_pow rc SquareOperator
            return operator_div top den
      | _ => throw (Failure.runtime_error "Unsupported operator for derevative")
  | Functional root => self root

/-- The virtual `derevative` unrolled to a bounded depth of activations. -/
def derevativeFuel (t : TokenType) (deep : Int) : Nat → Operator → Result Operator
  | 0, _ => .error Failure.fuel_exhausted
  | n + 1, p => derevativeBody (derevativeFuel t deep n) t deep p

/-- A bound on the number of nested activations of `derevative` on a tree.
A power node counts the square of its base, which pays for the expanded
square that replaces it. -/
def weight : Operator → Nat
  | null => 1
  | ConstantOperator _ => 1
  | OneValueOperator => 1
  | SquareOperator => 1
  | VariableOperator _ _ => 1
  | UnaryOperator _ sub => weight sub + 1
  | BinaryOperator t l r =>
      if t = TokenType.ext then weight l * weight l + weight r + 1
      else weight l + weight r + 1
  | Functional root => weight root + 1

/-- The virtual `derevative(t, deep)`: `weight` activations are enough for
every tree, and the function satisfies the recursion of the source
(`derevative_unfold`). -/
def derevative (p : Operator) (t : TokenType) (deep : Int) : Result Operator :=
  derevativeFuel t deep (weight p) p

/-! ## Tokens (`Equation.h` 102-107, 475-485) -/

/-- A `std::shared_ptr<Token>`: a plain `Token`, a `TokenValue` (whose type
is always `TokenType::value`) or a `TokenGroup`. -/
inductive Token
  | plain (type : TokenType)
  | TokenValue (v : ℚ)
  | TokenGroup (type : TokenType) (group : List Token)
  deriving Repr

/-- The field `_type`. -/
def Token.type : Token → TokenType
  | Token.plain t => t
  | Token.TokenValue _ => TokenType.value
  | Token.TokenGroup t _ => t

/-! ## The lexer (`Equation.h` 491-530) -/

/-- The number written by a list of decimal digits. -/
def digitsToNat (ds : List Char) : Nat :=
  ds.foldl (fun acc c => 10 * acc + (c.toNat - 48)) 0

/-- The binary exponent of a positive natural, with a bound on the number of
halvings. -/
def floorLog2Fuel : Nat → Nat → Nat
  | 0, _ => 0
  | fuel + 1, n => if 2 ≤ n then floorLog2Fuel fuel (n / 2) + 1 else 0

/-- The binary exponent `k` of a positive natural `n`: `2^k ≤ n < 2^(k+1)`. -/
def floorLog2 (n : Nat) : Nat := floorLog2Fuel n n

/-- The test `2^e ≤ n / d` for an integer exponent `e`. -/
def pow2Le (e : Int) (n d : Nat) : Bool :=
  if 0 ≤ e then decide (d * 2 ^ e.toNat ≤ n) else decide (d ≤ n * 2 ^ (-e).toNat)

/-- The multiple of `2^u` nearest to `n / d`, a tie to the even multiple. -/
def roundToMultiple (u : Int) (n d : Nat) : ℚ :=
  if 0 ≤ u then ((roundHalfEven n (d * 2 ^ u.toNat) * 2 ^ u.toNat : Nat) : ℚ)
  else mkRat (roundHalfEven (n * 2 ^ (-u).toNat) d : Nat) (2 ^ (-u).toNat)

/-- The conversion of a nonnegative exact value to `double` that `strtod`
makes for `std::stod` (IEEE 754 binary64, round to nearest, ties to even): 53
significant bits at the binary exponent `e` of the value, multiples of
`2^-1074` below the normal range.  `strtod` reports `ERANGE`, and `std::stod`
then throws `std::out_of_range`, when the rounded value is `2^1024` or more,
and when the value is still below `2^-1022` after rounding to 53 bits and is
not a `double` itself (underflow as glibc reports it). -/
def roundToDouble (q : ℚ) : Result ℚ :=
  let n := q.num.toNat
  let d := q.den
  if n = 0 then .ok 0
  else
    let e0 : Int := (floorLog2 n : Int) - (floorLog2 d : Int)
    let e : Int := if pow2Le e0 n d then e0 else e0 - 1
    let r := roundToMultiple (e - 52) n d
    if ((2 ^ 1024 : Nat) : ℚ) ≤ r then .error Failure.out_of_range
    else if 1 ≤ r * ((2 ^ 1022 : Nat) : ℚ) then .ok r
    else
      let s := roundToMultiple (-1074) n d
      if s = q then .ok s else .error Failure.out_of_range

/-- The function `std::stod` on a buffer of digits, points and commas: the
longest prefix of the form digits, optional point, digits is converted to the
nearest `double`, a prefix without any digit is refused with
`std::invalid_argument`, and a value outside the range of `double` with
`std::out_of_range`. -/
def stod (buffer : List Char) : Result ℚ :=
  let ip := buffer.takeWhile Char.isDigit
  let fp :=
    match buffer.dropWhile Char.isDigit with
    | '.' :: r => r.takeWhile Char.isDigit
    | _ => []
  if ip.isEmpty && fp.isEmpty then .error Failure.invalid_argument
  else roundToDouble (mkRat (digitsToNat (ip ++ fp)) (10 ^ fp.length))

/-- The loop state of `tokenize`. -/
structure LexState where
  res : List Token
  isValue : Bool
  buffer : List Char

/-- One iteration of the loop of `tokenize` on the character `ch`. -/
def tokenizeStep (st : LexState) (ch : Char) : Result LexState := do
  let st1 ←
    (if ch.isDigit || ch == '.' || ch == ',' then
      pure (if st.buffer.isEmpty then { st with isValue := true } else st)
    else if st.isValue then do
      let v ← stod st.buffer
      pure { res := st.res ++ [Token.TokenValue v], isValue := false, buffer := [] }
    else pure st : Result LexState)
  let buffer := st1.buffer ++ [ch]
  match findLiteral (String.mk buffer) with
  | some ty => return { st1 with res := st1.res ++ [Token.plain ty], buffer := [] }
  | none => return { st1 with buffer := buffer }

/-- The method `Equation::tokenize`. -/
def tokenize (script : String) : Result (List Token) := do
  let st ← script.toList.foldlM tokenizeStep { res := [], isValue := false, buffer := [] }
  if st.isValue then do
    let v ← stod st.buffer
    return st.res ++ [Token.TokenValue v]
  else if !st.buffer.isEmpty then
    throw (Failure.runtime_error ("Undefined symbol: " ++ String.mk st.buffer))
  else return st.res

/-! ## The group reducer (`Equation.h` 532-663) -/

/-- The local struct `Grammatic`. -/
structure Grammatic where
  _grType : TokenType
  _tokenOrdering : List TokenType

/-- The ordered rule list `s_Grammatics`. -/
def s_Grammatics : List Grammatic :=
  [ ⟨TokenType.bracket_gr, [TokenType.left_bracket, TokenType.all, TokenType.right_bracket]⟩,
    ⟨TokenType.exp_gr, [TokenType.exp, TokenType.bracket_gr]⟩,
    ⟨TokenType.ext_gr, [TokenType.bracket_gr, TokenType.ext, TokenType.any]⟩,
    ⟨TokenType.single_minus_gr, [TokenType.nothing, TokenType.minus, TokenType.any]⟩,
    ⟨TokenType.single_minus_gr, [TokenType.plus, TokenType.minus, TokenType.any]⟩,
    ⟨TokenType.single_minus_gr, [TokenType.multipl, TokenType.minus, TokenType.any]⟩,
    ⟨TokenType.single_minus_gr, [TokenType.minus, TokenType.minus, TokenType.any]⟩,
    ⟨TokenType.single_minus_gr, [TokenType.devision, TokenType.minus, TokenType.any]⟩,
    ⟨TokenType.single_minus_gr, [TokenType.ext, TokenType.minus, TokenType.any]⟩,
    ⟨TokenType.ext_gr, [TokenType.any, TokenType.ext, TokenType.any]⟩,
    ⟨TokenType.multipl_gr, [TokenType.any, TokenType.multipl, TokenType.any]⟩,
    ⟨TokenType.devision_gr, [TokenType.any, TokenType.devision, TokenType.any]⟩,
    ⟨TokenType.plus_gr, [TokenType.any, TokenType.plus, TokenType.any]⟩,
    ⟨TokenType.minus_gr, [TokenType.any, TokenType.minus, TokenType.any]⟩ ]

/-- The local variables of `ruleProcessor` during the reverse scan.  The
stack `expectedTokens` is a list with its top first; an iterator is a position
in `tokens`, the length of the list being `tokens.end()`; `stopped` records the
`break`. -/
structure ScanState where
  expectedTokens : List TokenType
  expectedToken : TokenType
  firstSubToken : Nat
  endSubToken : Nat
  allMode : Bool
  sub_bracket_index : Nat
  bracket_type : Option TokenType
  stopped : Bool

/-- The lambda `resetExpectation`. -/
def resetExpectation (rule : Grammatic) (len : Nat) (st : ScanState) : Result ScanState :=
  match rule._tokenOrdering.reverse with
  | [] => .error Failure.null_dereference
  | top :: rest =>
      .ok { st with expectedTokens := rest, expectedToken := top,
                    firstSubToken := len, endSubToken := len }

/-- One iteration of the `for` loop of `ruleProcessor`, at the token of type
`currentNodeType` standing at position `i`. -/
def scanStep (rule : Grammatic) (len : Nat) (st : ScanState) (i : Nat)
    (currentNodeType : TokenType) : Result ScanState :=
  if st.stopped then .ok st
  else if st.expectedToken ≠ TokenType.any ∧ currentNodeType ≠ st.expectedToken then do
    let st1 ←
      (if !st.allMode ∧ rule._tokenOrdering.length ≠ st.expectedTokens.length + 1 then
        resetExpectation rule len st
      else pure st : Result ScanState)
    if st1.allMode ∧ some currentNodeType = st1.bracket_type then
      return { st1 with sub_bracket_index := st1.sub_bracket_index + 1 }
    else return st1
  else
    match st.expectedTokens with
    | [] =>
        if st.allMode ∧ st.sub_bracket_index ≠ 0 then
          .ok { st with sub_bracket_index := st.sub_bracket_index - 1 }
        else
          .ok { st with
                  firstSubToken :=
                    (if rule._grType = TokenType.single_minus_gr then i + 1 else i),
                  stopped := true }
    | top :: rest =>
        let endSub :=
          if rule._tokenOrdering.length = st.expectedTokens.length + 1 then i + 1
          else st.endSubToken
        if top = TokenType.all then
          match rest with
          | [] => .error Failure.null_dereference
          | top2 :: rest2 =>
              .ok { st with endSubToken := endSub, bracket_type := some st.expectedToken,
                            expectedToken := top2, expectedTokens := rest2,
                            allMode := true, sub_bracket_index := 0 }
        else
          .ok { st with endSubToken := endSub, expectedToken := top, expectedTokens := rest }

/-- The reverse scan: `scanStep` at positions `len - 1` down to `0`. -/
def scanLoop (rule : Grammatic) (len : Nat) :
    List (Nat × Token) → ScanState → Result ScanState
  | [], st => .ok st
  | (i, tok) :: rest, st => do
      let st1 ← scanStep rule len st i tok.type
      scanLoop rule len rest st1

/-- The lambda `ruleProcessor`: `none` is the result `false`, `some tokens`
is the result `true` with the rewritten list.  `recurse` is the recursive
call of `grammatics_rules_apply` on the contents of a bracket pair. -/
def ruleProcessor (recurse : List Token → Result (List Token)) (rule : Grammatic)
    (tokens : List Token) : Result (Option (List Token)) := do
  let len := tokens.length
  let st0 ← resetExpectation rule len
    { expectedTokens := [], expectedToken := TokenType.nothing, firstSubToken := len,
      endSubToken := len, allMode := false, sub_bracket_index := 0, bracket_type := none,
      stopped := false }
  let st ← scanLoop rule len ((List.range len).zip tokens).reverse st0
  let firstSubToken := if st.expectedToken = TokenType.nothing then 0 else st.firstSubToken
  if firstSubToken = len then return none
  else
    let endSubToken := st.endSubToken
    let group ←
      (if st.allMode then
        recurse ((tokens.drop (firstSubToken + 1)).take (endSubToken - 1 - (firstSubToken + 1)))
      else pure ((tokens.drop firstSubToken).take (endSubToken - firstSubToken)) :
        Result (List Token))
    return some (tokens.take firstSubToken ++ [Token.TokenGroup rule._grType group]
      ++ tokens.drop endSubToken)

/-- The loop `while(ruleProcessor(rule));` with a bound on its iterations. -/
def whileRule (recurse : List Token → Result (List Token)) (rule : Grammatic) :
    Nat → List Token → Result (List Token)
  | 0, _ => .error Failure.fuel_exhausted
  | n + 1, tokens => do
      match (← ruleProcessor recurse rule tokens) with
      | none => return tokens
      | some tokens1 => whileRule recurse rule n tokens1

/-- The method `grammatics_rules_apply` with a bound on the nesting of its
recursive calls. -/
def grammatics_rules_applyFuel : Nat → List Token → Result (List Token)
  | 0, _ => .error Failure.fuel_exhausted
  | n + 1, tokens =>
      s_Grammatics.foldlM
        (fun toks rule => whileRule (grammatics_rules_applyFuel n) rule (toks.length + 1) toks)
        tokens

/-- The method `Equation::grammatics_rules_apply`.  Every successful rule
application shortens the list and every recursive call works on a shorter
list, so the length of the list bounds both. -/
def grammatics_rules_apply (tokens : List Token) : Result (List Token) :=
  grammatics_rules_applyFuel (tokens.length + 1) tokens

/-! ## The tree builder (`Equation.cpp` 49-103) and `Equation` (`Equation.h` 667-683) -/

/-- The type `(*(++group.begin()))->_type` of the second token of a group. -/
def secondType : List Token → Result TokenType
  | _ :: second :: _ => .ok second.type
  | _ => .error Failure.null_dereference

/-- The type `(*group.begin())->_type` of the first token of a group. -/
def firstType : List Token → Result TokenType
  | first :: _ => .ok first.type
  | [] => .error Failure.null_dereference

mutual
/-- The method `Equation::tokenToOperator`; `phi` is the member `_phi_i_1`.
The tests on `token->_type` of lines 54-58 come first for every token. -/
def tokenToOperator (phi : Operator) : Token → Result Operator
  | Token.plain ty =>
      if ty = TokenType.var_di ∨ ty = TokenType.var_mi ∨ ty = TokenType.var_xi then
        .ok (VariableOperator ty 0)
      else if ty = TokenType.phi_i_1 then .ok (Functional phi)
      else .error (Failure.runtime_error ("Undefined token: " ++ ToString.toString ty.toInt))
  | Token.TokenValue v =>
      if v = 1 then .ok OneValueOperator
      else if v = 2 then .ok SquareOperator
      else .ok (ConstantOperator v)
  | Token.TokenGroup ty group =>
      if ty = TokenType.var_di ∨ ty = TokenType.var_mi ∨ ty = TokenType.var_xi then
        .ok (VariableOperator ty 0)
      else if ty = TokenType.phi_i_1 then .ok (Functional phi)
      else if group.isEmpty then .ok null
      else
        match ty with
        | TokenType.bracket_gr => do
            let s ← beginToOperator phi group
            return UnaryOperator ty s
        | TokenType.exp_gr => do
            let tag ← firstType group
            let s ← rbeginToOperator phi group
            return UnaryOperator tag s
        | TokenType.single_minus_gr => do
            let s ← rbeginToOperator phi group
            return UnaryOperator TokenType.minus s
        | TokenType.ext_gr => do
            let l ← beginToOperator phi group
            let r ← rbeginToOperator phi group
            return BinaryOperator TokenType.ext l r
        | TokenType.multipl_gr => do
            let tag ← secondType group
            let l ← beginToOperator phi group
            let r ← rbeginToOperator phi group
            return BinaryOperator tag l r
        | TokenType.devision_gr => do
            let tag ← secondType group
            let l ← beginToOperator phi group
            let r ← rbeginToOperator phi group
            return BinaryOperator tag l r
        | TokenType.plus_gr => do
            let tag ← secondType group
            let l ← beginToOperator phi group
            let r ← rbeginToOperator phi group
            return BinaryOperator tag l r
        | TokenType.minus_gr => do
            let tag ← secondType group
            let l ← beginToOperator phi group
            let r ← rbeginToOperator phi group
            return BinaryOperator tag l r
        | _ => .error (Failure.runtime_error "Parser error.")
/-- The call `tokenToOperator(*group.begin())`. -/
def beginToOperator (phi : Operator) : List Token → Result Operator
  | [] => .error Failure.null_dereference
  | first :: _ => tokenToOperator phi first
/-- The call `tokenToOperator(*group.rbegin())`. -/
def rbeginToOperator (phi : Operator) : List Token → Result Operator
  | [] => .error Failure.null_dereference
  | first :: rest =>
      match rest with
      | [] => tokenToOperator phi first
      | _ :: _ => rbeginToOperator phi rest
end

/-- The method `Equation::parse`, returning the new `_sintaxis_tree_root`;
`phi` is the member `_phi_i_1`. -/
def Equation.parse (phi : Operator) (script : String) : Result Operator := do
  let tokens ← tokenize script
  let tokens ← grammatics_rules_apply tokens
  match tokens with
  | [token] => tokenToOperator phi token
  | _ => throw (Failure.runtime_error ("Mistaken equation: " ++ script))

/-! ## Shared objects: the operator hierarchy in memory

The operations above read a tree and build new objects, so a tree value
describes them exactly.  `addDeep` changes objects in place, and the objects of
a previous tree are shared by every `Functional` that `tokenToOperator` builds
for the placeholder; this section embeds the objects with their addresses. -/

/-- An object of the operator hierarchy as it lies in memory: the children are
pointers. -/
inductive Cell
  | ConstantOperator (v : ℚ)
  | OneValueOperator
  | SquareOperator
  | VariableOperator (t : TokenType) (deep : Int)
  | UnaryOperator (t : TokenType) (sub_group : Option Nat)
  | BinaryOperator (t : TokenType) (left right : Option Nat)
  | Functional (sintaxis_tree_root : Option Nat)
  deriving DecidableEq, Repr

/-- A `std::shared_ptr<Operator>` as an address; `none` is the null pointer. -/
abbrev Pointer := Option Nat

/-- The objects allocated so far; the address of an object is its position. -/
abbrev Memory := List Cell

/-- The call `std::make_shared`: a new object at a fresh address. -/
def make_shared (m : Memory) (c : Cell) : Memory × Pointer :=
  (m ++ [c], some m.length)

/-- The virtual `isParametrique` called through a pointer, to a bounded depth
of nested calls. -/
def isParametriqueFuelIn : Nat → Memory → Pointer → TokenType → Int → Result Bool
  | 0, _, _, _, _ => .error Failure.fuel_exhausted
  | _ + 1, _, none, _, _ => .error Failure.null_dereference
  | n + 1, m, some a, paramT, deep =>
      match m[a]? with
      | none => .error Failure.null_dereference
      | some (Cell.ConstantOperator _) => .ok false
      | some Cell.OneValueOperator => .ok false
      | some Cell.SquareOperator => .ok false
      | some (Cell.VariableOperator t d) => .ok (decide (d = deep) && decide (t = paramT))
      | some (Cell.UnaryOperator _ sub) => isParametriqueFuelIn n m sub paramT deep
      | some (Cell.BinaryOperator _ l r) => do
          if (← isParametriqueFuelIn n m l paramT deep) then return true
          isParametriqueFuelIn n m r paramT deep
      | some (Cell.Functional root) => isParametriqueFuelIn n m root paramT deep

/-- The virtual `addDeep` called through a pointer: the objects are changed in
place, to a bounded depth of nested calls. -/
def addDeepFuelIn : Nat → Memory → Pointer → Result Memory
  | 0, _, _ => .error Failure.fuel_exhausted
  | _ + 1, _, none => .error Failure.null_dereference
  | n + 1, m, some a =>
      match m[a]? with
      | none => .error Failure.null_dereference
      | some (Cell.VariableOperator t d) =>
          if INT_MAX ≤ d then .error Failure.undefined_arithmetic
          else .ok (m.set a (Cell.VariableOperator t (d + 1)))
      | some (Cell.UnaryOperator _ sub) => addDeepFuelIn n m sub
      | some (Cell.BinaryOperator _ l r) => do
          let m1 ← addDeepFuelIn n m l
          addDeepFuelIn n m1 r
      | some (Cell.Functional root) => addDeepFuelIn n m root
      | some _ => .ok m

/-- The virtual `isParametrique` called through a pointer.  No chain of
pointers is longer than the number of objects. -/
def isParametriqueIn (m : Memory) (p : Pointer) (paramT : TokenType) (deep : Int) :
    Result Bool :=
  isParametriqueFuelIn (m.length + 1) m p paramT deep

/-- The virtual `addDeep` called through a pointer. -/
def addDeepIn (m : Memory) (p : Pointer) : Result Memory :=
  addDeepFuelIn (m.length + 1) m p

mutual
/-- The method `Equation::tokenToOperator` with its allocations; `phi` is the
member `_phi_i_1`. -/
def tokenToOperatorIn (phi : Pointer) : Token → Memory → Result (Memory × Pointer)
  | Token.plain ty, m =>
      if ty = TokenType.var_di ∨ ty = TokenType.var_mi ∨ ty = TokenType.var_xi then
        .ok (make_shared m (Cell.VariableOperator ty 0))
      else if ty = TokenType.phi_i_1 then .ok (make_shared m (Cell.Functional phi))
      else .error (Failure.runtime_error ("Undefined token: " ++ ToString.toString ty.toInt))
  | Token.TokenValue v, m =>
      if v = 1 then .ok (make_shared m Cell.OneValueOperator)
      else if v = 2 then .ok (make_shared m Cell.SquareOperator)
      else .ok (make_shared m (Cell.ConstantOperator v))
  | Token.TokenGroup ty group, m =>
      if ty = TokenType.var_di ∨ ty = TokenType.var_mi ∨ ty = TokenType.var_xi then
        .ok (make_shared m (Cell.VariableOperator ty 0))
      else if ty = TokenType.phi_i_1 then .ok (make_shared m (Cell.Functional phi))
      else if group.isEmpty then .ok (m, none)
      else
        match ty with
        | TokenType.bracket_gr => do
            let (m1, s) ← beginToOperatorIn phi group m
            return make_shared m1 (Cell.UnaryOperator ty s)
        | TokenType.exp_gr => do
            let tag ← firstType group
            let (m1, s) ← rbeginToOperatorIn phi group m
            return make_shared m1 (Cell.UnaryOperator tag s)
        | TokenType.single_minus_gr => do
            let (m1, s) ← rbeginToOperatorIn phi group m
            return make_shared m1 (Cell.UnaryOperator TokenType.minus s)
        | TokenType.ext_gr => do
            let (m1, l) ← beginToOperatorIn phi group m
            let (m2, r) ← rbeginToOperatorIn phi group m1
            return make_shared m2 (Cell.BinaryOperator TokenType.ext l r)
        | TokenType.multipl_gr => do
            let tag ← secondType group
            let (m1, l) ← beginToOperatorIn phi group m
            let (m2, r) ← rbeginToOperatorIn phi group m1
            return make_shared m2 (Cell.BinaryOperator tag l r)
        | TokenType.devision_gr => do
            let tag ← secondType group
            let (m1, l) ← beginToOperatorIn phi group m
            let (m2, r) ← rbeginToOperatorIn phi group m1
            return make_shared m2 (Cell.BinaryOperator tag l r)
        | TokenType.plus_gr => do
            let tag ← secondType group
            let (m1, l) ← beginToOperatorIn phi group m
            let (m2, r) ← rbeginToOperatorIn phi group m1
            return make_shared m2 (Cell.BinaryOperator tag l r)
        | TokenType.minus_gr => do
            let tag ← secondType group
            let (m1, l) ← beginToOperatorIn phi group m
            let (m2, r) ← rbeginToOperatorIn phi group m1
            return make_shared m2 (Cell.BinaryOperator tag l r)
        | _ => .error (Failure.runtime_error "Parser error.")
/-- The call `tokenToOperator(*group.begin())` with its allocations. -/
def beginToOperatorIn (phi : Pointer) : List Token → Memory → Result (Memory × Pointer)
  | [], _ => .error Failure.null_dereference
  | first :: _, m => tokenToOperatorIn phi first m
/-- The call `tokenToOperator(*group.rbegin())` with its allocations. -/
def rbeginToOperatorIn (phi : Pointer) : List Token → Memory → Result (Memory × Pointer)
  | [], _ => .error Failure.null_dereference
  | first :: rest, m =>
      match rest with
      | [] => tokenToOperatorIn phi first m
      | _ :: _ => rbeginToOperatorIn phi rest m
end

/-- The method `Equation::parse` with its allocations, returning the memory
and the new `_sintaxis_tree_root`; `phi` is the member `_phi_i_1`. -/
def Equation.parseIn (m : Memory) (phi : Pointer) (script : String) :
    Result (Memory × Pointer) := do
  let tokens ← tokenize script
  let tokens ← grammatics_rules_apply tokens
  match tokens with
  | [token] => tokenToOperatorIn phi token m
  | _ => throw (Failure.runtime_error ("Mistaken equation: " ++ script))

/-- The constructor `Equation(phi_i_1, use_old_parameters)`: the memory after
the constructor body has run. -/
def Equation.constructIn (m : Memory) (phi_i_1 : Pointer) (use_old_parameters : Bool) :
    Result Memory :=
  if use_old_parameters then addDeepIn m phi_i_1 else .ok m


/-- Number of nodes of a tree. -/
def nodes : Operator → Nat
  | UnaryOperator _ sub => nodes sub + 1
  | BinaryOperator _ l r => nodes l + nodes r + 1
  | Functional root => nodes root + 1
  | _ => 1

/-- The pointer `p` is the root, in the memory `m`, of the tree `t`, the
objects of the tree lie at the addresses `S`, and no object is reached along
two paths. -/
inductive TreeAt (m : Memory) : Finset Nat → Pointer → Operator → Prop
  | constantNode (a : Nat) (v : ℚ) (h : m[a]? = some (Cell.ConstantOperator v)) :
      TreeAt m {a} (some a) (ConstantOperator v)
  | oneNode (a : Nat) (h : m[a]? = some Cell.OneValueOperator) :
      TreeAt m {a} (some a) OneValueOperator
  | squareNode (a : Nat) (h : m[a]? = some Cell.SquareOperator) :
      TreeAt m {a} (some a) SquareOperator
  | variableNode (a : Nat) (t : TokenType) (d : Int)
      (h : m[a]? = some (Cell.VariableOperator t d)) :
      TreeAt m {a} (some a) (VariableOperator t d)
  | unaryNode (a : Nat) (t : TokenType) (b : Pointer) (S : Finset Nat) (sub : Operator)
      (h : m[a]? = some (Cell.UnaryOperator t b)) (hs : TreeAt m S b sub) (ha : a ∉ S) :
      TreeAt m (insert a S) (some a) (UnaryOperator t sub)
  | binaryNode (a : Nat) (t : TokenType) (l r : Pointer) (Sl Sr : Finset Nat) (tl tr : Operator)
      (h : m[a]? = some (Cell.BinaryOperator t l r)) (hl : TreeAt m Sl l tl)
      (hr : TreeAt m Sr r tr) (hd : Disjoint Sl Sr) (hal : a ∉ Sl) (har : a ∉ Sr) :
      TreeAt m (insert a (Sl ∪ Sr)) (some a) (BinaryOperator t tl tr)
  | functionalNode (a : Nat) (b : Pointer) (S : Finset Nat) (root : Operator)
      (h : m[a]? = some (Cell.Functional b)) (hs : TreeAt m S b root) (ha : a ∉ S) :
      TreeAt m (insert a S) (some a) (Functional root)

/-! ## Predicates used by the statements -/

/-- The data-model invariant of a tree: no null pointer inside, every Unary
tag is one of bracket, exponential, negate and every Binary tag one of
power, multiply, divide, add, subtract. -/
def wellFormed : Operator → Bool
  | null => false
  | ConstantOperator _ => true
  | OneValueOperator => true
  | SquareOperator => true
  | VariableOperator _ _ => true
  | UnaryOperator t sub =>
      (t = TokenType.bracket_gr ∨ t = TokenType.exp ∨ t = TokenType.minus) && wellFormed sub
  | BinaryOperator t l r =>
      (t = TokenType.ext ∨ t = TokenType.multipl ∨ t = TokenType.devision ∨ t = TokenType.plus
        ∨ t = TokenType.minus) && wellFormed l && wellFormed r
  | Functional root => wellFormed root

/-- The possible results of `derevative` on a well-formed tree: the
exception of the power case, or a pointer that is null exactly when the tree
does not depend on the target and otherwise a well-formed tree. -/
def Outcome (p : Operator) (t : TokenType) (deep : Int) : Prop :=
  derevative p t deep = .error (Failure.runtime_error "This math operator isn't supported") ∨
  ∃ r, derevative p t deep = .ok r ∧ (r = null ↔ isParametrique p t deep = .ok false) ∧
    (r ≠ null → wellFormed r = true)

/-- The call ends as a C++ call can end: not by exhausting the recursion
budget of the embedding. -/
def Runs {α : Type} (x : Result α) : Prop := x ≠ .error Failure.fuel_exhausted

/-- Every Variable of the tree has a nonnegative depth (the data-model
invariant of `_deep`). -/
def depthsNonneg : Operator → Bool
  | VariableOperator _ d => decide (0 ≤ d)
  | UnaryOperator _ sub => depthsNonneg sub
  | BinaryOperator _ l r => depthsNonneg l && depthsNonneg r
  | Functional root => depthsNonneg root
  | _ => true

/-- Every Variable of the tree has a depth below `INT_MAX`, so that `_deep++`
has a defined result on it. -/
def depthsBelowMax : Operator → Bool
  | VariableOperator _ d => decide (d < INT_MAX)
  | UnaryOperator _ sub => depthsBelowMax sub
  | BinaryOperator _ l r => depthsBelowMax l && depthsBelowMax r
  | Functional root => depthsBelowMax root
  | _ => true

/-! ## Polynomial trees and their denotation -/

/-- The natural number held by an exponent node. -/
def exponentOf (e : Operator) : Nat :=
  match constantValue e with
  | some c => c.num.toNat
  | none => 0

/-- The polynomial, in the indeterminates (symbol, depth), that a tree of
`polynomialTree` denotes; the null pointer denotes zero. -/
noncomputable def toPoly : Operator → MvPolynomial (TokenType × Int) ℚ
  | ConstantOperator v => MvPolynomial.C v
  | OneValueOperator => MvPolynomial.C 1
  | SquareOperator => MvPolynomial.C 2
  | VariableOperator t d => MvPolynomial.X (t, d)
  | UnaryOperator t sub => if t = TokenType.minus then -toPoly sub else toPoly sub
  | BinaryOperator t l r =>
      match t with
      | TokenType.ext => toPoly l ^ exponentOf r
      | TokenType.multipl => toPoly l * toPoly r
      | TokenType.plus => toPoly l + toPoly r
      | TokenType.minus => toPoly l - toPoly r
      | _ => 0
  | _ => 0

/-- The tree with every Variable node replaced by one fixed Variable: two trees
with the same image differ only in the symbols and depths of their Variable
nodes. -/
def eraseVariables : Operator → Operator
  | VariableOperator _ _ => VariableOperator TokenType.var_xi 0
  | UnaryOperator t sub => UnaryOperator t (eraseVariables sub)
  | BinaryOperator t l r => BinaryOperator t (eraseVariables l) (eraseVariables r)
  | Functional root => Functional (eraseVariables root)
  | p => p

/-- The virtual `produce` called through a pointer, to a bounded depth of
nested calls. -/
def produceFuelIn (L : Libm) (context : CalculationContext) :
    Nat → Memory → Pointer → Result ℚ
  | 0, _, _ => .error Failure.fuel_exhausted
  | _ + 1, _, none => .error Failure.null_dereference
  | n + 1, m, some a =>
      match m[a]? with
      | none => .error Failure.null_dereference
      | some (Cell.ConstantOperator v) => .ok v
      | some Cell.OneValueOperator => .ok 1
      | some Cell.SquareOperator => .ok 2
      | some (Cell.VariableOperator _ _) => .ok context._parameterV
      | some (Cell.UnaryOperator t sub) => do
          let v ← produceFuelIn L context n m sub
          match t with
          | TokenType.bracket_gr => return v
          | TokenType.exp_gr => return L.exp v
          | TokenType.minus => return -v
          | _ => throw Failure.bad_function_call
      | some (Cell.BinaryOperator t l r) => do
          let lVl ← produceFuelIn L context n m l
          let rVl ← produceFuelIn L context n m r
          match t with
          | TokenType.ext => return powValue L lVl rVl
          | TokenType.multipl => return lVl * rVl
          | TokenType.devision => return lVl / rVl
          | TokenType.plus => return lVl + rVl
          | TokenType.minus => return lVl - rVl
          | _ => throw Failure.bad_function_call
      | some (Cell.Functional root) => produceFuelIn L context n m root

/-- The virtual `produce` called through a pointer. -/
def produceIn (L : Libm) (context : CalculationContext) (m : Memory) (p : Pointer) : Result ℚ :=
  produceFuelIn L context (m.length + 1) m p

/-- Two objects that differ at most in the symbol and depth of a Variable. -/
def sameButVariable : Cell → Cell → Bool
  | Cell.VariableOperator _ _, Cell.VariableOperator _ _ => true
  | a, b => decide (a = b)

/-- Memories of equal size whose objects differ at most in the symbols and
depths of Variables. -/
def SameButVariables (m m' : Memory) : Prop :=
  m.length = m'.length ∧
    ∀ (a : Nat) (c : Cell), m[a]? = some c →
      ∃ c', m'[a]? = some c' ∧ sameButVariable c c' = true


/-! ## The lexer: texts of tokens -/

/-- The last part of `tokenize`, after the loop (lines 522-529). -/
def tokenizeEnd (st : LexState) : Result (List Token) :=
  if st.isValue then do
    let v ← stod st.buffer
    return st.res ++ [Token.TokenValue v]
  else if !st.buffer.isEmpty then
    throw (Failure.runtime_error ("Undefined symbol: " ++ String.mk st.buffer))
  else return st.res

/-- The character is a digit, a point or a comma (the test of line 500). -/
def isValueChar (ch : Char) : Bool := ch.isDigit || ch == '.' || ch == ','

/-- The character occurs in one of the literals of `g_TokenLiterals`. -/
def occursInLiteral (c : Char) : Bool :=
  g_TokenLiterals.any (fun p => p.1.toList.contains c)

/-- The text is a numeric literal as the lexer reads one: a nonempty run of
digits, points and commas, which `tokenize` collects and hands to `std::stod`. -/
def isNumeral (s : List Char) : Bool := !s.isEmpty && s.all isValueChar

/-- The token is an operand: a variable token or a value token. -/
def isOperandToken : Token → Bool
  | Token.plain ty =>
      decide (ty = TokenType.var_xi ∨ ty = TokenType.var_mi ∨ ty = TokenType.var_di)
  | Token.TokenValue _ => true
  | Token.TokenGroup _ _ => false

/-- The token type is one of the operand types (a variable or a value); no
rule of `s_Grammatics` names such a type. -/
def isOperandType (ty : TokenType) : Bool :=
  decide (ty = TokenType.value ∨ ty = TokenType.var_xi ∨ ty = TokenType.var_mi
    ∨ ty = TokenType.var_di)

/-- Two token types that the rules cannot tell apart: equal, or both operand
types. -/
def sameForRules (a b : TokenType) : Prop :=
  a = b ∨ (isOperandType a = true ∧ isOperandType b = true)

mutual
/-- The token with every token that is not a group replaced by its image
under `σ`, inside groups too. -/
def relabel (σ : Token → Token) : Token → Token
  | Token.TokenGroup ty g => Token.TokenGroup ty (relabelList σ g)
  | Token.plain ty => σ (Token.plain ty)
  | Token.TokenValue v => σ (Token.TokenValue v)
/-- The list with `relabel σ` applied to every token. -/
def relabelList (σ : Token → Token) : List Token → List Token
  | [] => []
  | t :: ts => relabel σ t :: relabelList σ ts
end

/-- What holds of the scan state throughout a scan: the expected token, the
tokens still on the stack and the recorded bracket type all come from the
rule, none of whose token types is an operand type. -/
def ScanInv (rule : Grammatic) (st : ScanState) : Prop :=
  (∀ x ∈ rule._tokenOrdering, isOperandType x = false) ∧
  isOperandType st.expectedToken = false ∧
  (∀ x ∈ st.expectedTokens, isOperandType x = false) ∧
  (∀ b, st.bracket_type = some b → isOperandType b = false)

/-- The substitution that puts the tokens `a`, `b`, `c` in the place of the
value tokens 0, 1, 2 and leaves every other token as it is. -/
def placeOperands (a b c : Token) : Token → Token
  | Token.TokenValue v =>
      if v = 0 then a else if v = 1 then b else if v = 2 then c else Token.TokenValue v
  | t => t


/-! ## The determinant utility (`Assesment_2_2/Matrix.h`) -/

/-- The class `Vector` (`Matrix.h` 8-38): its field `_v`. -/
structure Vector where
  _v : List ℚ
  deriving DecidableEq, Repr

/-- The class `Matrix` (`Matrix.h` 40-186): its field `_v`, the rows. -/
structure Matrix where
  _v : List Vector
  deriving DecidableEq, Repr

/-- The method `Vector::size`. -/
def Vector.size (v : Vector) : Nat := v._v.length

/-- The element access `_v[r][c]` (`operator()(r, c)`); an index that is out of
range has no defined behaviour. -/
def Matrix.get (m : Matrix) (r c : Nat) : Result ℚ :=
  match m._v[r]? with
  | none => .error Failure.null_dereference
  | some row =>
      match row._v[c]? with
      | none => .error Failure.null_dereference
      | some x => .ok x

/-- The method `Matrix::addRow`. -/
def Matrix.addRow (m : Matrix) (row : Vector) : Result Matrix :=
  match m._v with
  | first :: _ =>
      if first.size ≠ row.size then
        .error (Failure.runtime_error "Numbers of columns is defferent")
      else .ok { _v := m._v ++ [row] }
  | [] => .ok { _v := m._v ++ [row] }

/-- The method `Matrix::isEmpty`. -/
def Matrix.isEmpty (m : Matrix) : Bool := m._v.isEmpty

/-- The method `Matrix::isSquare`. -/
def Matrix.isSquare (m : Matrix) : Bool :=
  match m._v with
  | [] => true
  | first :: _ => decide (m._v.length = first.size)

/-- The method `calculateVectorWithBiggestNumberOfZeroElements<amongRows>`: the
pair (`vectorNumber`, `numberOfZeroElements`). -/
def Matrix.calculateVectorWithBiggestNumberOfZeroElements (m : Matrix) (amongRows : Bool) :
    Result (Nat × Nat) :=
  (List.range m._v.length).foldlM
    (fun (best : Nat × Nat) i => do
      let currentNumberOfZeroElements ←
        (List.range m._v.length).foldlM
          (fun (count : Nat) j => do
            let elem ← (if amongRows then m.get i j else m.get j i)
            return (if elem = 0 then count + 1 else count))
          0
      return (if currentNumberOfZeroElements > best.2 then (i, currentNumberOfZeroElements)
        else best))
    (0, 0)

/-- The method `Matrix::minor`. -/
def Matrix.minor (m : Matrix) (r c : Nat) : Result Matrix :=
  (List.range m._v.length).foldlM
    (fun (res : Matrix) i =>
      if i = r then pure res
      else do
        let vc ←
          (List.range m._v.length).foldlM
            (fun (vc : Vector) j =>
              if j = c then pure vc
              else do
                let x ← m.get i j
                return { _v := vc._v ++ [x] })
            { _v := [] }
        res.addRow vc)
    { _v := [] }

/-- The method `Matrix::algebraicСomplement`; `self` stands for the call of
`calculateDeterminantLaplaceExpansion` on the minor. -/
def Matrix.algebraicComplement (self : Matrix → Result ℚ) (m : Matrix) (r c : Nat) :
    Result ℚ := do
  let minorRC ← m.minor r c
  let detMinorRC ← self minorRC
  let sign : ℚ := if (r + c) % 2 = 0 then 1 else -1
  return sign * detMinorRC

/-- One activation of `calculateDeterminantLaplaceExpansion`; `self` stands
for the recursive call made by `algebraicСomplement`. -/
def Matrix.determinantBody (self : Matrix → Result ℚ) (m : Matrix) : Result ℚ :=
  if m._v.length = 1 then m.get 0 0
  else if m._v.length = 2 then do
    let a ← m.get 0 0
    let d ← m.get 1 1
    let c ← m.get 1 0
    let b ← m.get 0 1
    return (a * d) - (c * b)
  else do
    let (biggestRow, numZeroElemInRow) ← m.calculateVectorWithBiggestNumberOfZeroElements true
    let (biggestCol, numZeroElemInCol) ← m.calculateVectorWithBiggestNumberOfZeroElements false
    let alongRows : Bool := decide (numZeroElemInRow ≥ numZeroElemInCol)
    let biggestVector := if alongRows then biggestRow else biggestCol
    (List.range m._v.length).foldlM
      (fun (res : ℚ) i => do
        let v ← (if alongRows then m.get biggestVector i else m.get i biggestVector)
        if v = 0 then return res
        else do
          let det ←
            (if alongRows then m.algebraicComplement self biggestVector i
             else m.algebraicComplement self i biggestVector)
          return res + v * det)
      0

/-- The method `calculateDeterminantLaplaceExpansion` unrolled to a bounded
depth of nested calls. -/
def Matrix.determinantFuel : Nat → Matrix → Result ℚ
  | 0, _ => .error Failure.fuel_exhausted
  | n + 1, m => Matrix.determinantBody (Matrix.determinantFuel n) m

/-- The method `Matrix::calculateDeterminantLaplaceExpansion`.  Every nested
call works on a minor, which has one row less, so the number of rows bounds the
nesting. -/
def Matrix.calculateDeterminantLaplaceExpansion (m : Matrix) : Result ℚ :=
  Matrix.determinantFuel (m._v.length + 1) m

/-- The entry in row `i`, column `j`, zero outside the matrix. -/
def Matrix.entry (m : Matrix) (i j : Nat) : ℚ :=
  match m._v[i]? with
  | none => 0
  | some row => row._v.getD j 0

/-- The matrix has `n` rows of `n` entries each. -/
def Matrix.squareOf (n : Nat) (m : Matrix) : Prop :=
  m._v.length = n ∧ ∀ row ∈ m._v, row._v.length = n

/-- The matrix of Mathlib with the entries of the first `n` rows and
columns. -/
def Matrix.toMat (m : Matrix) (n : Nat) := Matrix.of (fun (i j : Fin n) => m.entry i j)

/-- The index map that skips position `x`: the value of `Fin.succAbove`. -/
def skipIndex (x i : Nat) : Nat := if i < x then i else i + 1

/-! ## Predicates for the later claims -/

/-- The power nodes of the tree all pass the guards of lines 329-340 for the
target `(t, deep)`: the exponent does not depend on the target and, when the
base depends on it, the exponent is a constant node. -/
def supported (t : TokenType) (deep : Int) : Operator → Bool
  | UnaryOperator _ sub => supported t deep sub
  | BinaryOperator bt l r =>
      supported t deep l && supported t deep r &&
        (decide (bt ≠ TokenType.ext) ||
          (decide (isParametrique r t deep = .ok false) &&
            (decide (isParametrique l t deep = .ok false) || (constantValue r).isSome)))
  | Functional root => supported t deep root
  | _ => true

/-- Every Unary tag of the tree is one of bracket, exponential, negate and
every Binary tag one of power, multiply, divide, add, subtract; a child
pointer may be null. -/
def knownTags : Operator → Bool
  | UnaryOperator t sub =>
      (t = TokenType.bracket_gr ∨ t = TokenType.exp ∨ t = TokenType.minus) && knownTags sub
  | BinaryOperator t l r =>
      (t = TokenType.ext ∨ t = TokenType.multipl ∨ t = TokenType.devision ∨ t = TokenType.plus
        ∨ t = TokenType.minus) && knownTags l && knownTags r
  | Functional root => knownTags root
  | _ => true

/-- What the reverse scan of `ruleProcessor` keeps true when `k` tokens are
still to be visited (the positions below `k`).  After the `break` the range
`[firstSubToken, endSubToken)` holds at least two tokens.  Before it,
`firstSubToken` is `tokens.end()`; once the closing token of a bracket pair is
matched `endSubToken` stands behind a visited token; and with `j` consecutive
tokens matched outside a bracket pair `endSubToken` stands behind the first of
them. -/
def ScanBound (rule : Grammatic) (len k : Nat) (st : ScanState) : Prop :=
  st.endSubToken ≤ len ∧
  (st.stopped = true → st.firstSubToken + 2 ≤ st.endSubToken) ∧
  (st.stopped = false → st.firstSubToken = len ∧
    (st.allMode = true → rule._grType ≠ TokenType.single_minus_gr ∧
      st.expectedTokens = [] ∧ st.expectedToken ≠ TokenType.nothing ∧
      k + 1 ≤ st.endSubToken) ∧
    (st.allMode = false → ∃ j, j < rule._tokenOrdering.length ∧
      st.expectedToken :: st.expectedTokens = rule._tokenOrdering.reverse.drop j ∧
      (0 < j → st.endSubToken = k + j)))

/-! # Theorems -/

/-! ## The `Result` monad -/

section ResultLemmas
variable {α β : Type}

@[simp] theorem Result.ok_bind (a : α) (f : α → Result β) :
    ((Except.ok a : Result α) >>= f) = f a := rfl

@[simp] theorem Result.error_bind (e : Failure) (f : α → Result β) :
    ((Except.error e : Result α) >>= f) = Except.error e := rfl

@[simp] theorem Result.pure_eq (a : α) : (pure a : Result α) = Except.ok a := rfl

@[simp] theorem Result.throw_eq (e : Failure) : (throw e : Result α) = Except.error e := rfl

@[simp] theorem Result.map_ok (f : α → β) (a : α) :
    (f <$> (Except.ok a : Result α)) = Except.ok (f a) := rfl

@[simp] theorem Result.map_error (f : α → β) (e : Failure) :
    (f <$> (Except.error e : Result α)) = Except.error e := rfl

end ResultLemmas

theorem weight_pos (p : Operator) : 0 < weight p := by
  cases p <;> simp [weight]
  split <;> omega

theorem isNearOne_SquareOperator : isNearOne SquareOperator = .ok false := by
  simp only [isNearOne]
  congr 1
  rw [decide_eq_false_iff_not]
  norm_num [fabs, tol]

theorem weight_clone_le (p q : Operator) (h : clone p = .ok q) : weight q ≤ weight p := by
  induction p generalizing q with
  | null => simp [clone] at h
  | ConstantOperator v => simp [clone] at h; subst h; simp [weight]
  | OneValueOperator => simp [clone] at h; subst h; simp [weight]
  | SquareOperator => simp [clone] at h; subst h; simp [weight]
  | VariableOperator t d => simp [clone] at h; subst h; simp [weight]
  | UnaryOperator t sub ih =>
      simp only [clone] at h
      cases hs : clone sub with
      | error e => simp [hs] at h
      | ok s =>
          simp [hs] at h
          subst h
          have := ih s hs
          simp [weight]; omega
  | BinaryOperator t l r ihl ihr =>
      simp only [clone] at h
      cases hl : clone l with
      | error e => simp [hl] at h
      | ok lc =>
        cases hr : clone r with
        | error e => simp [hl, hr] at h
        | ok rc =>
          simp [hl, hr] at h
          subst h
          have h1 := ihl lc hl
          have h2 := ihr rc hr
          simp only [weight]
          split
          · have := Nat.mul_le_mul h1 h1
            omega
          · omega
  | Functional root ih =>
      simp only [clone] at h
      have := ih q h
      simp [weight]; omega

theorem weight_operator_mul_le (a b c : Operator) (h : operator_mul a b = .ok c) :
    weight c ≤ weight a + weight b + 1 := by
  unfold operator_mul at h
  cases ha : isNearOne a with
  | error e => simp [ha] at h
  | ok x =>
    cases x with
    | true => simp [ha] at h; subst h; omega
    | false =>
      cases hb : isNearOne b with
      | error e => simp [ha, hb] at h
      | ok y =>
        cases y with
        | true => simp [ha, hb] at h; subst h; omega
        | false => simp [ha, hb] at h; subst h; simp [weight]

theorem operator_pow_SquareOperator (a : Operator) :
    operator_pow a SquareOperator = .ok (BinaryOperator TokenType.ext a SquareOperator) := by
  simp [operator_pow, isNearOne_SquareOperator]

theorem weight_expandedSquare_lt (ut st : TokenType) (sl sr right e : Operator)
    (hst : st = TokenType.plus ∨ st = TokenType.minus)
    (h : expandedSquare st sl sr = .ok e) :
    weight e < weight (BinaryOperator TokenType.ext
      (UnaryOperator ut (BinaryOperator st sl sr)) right) := by
  unfold expandedSquare at h
  cases hl : clone sl with
  | error x => simp [hl] at h
  | ok llc =>
    cases hr : clone sr with
    | error x => simp [hl, hr] at h
    | ok rrc =>
      simp only [hl, hr, Result.ok_bind, operator_pow_SquareOperator] at h
      cases h1 : operator_mul SquareOperator llc with
      | error x => simp [h1] at h
      | ok two_llc =>
        cases h2 : operator_mul two_llc rrc with
        | error x => simp [h1, h2] at h
        | ok two_ab =>
          simp only [h1, h2, Result.ok_bind, Result.pure_eq, Except.ok.injEq] at h
          have b1 := weight_operator_mul_le _ _ _ h1
          have b2 := weight_operator_mul_le _ _ _ h2
          have c1 := weight_clone_le _ _ hl
          have c2 := weight_clone_le _ _ hr
          have p1 := weight_pos llc
          have p2 := weight_pos rrc
          have p3 := weight_pos right
          have hne : st ≠ TokenType.ext := by rcases hst with h | h <;> simp [h]
          have q1 := Nat.mul_le_mul c1 c1
          have q2 := Nat.mul_le_mul c2 c2
          subst h
          simp only [weight, operator_plus, operator_minus, hne, if_false, if_true] at *
          have e1 : weight (if st = TokenType.plus then
              BinaryOperator TokenType.plus (BinaryOperator TokenType.ext llc SquareOperator) two_ab
            else BinaryOperator TokenType.minus (BinaryOperator TokenType.ext llc SquareOperator) two_ab)
              = weight llc * weight llc + 1 + 1 + weight two_ab + 1 := by
            split <;> simp [weight]
          simp only [e1, reduceCtorEq, if_false]
          nlinarith

/-! ## Unfolding `derevative` -/

theorem weight_left_lt (bt : TokenType) (l r : Operator) :
    weight l < weight (BinaryOperator bt l r) := by
  have h1 := weight_pos l
  have h2 := weight_pos r
  simp only [weight]
  split
  · nlinarith
  · omega

theorem weight_right_lt (bt : TokenType) (l r : Operator) :
    weight r < weight (BinaryOperator bt l r) := by
  simp only [weight]
  split <;> omega

theorem derevativePower_congr (f g : Operator → Result Operator) (left right l r : Operator)
    (h : ∀ q, weight q < weight (BinaryOperator TokenType.ext left right) → f q = g q) :
    derevativePower f left right l r = derevativePower g left right l r := by
  unfold derevativePower
  split
  · rfl
  · split
    · rfl
    · split
      · rfl
      · split
        · rfl
        · split
          · rename_i ut st sl sr _ _
            split
            · rename_i hst
              cases he : expandedSquare st sl sr with
              | error x => rfl
              | ok e =>
                  simp only [Result.ok_bind]
                  exact h e (weight_expandedSquare_lt ut st sl sr _ e hst he)
            · rfl
          · rfl

theorem derevativeBody_congr (f g : Operator → Result Operator) (t : TokenType) (deep : Int)
    (p : Operator) (h : ∀ q, weight q < weight p → f q = g q) :
    derevativeBody f t deep p = derevativeBody g t deep p := by
  cases p with
  | null => rfl
  | ConstantOperator v => rfl
  | OneValueOperator => rfl
  | SquareOperator => rfl
  | VariableOperator vt d => rfl
  | UnaryOperator ut sub =>
      have hs : f sub = g sub := h sub (by simp [weight])
      simp only [derevativeBody, hs]
  | BinaryOperator bt l r =>
      have hl : f l = g l := h l (weight_left_lt bt l r)
      have hr : f r = g r := h r (weight_right_lt bt l r)
      by_cases hbt : bt = TokenType.ext
      · subst hbt
        simp only [derevativeBody, hl, hr]
        have := fun a b => derevativePower_congr f g l r a b h
        simp only [this]
      · cases bt <;> first | exact absurd rfl hbt | simp only [derevativeBody, hl, hr]
  | Functional root =>
      have hs : f root = g root := h root (by simp [weight])
      simp only [derevativeBody, hs]

theorem derevativeFuel_stable (t : TokenType) (deep : Int) :
    ∀ (n m : Nat) (p : Operator), weight p ≤ n → weight p ≤ m →
      derevativeFuel t deep n p = derevativeFuel t deep m p := by
  intro n
  induction n with
  | zero => intro m p h; have := weight_pos p; omega
  | succ n ih =>
      intro m p hn hm
      cases m with
      | zero => have := weight_pos p; omega
      | succ m =>
          simp only [derevativeFuel]
          apply derevativeBody_congr
          intro q hq
          exact ih m q (by omega) (by omega)

theorem derevative_unfold (p : Operator) (t : TokenType) (deep : Int) :
    derevative p t deep = derevativeBody (fun q => derevative q t deep) t deep p := by
  unfold derevative
  obtain ⟨k, hk⟩ : ∃ k, weight p = k + 1 := ⟨weight p - 1, by have := weight_pos p; omega⟩
  rw [hk]
  simp only [derevativeFuel]
  apply derevativeBody_congr
  intro q hq
  exact derevativeFuel_stable t deep k (weight q) q (by omega) (le_refl _)

/-! ## Well-formed trees -/

theorem wellFormed_ne_null (p : Operator) (h : wellFormed p = true) : p ≠ null := by
  intro hp; subst hp; simp [wellFormed] at h

theorem isParametrique_total (p : Operator) (t : TokenType) (deep : Int)
    (h : wellFormed p = true) : ∃ b, isParametrique p t deep = .ok b := by
  induction p with
  | null => simp [wellFormed] at h
  | ConstantOperator v => exact ⟨_, rfl⟩
  | OneValueOperator => exact ⟨_, rfl⟩
  | SquareOperator => exact ⟨_, rfl⟩
  | VariableOperator vt d => exact ⟨_, rfl⟩
  | UnaryOperator ut sub ih =>
      simp only [wellFormed, Bool.and_eq_true] at h
      simpa [isParametrique] using ih h.2
  | BinaryOperator bt l r ihl ihr =>
      simp only [wellFormed, Bool.and_eq_true] at h
      obtain ⟨bl, hl⟩ := ihl h.1.2
      obtain ⟨br, hr⟩ := ihr h.2
      cases bl <;> simp [isParametrique, hl, hr]
  | Functional root ih =>
      simp only [wellFormed] at h
      simpa [isParametrique] using ih h

theorem clone_wellFormed (p : Operator) (h : wellFormed p = true) :
    ∃ c, clone p = .ok c ∧ wellFormed c = true ∧
      ∀ t deep, isParametrique c t deep = isParametrique p t deep := by
  induction p with
  | null => simp [wellFormed] at h
  | ConstantOperator v => exact ⟨_, rfl, rfl, fun _ _ => rfl⟩
  | OneValueOperator => exact ⟨_, rfl, rfl, fun _ _ => rfl⟩
  | SquareOperator => exact ⟨_, rfl, rfl, fun _ _ => rfl⟩
  | VariableOperator vt d => exact ⟨_, rfl, rfl, fun _ _ => rfl⟩
  | UnaryOperator ut sub ih =>
      simp only [wellFormed, Bool.and_eq_true] at h
      obtain ⟨c, hc, hw, hp⟩ := ih h.2
      refine ⟨UnaryOperator ut c, by simp [clone, hc], by simp [wellFormed, hw, h.1], ?_⟩
      intro t deep
      simp [isParametrique, hp]
  | BinaryOperator bt l r ihl ihr =>
      simp only [wellFormed, Bool.and_eq_true] at h
      obtain ⟨cl, hcl, hwl, hpl⟩ := ihl h.1.2
      obtain ⟨cr, hcr, hwr, hpr⟩ := ihr h.2
      refine ⟨BinaryOperator bt cl cr, by simp [clone, hcl, hcr],
        by simp [wellFormed, hwl, hwr, h.1.1], ?_⟩
      intro t deep
      simp [isParametrique, hpl, hpr]
  | Functional root ih =>
      simp only [wellFormed] at h
      obtain ⟨c, hc, hw, hp⟩ := ih h
      exact ⟨c, by simp [clone, hc], hw, fun t deep => by simp [isParametrique, hp]⟩

theorem isNearOne_total (p : Operator) (h : p ≠ null) : ∃ b, isNearOne p = .ok b := by
  cases p <;> first | exact absurd rfl h | exact ⟨_, rfl⟩

theorem operator_mul_total (a b : Operator) (ha : a ≠ null) (hb : b ≠ null) :
    ∃ c, operator_mul a b = .ok c ∧ c ≠ null ∧
      (c = a ∨ c = b ∨ c = BinaryOperator TokenType.multipl a b) := by
  obtain ⟨x, hx⟩ := isNearOne_total a ha
  obtain ⟨y, hy⟩ := isNearOne_total b hb
  cases x <;> cases y <;> simp [operator_mul, hx, hy, ha, hb]

theorem operator_pow_total (a b : Operator) (ha : a ≠ null) (hb : b ≠ null) :
    ∃ c, operator_pow a b = .ok c ∧ c ≠ null ∧
      (c = a ∨ c = BinaryOperator TokenType.ext a b) := by
  obtain ⟨y, hy⟩ := isNearOne_total b hb
  cases y <;> simp [operator_pow, hy, ha]

theorem wellFormed_operator_mul (a b c : Operator) (ha : wellFormed a = true)
    (hb : wellFormed b = true) (h : operator_mul a b = .ok c) : wellFormed c = true := by
  obtain ⟨c2, h2, _, h3⟩ := operator_mul_total a b (wellFormed_ne_null a ha) (wellFormed_ne_null b hb)
  rw [h] at h2
  cases h2
  rcases h3 with h3 | h3 | h3 <;> subst h3 <;> simp [wellFormed, ha, hb]

theorem isParametrique_of_isNearOne (a : Operator) (t : TokenType) (deep : Int)
    (h : isNearOne a = .ok true) : isParametrique a t deep = .ok false := by
  cases a <;> simp [isNearOne] at h <;> rfl

theorem isParametrique_binary (bt : TokenType) (a b : Operator) (t : TokenType) (deep : Int)
    (x y : Bool) (ha : isParametrique a t deep = .ok x) (hb : isParametrique b t deep = .ok y) :
    isParametrique (BinaryOperator bt a b) t deep = .ok (x || y) := by
  cases x <;> simp [isParametrique, ha, hb]

theorem isParametrique_operator_mul (a b c : Operator) (t : TokenType) (deep : Int)
    (x y : Bool) (ha : isParametrique a t deep = .ok x) (hb : isParametrique b t deep = .ok y)
    (h : operator_mul a b = .ok c) : isParametrique c t deep = .ok (x || y) := by
  unfold operator_mul at h
  cases h1 : isNearOne a with
  | error e => simp [h1] at h
  | ok u =>
    cases u with
    | true =>
        simp [h1] at h; subst h
        have := isParametrique_of_isNearOne a t deep h1
        rw [ha] at this; cases this
        simpa using hb
    | false =>
      cases h2 : isNearOne b with
      | error e => simp [h1, h2] at h
      | ok v =>
        cases v with
        | true =>
            simp [h1, h2] at h; subst h
            have := isParametrique_of_isNearOne b t deep h2
            rw [hb] at this; cases this
            simpa using ha
        | false =>
            simp [h1, h2] at h; subst h
            exact isParametrique_binary _ a b t deep x y ha hb

theorem expandedSquare_total (st : TokenType) (sl sr : Operator) (t : TokenType) (deep : Int)
    (x y : Bool) (hst : st = TokenType.plus ∨ st = TokenType.minus)
    (hl : wellFormed sl = true) (hr : wellFormed sr = true)
    (hx : isParametrique sl t deep = .ok x) (hy : isParametrique sr t deep = .ok y) :
    ∃ e, expandedSquare st sl sr = .ok e ∧ wellFormed e = true ∧
      isParametrique e t deep = .ok (x || y) := by
  obtain ⟨llc, hcl, hwl, hpl⟩ := clone_wellFormed sl hl
  obtain ⟨rrc, hcr, hwr, hpr⟩ := clone_wellFormed sr hr
  have hS : wellFormed SquareOperator = true := rfl
  obtain ⟨two_llc, h1, _, _⟩ := operator_mul_total SquareOperator llc (by simp)
    (wellFormed_ne_null _ hwl)
  have hw1 := wellFormed_operator_mul _ _ _ hS hwl h1
  obtain ⟨two_ab, h2, _, _⟩ := operator_mul_total two_llc rrc (wellFormed_ne_null _ hw1)
    (wellFormed_ne_null _ hwr)
  have hw2 := wellFormed_operator_mul _ _ _ hw1 hwr h2
  have hxl : isParametrique llc t deep = .ok x := by rw [hpl, hx]
  have hyr : isParametrique rrc t deep = .ok y := by rw [hpr, hy]
  have p1 : isParametrique two_llc t deep = .ok (false || x) :=
    isParametrique_operator_mul SquareOperator llc two_llc t deep false x rfl hxl h1
  have p2 : isParametrique two_ab t deep = .ok ((false || x) || y) :=
    isParametrique_operator_mul _ _ _ t deep _ y p1 hyr h2
  have pS : isParametrique SquareOperator t deep = .ok false := rfl
  have p3 := isParametrique_binary TokenType.ext llc SquareOperator t deep x false hxl pS
  have p4 := isParametrique_binary TokenType.ext rrc SquareOperator t deep y false hyr pS
  refine ⟨operator_plus
      (if st = TokenType.plus then
        operator_plus (BinaryOperator TokenType.ext llc SquareOperator) two_ab
      else operator_minus (BinaryOperator TokenType.ext llc SquareOperator) two_ab)
      (BinaryOperator TokenType.ext rrc SquareOperator), ?_, ?_, ?_⟩
  · simp [expandedSquare, hcl, hcr, operator_pow_SquareOperator, h1, h2]
  · rcases hst with h | h <;> subst h <;>
      simp [operator_plus, operator_minus, wellFormed, hwl, hwr, hw2]
  · rcases hst with h | h <;> subst h <;> simp only [operator_plus, operator_minus, if_true,
      reduceCtorEq, if_false]
    · have p5 := isParametrique_binary TokenType.plus _ _ t deep _ _ p3 p2
      have p6 := isParametrique_binary TokenType.plus _ _ t deep _ _ p5 p4
      rw [p6]; cases x <;> cases y <;> rfl
    · have p5 := isParametrique_binary TokenType.minus _ _ t deep _ _ p3 p2
      have p6 := isParametrique_binary TokenType.plus _ _ t deep _ _ p5 p4
      rw [p6]; cases x <;> cases y <;> rfl

theorem powerRule_total (left right l : Operator) (cv : ℚ) (hl : wellFormed left = true)
    (hr : wellFormed right = true) (hd : wellFormed l = true) :
    ∃ c, powerRule left right cv l = .ok c ∧ wellFormed c = true := by
  obtain ⟨rc, hrc, hwr, _⟩ := clone_wellFormed right hr
  obtain ⟨lc, hlc, hwl, _⟩ := clone_wellFormed left hl
  have hk : wellFormed (ConstantOperator (cv - 1)) = true := rfl
  obtain ⟨p, hp, _, hp3⟩ := operator_pow_total lc (ConstantOperator (cv - 1))
    (wellFormed_ne_null _ hwl) (by simp)
  have hwp : wellFormed p = true := by
    rcases hp3 with h | h <;> subst h <;> simp [wellFormed, hwl]
  obtain ⟨cp, hcp, _, _⟩ := operator_mul_total rc p (wellFormed_ne_null _ hwr)
    (wellFormed_ne_null _ hwp)
  have hwcp := wellFormed_operator_mul _ _ _ hwr hwp hcp
  obtain ⟨c, hc, _, _⟩ := operator_mul_total cp l (wellFormed_ne_null _ hwcp)
    (wellFormed_ne_null _ hd)
  exact ⟨c, by simp [powerRule, hrc, hlc, hp, hcp, hc], wellFormed_operator_mul _ _ _ hwcp hd hc⟩

/-! ## The result of `derevative` on a well-formed tree -/

/-- The two ways the power case ends when the exponent is a constant other
than the OneValue node and the base derivative `l` is a tree: the expanded
square is differentiated, which needs the exponent to be the Square node and
the base a Unary node around a sum or difference, or the general power rule
is applied. -/
theorem derevativePower_cases (f : Operator → Result Operator) (left right l : Operator)
    (cv : ℚ) (hl : l ≠ null) (hcv : constantValue right = some cv)
    (hone : right ≠ OneValueOperator) :
    (∃ ut st sl sr, left = UnaryOperator ut (BinaryOperator st sl sr) ∧ right = SquareOperator ∧
      (st = TokenType.plus ∨ st = TokenType.minus) ∧
      derevativePower f left right l null = (expandedSquare st sl sr >>= f)) ∨
    derevativePower f left right l null = powerRule left right cv l := by
  unfold derevativePower
  simp only [hl, hcv, hone, ne_eq, not_true_eq_false, if_false]
  split
  · rename_i ut st sl sr
    split
    · rename_i hst
      left; exact ⟨ut, st, sl, sr, rfl, rfl, hst, rfl⟩
    · right; rfl
  · right; rfl

/-- The locals `l` and `r` of `BinaryOperator::derevative`, lines 322-323. -/
theorem child_outcome (c : Operator) (t : TokenType) (deep : Int) (b : Bool)
    (hb : isParametrique c t deep = .ok b) (ho : Outcome c t deep) :
    (do if (← isParametrique c t deep) then derevative c t deep else pure null) =
        .error (Failure.runtime_error "This math operator isn't supported") ∨
    ∃ r, (do if (← isParametrique c t deep) then derevative c t deep else pure null) = .ok r ∧
      (r = null ↔ b = false) ∧ (r ≠ null → wellFormed r = true) := by
  cases b with
  | false => right; exact ⟨null, by simp [hb], by simp, by simp⟩
  | true =>
    rcases ho with h | ⟨r, h1, h2, h3⟩
    · left; simp [hb, h]
    · right; refine ⟨r, by simp [hb, h1], ?_, h3⟩
      rw [h2, hb]; simp

theorem derevative_outcome_aux (t : TokenType) (deep : Int) :
    ∀ (n : Nat) (p : Operator), weight p ≤ n → wellFormed p = true → Outcome p t deep := by
  intro n
  induction n with
  | zero => intro p h; have := weight_pos p; omega
  | succ n ih =>
    intro p hn hw
    cases p with
    | null => simp [wellFormed] at hw
    | ConstantOperator v =>
        right; exact ⟨null, by rw [derevative_unfold]; rfl, by simp [isParametrique], by simp⟩
    | OneValueOperator =>
        right; exact ⟨null, by rw [derevative_unfold]; rfl, by simp [isParametrique], by simp⟩
    | SquareOperator =>
        right; exact ⟨null, by rw [derevative_unfold]; rfl, by simp [isParametrique], by simp⟩
    | VariableOperator vt d =>
        right
        refine ⟨if t = vt ∧ d = deep then OneValueOperator else null,
          by rw [derevative_unfold]; rfl, ?_, ?_⟩
        · by_cases h : t = vt ∧ d = deep
          · simp [h, isParametrique]
          · simp only [h, if_false, true_iff, isParametrique]
            congr 1
            simp only [Bool.and_eq_false_imp, decide_eq_true_eq, decide_eq_false_iff_not]
            intro h1 h2; exact h ⟨h2.symm, h1⟩
        · intro _; split <;> simp_all [wellFormed]
    | Functional root =>
        simp only [wellFormed] at hw
        have := ih root (by simp [weight] at hn; omega) hw
        unfold Outcome at *
        rw [derevative_unfold]
        simpa only [derevativeBody, isParametrique] using this
    | UnaryOperator ut sub =>
        simp only [wellFormed, Bool.and_eq_true, decide_eq_true_eq] at hw
        obtain ⟨hut, hws⟩ := hw
        have hsub := ih sub (by simp [weight] at hn; omega) hws
        obtain ⟨b, hb⟩ := isParametrique_total sub t deep hws
        unfold Outcome
        rw [derevative_unfold]
        simp only [derevativeBody, isParametrique, hb]
        cases b with
        | false => right; exact ⟨null, by simp, by simp, by simp⟩
        | true =>
          rcases hsub with h | ⟨r, h1, h2, h3⟩
          · left; simp [h]
          · have hr : r ≠ null := by
              intro h; rw [h2.mp h] at hb; cases hb
            have hwr := h3 hr
            right
            rcases hut with h | h | h <;> subst h
            · exact ⟨r, by simp [h1], by simp [hr], fun _ => hwr⟩
            · obtain ⟨c, hc, hwc, _⟩ := clone_wellFormed (UnaryOperator TokenType.exp sub)
                (by simp [wellFormed, hws])
              obtain ⟨m, hm, hm2, _⟩ := operator_mul_total c r (wellFormed_ne_null _ hwc) hr
              exact ⟨m, by simp [h1, hc, hm], by simp [hm2],
                fun _ => wellFormed_operator_mul _ _ _ hwc hwr hm⟩
            · exact ⟨UnaryOperator TokenType.minus r, by simp [h1], by simp,
                fun _ => by simp [wellFormed, hwr]⟩
    | BinaryOperator bt l r =>
        simp only [wellFormed, Bool.and_eq_true, decide_eq_true_eq] at hw
        obtain ⟨⟨hbt, hwl⟩, hwr⟩ := hw
        have hwtl := weight_left_lt bt l r
        have hwtr := weight_right_lt bt l r
        obtain ⟨bl, hbl⟩ := isParametrique_total l t deep hwl
        obtain ⟨br, hbr⟩ := isParametrique_total r t deep hwr
        have hP := isParametrique_binary bt l r t deep bl br hbl hbr
        have hL := child_outcome l t deep bl hbl (ih l (by omega) hwl)
        have hR := child_outcome r t deep br hbr (ih r (by omega) hwr)
        unfold Outcome
        rw [derevative_unfold, hP]
        simp only [derevativeBody]
        rcases hL with hL | ⟨dl, hL, hl2, hl3⟩
        · left; rw [hL]; rfl
        rcases hR with hR | ⟨dr, hR, hr2, hr3⟩
        · left; rw [hL, hR]; rfl
        rw [hL, hR]
        simp only [Result.ok_bind]
        have hbl2 : bl = true ↔ dl ≠ null := by
          rw [Ne, hl2]; cases bl <;> simp
        have hbr2 : br = true ↔ dr ≠ null := by
          rw [Ne, hr2]; cases br <;> simp
        have hres : ∀ x : Operator, (x = null ↔ dl = null ∧ dr = null) →
            (x = null ↔ (Except.ok (bl || br) : Result Bool) = Except.ok false) := by
          intro x hx
          rw [hx, hl2, hr2]; cases bl <;> cases br <;> simp
        obtain ⟨cl, hcl, hwcl, _⟩ := clone_wellFormed l hwl
        obtain ⟨cr, hcr, hwcr, _⟩ := clone_wellFormed r hwr
        rcases hbt with h | h | h | h | h <;> subst h <;> simp only []
        · -- power
          unfold derevativePower
          by_cases hdr : dr = null
          swap
          · left; simp [hdr]
          by_cases hdl : dl = null
          · right; exact ⟨null, by simp [hdl, hdr], hres _ (by simp [hdl, hdr]), by simp⟩
          simp only [hdr, hdl, ne_eq, not_true_eq_false, if_false]
          cases hcv : constantValue r with
          | none => left; rfl
          | some cv =>
            simp only []
            by_cases hone : r = OneValueOperator
            · right; exact ⟨dl, by simp [hone], hres _ (by simp [hdl]), hl3⟩
            simp only [hone, if_false]
            have hpr : ∃ c, powerRule l r cv dl = .ok c ∧ wellFormed c = true :=
              powerRule_total l r dl cv hwl hwr (hl3 hdl)
            have hgoal := derevativePower_cases (fun q => derevative q t deep) l r dl cv hdl hcv hone
            unfold derevativePower at hgoal
            simp only [hdl, hcv, hone, ne_eq, not_true_eq_false, if_false] at hgoal
            rcases hgoal with ⟨ut, st, sl, sr, hl, hr, hst, hg⟩ | hg
            · subst hl
              rw [hg]
              simp only [wellFormed, Bool.and_eq_true, decide_eq_true_eq] at hwl
              obtain ⟨x, hx⟩ := isParametrique_total sl t deep hwl.2.1.2
              obtain ⟨y, hy⟩ := isParametrique_total sr t deep hwl.2.2
              obtain ⟨e, he, hwe, hpe⟩ :=
                expandedSquare_total st sl sr t deep x y hst hwl.2.1.2 hwl.2.2 hx hy
              have hlt := weight_expandedSquare_lt ut st sl sr r e hst he
              have hxy : bl = (x || y) := by
                have := isParametrique_binary st sl sr t deep x y hx hy
                simp only [isParametrique] at hbl this
                rw [this] at hbl
                cases hbl; rfl
              have hbl1 : bl = true := hbl2.mpr hdl
              rcases ih e (by omega) hwe with h | ⟨d, h1, h2, h3⟩
              · left; simp [he, h]
              · right
                have hd : d ≠ null := by
                  intro h; rw [h2.mp h, ← hxy, hbl1] at hpe; cases hpe
                exact ⟨d, by simp [he, h1], hres _ (by simp [hd, hdl]), h3⟩
            · rw [hg]
              obtain ⟨c, hc, hwc⟩ := hpr
              right
              exact ⟨c, hc, hres _ (by simp [wellFormed_ne_null _ hwc, hdl]), fun _ => hwc⟩
        · -- multiply
          right
          by_cases hdl : dl = null <;> by_cases hdr : dr = null
          · exact ⟨null, by simp [hdl, hdr], hres _ (by simp [hdl, hdr]), by simp⟩
          · obtain ⟨m, hm, hm2, _⟩ := operator_mul_total cl dr (wellFormed_ne_null _ hwcl) hdr
            exact ⟨m, by simp [hdl, hdr, hcl, hm], hres _ (by simp [hm2, hdr]),
              fun _ => wellFormed_operator_mul _ _ _ hwcl (hr3 hdr) hm⟩
          · obtain ⟨m, hm, hm2, _⟩ := operator_mul_total dl cr hdl (wellFormed_ne_null _ hwcr)
            exact ⟨m, by simp [hdl, hdr, hcr, hm], hres _ (by simp [hm2, hdl]),
              fun _ => wellFormed_operator_mul _ _ _ (hl3 hdl) hwcr hm⟩
          · obtain ⟨a, ha, ha2, _⟩ := operator_mul_total dl cr hdl (wellFormed_ne_null _ hwcr)
            obtain ⟨b, hb, hb2, _⟩ := operator_mul_total cl dr (wellFormed_ne_null _ hwcl) hdr
            have hwa := wellFormed_operator_mul _ _ _ (hl3 hdl) hwcr ha
            have hwb := wellFormed_operator_mul _ _ _ hwcl (hr3 hdr) hb
            exact ⟨operator_plus a b, by simp [hdl, hdr, hcr, hcl, ha, hb],
              hres _ (by simp [operator_plus, hdl]),
              fun _ => by simp [operator_plus, wellFormed, hwa, hwb]⟩
        · -- divide
          right
          have hS : wellFormed SquareOperator = true := rfl
          have hden : wellFormed (BinaryOperator TokenType.ext cr SquareOperator) = true := by
            simp [wellFormed, hwcr]
          by_cases hdl : dl = null <;> by_cases hdr : dr = null
          · exact ⟨null, by simp [hdl, hdr], hres _ (by simp [hdl, hdr]), by simp⟩
          · obtain ⟨m, hm, hm2, _⟩ := operator_mul_total cl dr (wellFormed_ne_null _ hwcl) hdr
            have hwm := wellFormed_operator_mul _ _ _ hwcl (hr3 hdr) hm
            exact ⟨operator_div (UnaryOperator TokenType.minus m)
                (BinaryOperator TokenType.ext cr SquareOperator),
              by simp [hdl, hdr, hcl, hcr, hm, operator_pow_SquareOperator],
              hres _ (by simp [operator_div, hdr]),
              fun _ => by simp [operator_div, wellFormed, hwm, hwcr]⟩
          · obtain ⟨m, hm, hm2, _⟩ := operator_mul_total dl cr hdl (wellFormed_ne_null _ hwcr)
            have hwm := wellFormed_operator_mul _ _ _ (hl3 hdl) hwcr hm
            exact ⟨operator_div m (BinaryOperator TokenType.ext cr SquareOperator),
              by simp [hdl, hdr, hcr, hm, operator_pow_SquareOperator],
              hres _ (by simp [operator_div, hdl]),
              fun _ => by simp [operator_div, wellFormed, hwm, hwcr]⟩
          · obtain ⟨a, ha, ha2, _⟩ := operator_mul_total dl cr hdl (wellFormed_ne_null _ hwcr)
            obtain ⟨b, hb, hb2, _⟩ := operator_mul_total cl dr (wellFormed_ne_null _ hwcl) hdr
            have hwa := wellFormed_operator_mul _ _ _ (hl3 hdl) hwcr ha
            have hwb := wellFormed_operator_mul _ _ _ hwcl (hr3 hdr) hb
            exact ⟨operator_div (operator_minus a b)
                (BinaryOperator TokenType.ext cr SquareOperator),
              by simp [hdl, hdr, hcr, hcl, ha, hb, operator_pow_SquareOperator],
              hres _ (by simp [operator_div, hdl]),
              fun _ => by simp [operator_div, operator_minus, wellFormed, hwa, hwb, hwcr]⟩
        · -- add
          right
          by_cases hdl : dl = null <;> by_cases hdr : dr = null
          · exact ⟨null, by simp [hdl, hdr], hres _ (by simp [hdl, hdr]), by simp⟩
          · exact ⟨dr, by simp [hdl], hres _ (by simp [hdl]), hr3⟩
          · exact ⟨dl, by simp [hdl, hdr], hres _ (by simp [hdr]), hl3⟩
          · exact ⟨operator_plus dl dr, by simp [hdl, hdr], hres _ (by simp [operator_plus, hdl]),
              fun _ => by simp [operator_plus, wellFormed, hl3 hdl, hr3 hdr]⟩
        · -- subtract
          right
          by_cases hdl : dl = null <;> by_cases hdr : dr = null
          · exact ⟨null, by simp [hdl, hdr], hres _ (by simp [hdl, hdr]), by simp⟩
          · exact ⟨UnaryOperator TokenType.minus dr, by simp [hdl, hdr],
              hres _ (by simp [hdr]), fun _ => by simp [wellFormed, hr3 hdr]⟩
          · exact ⟨dl, by simp [hdl, hdr], hres _ (by simp [hdr]), hl3⟩
          · exact ⟨operator_minus dl dr, by simp [hdl, hdr],
              hres _ (by simp [operator_minus, hdl]),
              fun _ => by simp [operator_minus, wellFormed, hl3 hdl, hr3 hdr]⟩

theorem derevative_outcome (p : Operator) (t : TokenType) (deep : Int)
    (h : wellFormed p = true) : Outcome p t deep :=
  derevative_outcome_aux t deep (weight p) p (le_refl _) h

/-! ## `derevative` ends on every tree -/

theorem Runs.ok {α : Type} (a : α) : Runs (Except.ok a : Result α) := by
  intro h; cases h

theorem Runs.bind {α β : Type} {x : Result α} {f : α → Result β} (hx : Runs x)
    (hf : ∀ a, x = .ok a → Runs (f a)) : Runs (x >>= f) := by
  cases x with
  | error e =>
      intro h
      apply hx
      simpa using h
  | ok a => simpa using hf a rfl

theorem isParametrique_runs (p : Operator) (t : TokenType) (deep : Int) :
    Runs (isParametrique p t deep) := by
  induction p with
  | null => intro h; cases h
  | ConstantOperator v => exact Runs.ok _
  | OneValueOperator => exact Runs.ok _
  | SquareOperator => exact Runs.ok _
  | VariableOperator vt d => exact Runs.ok _
  | UnaryOperator ut sub ih => simpa [isParametrique] using ih
  | BinaryOperator bt l r ihl ihr =>
      simp only [isParametrique]
      apply Runs.bind ihl
      intro a _
      cases a
      · simpa using ihr
      · exact Runs.ok _
  | Functional root ih => simpa [isParametrique] using ih

theorem clone_runs (p : Operator) : Runs (clone p) := by
  induction p with
  | null => intro h; cases h
  | ConstantOperator v => exact Runs.ok _
  | OneValueOperator => exact Runs.ok _
  | SquareOperator => exact Runs.ok _
  | VariableOperator vt d => exact Runs.ok _
  | UnaryOperator ut sub ih =>
      simp only [clone]
      exact Runs.bind ih (fun a _ => Runs.ok _)
  | BinaryOperator bt l r ihl ihr =>
      simp only [clone]
      exact Runs.bind ihl (fun a _ => Runs.bind ihr (fun b _ => Runs.ok _))
  | Functional root ih => simpa [clone] using ih

theorem isNearOne_runs (p : Operator) : Runs (isNearOne p) := by
  cases p <;> first | exact Runs.ok _ | (intro h; cases h)

theorem operator_mul_runs (a b : Operator) : Runs (operator_mul a b) := by
  unfold operator_mul
  apply Runs.bind (isNearOne_runs a)
  intro x _
  cases x
  · simp only [Bool.false_eq_true, if_false]
    apply Runs.bind (isNearOne_runs b)
    intro y _
    cases y <;> exact Runs.ok _
  · exact Runs.ok _

theorem operator_pow_runs (a b : Operator) : Runs (operator_pow a b) := by
  unfold operator_pow
  apply Runs.bind (isNearOne_runs b)
  intro y _
  cases y <;> exact Runs.ok _

theorem powerRule_runs (left right l : Operator) (cv : ℚ) : Runs (powerRule left right cv l) := by
  unfold powerRule
  exact Runs.bind (clone_runs _) fun _ _ => Runs.bind (clone_runs _) fun _ _ =>
    Runs.bind (operator_pow_runs _ _) fun _ _ => Runs.bind (operator_mul_runs _ _) fun _ _ =>
      operator_mul_runs _ _

theorem expandedSquare_runs (st : TokenType) (sl sr : Operator) :
    Runs (expandedSquare st sl sr) := by
  unfold expandedSquare
  exact Runs.bind (clone_runs _) fun _ _ => Runs.bind (clone_runs _) fun _ _ =>
    Runs.bind (operator_pow_runs _ _) fun _ _ => Runs.bind (operator_pow_runs _ _) fun _ _ =>
      Runs.bind (operator_mul_runs _ _) fun _ _ => Runs.bind (operator_mul_runs _ _) fun _ _ =>
        Runs.ok _

theorem derevativePower_runs (f : Operator → Result Operator) (left right l r : Operator)
    (h : ∀ q, weight q < weight (BinaryOperator TokenType.ext left right) → Runs (f q)) :
    Runs (derevativePower f left right l r) := by
  unfold derevativePower
  split
  · intro h; cases h
  · split
    · exact Runs.ok _
    · split
      · intro h; cases h
      · split
        · exact Runs.ok _
        · split
          · rename_i ut st sl sr _ _
            split
            · rename_i hst
              apply Runs.bind (expandedSquare_runs _ _ _)
              intro e he
              exact h e (weight_expandedSquare_lt ut st sl sr _ e hst he)
            · exact powerRule_runs _ _ _ _
          · exact powerRule_runs _ _ _ _

theorem derevativeBody_runs (f : Operator → Result Operator) (t : TokenType) (deep : Int)
    (p : Operator) (h : ∀ q, weight q < weight p → Runs (f q)) :
    Runs (derevativeBody f t deep p) := by
  cases p with
  | null => intro h; cases h
  | ConstantOperator v => exact Runs.ok _
  | OneValueOperator => exact Runs.ok _
  | SquareOperator => exact Runs.ok _
  | VariableOperator vt d => exact Runs.ok _
  | Functional root => exact h root (by simp [weight])
  | UnaryOperator ut sub =>
      simp only [derevativeBody]
      apply Runs.bind (isParametrique_runs _ _ _)
      intro b _
      cases b
      · exact Runs.ok _
      · simp only [Bool.not_true, Bool.false_eq_true, if_false]
        apply Runs.bind (h sub (by simp [weight]))
        intro d _
        split
        · exact Runs.ok _
        · exact Runs.bind (clone_runs _) fun _ _ => operator_mul_runs _ _
        · exact Runs.ok _
        · exact Runs.ok _
  | BinaryOperator bt l r =>
      have hl := h l (weight_left_lt bt l r)
      have hr := h r (weight_right_lt bt l r)
      have child : ∀ c : Operator, Runs (f c) →
          Runs (do if (← isParametrique c t deep) then f c else pure null) := by
        intro c hc
        apply Runs.bind (isParametrique_runs _ _ _)
        intro b _
        cases b
        · exact Runs.ok _
        · simpa using hc
      simp only [derevativeBody]
      apply Runs.bind (child l hl)
      intro dl _
      apply Runs.bind (child r hr)
      intro dr _
      split
      · exact derevativePower_runs f l r dl dr h
      · split
        · exact Runs.ok _
        · split <;> exact Runs.ok _
      · split
        · split <;> exact Runs.ok _
        · split <;> exact Runs.ok _
      · split
        · split
          · exact Runs.ok _
          · exact Runs.bind (clone_runs _) fun _ _ => operator_mul_runs _ _
        · split
          · exact Runs.bind (clone_runs _) fun _ _ => operator_mul_runs _ _
          · exact Runs.bind (clone_runs _) fun _ _ => Runs.bind (operator_mul_runs _ _)
              fun _ _ => Runs.bind (clone_runs _) fun _ _ =>
                Runs.bind (operator_mul_runs _ _) fun _ _ => Runs.ok _
      · split
        · exact Runs.ok _
        · apply Runs.bind
          · split
            · exact Runs.bind (clone_runs _) fun _ _ => Runs.bind (operator_mul_runs _ _)
                fun _ _ => Runs.ok _
            · split
              · exact Runs.bind (clone_runs _) fun _ _ => operator_mul_runs _ _
              · exact Runs.bind (clone_runs _) fun _ _ => Runs.bind (operator_mul_runs _ _)
                  fun _ _ => Runs.bind (clone_runs _) fun _ _ =>
                    Runs.bind (operator_mul_runs _ _) fun _ _ => Runs.ok _
          · intro top _
            exact Runs.bind (clone_runs _) fun _ _ => Runs.bind (operator_pow_runs _ _)
              fun _ _ => Runs.ok _
      · intro h; cases h

/-- The recursion of `derevative` ends on every tree: the budget `weight` is
never exhausted. -/
theorem derevative_runs (t : TokenType) (deep : Int) :
    ∀ (n : Nat) (p : Operator), weight p ≤ n → Runs (derevative p t deep) := by
  intro n
  induction n with
  | zero => intro p h; have := weight_pos p; omega
  | succ n ih =>
      intro p hp
      rw [derevative_unfold]
      exact derevativeBody_runs _ t deep p (fun q hq => ih q (by omega))

/-! ## Claims -/

theorem derevative_ne_null (p r : Operator) (t : TokenType) (deep : Int)
    (hw : wellFormed p = true) (hp : isParametrique p t deep = .ok true)
    (hr : derevative p t deep = .ok r) : r ≠ null := by
  rcases derevative_outcome p t deep hw with h | ⟨d, h1, h2, _⟩
  · rw [h] at hr; cases hr
  · rw [h1] at hr; cases hr
    intro h; rw [h2.mp h] at hp; cases hp

/-- C1: for a multiply node `u*v` of well-formed trees, `derevative` returns
nothing when neither factor depends on the target, `clone(u) * d(v)` when only
`v` depends, `d(u) * clone(v)` when only `u` depends and
`(d(u) * clone(v)) + (clone(u) * d(v))` when both depend, `*` being the
combinator `operator*`; `2*xi` differentiated by `xi` renders `2` and
`2*xi^2` renders `2*2*xi`. -/
theorem C1_derevative_multiply (u v : Operator) (t : TokenType) (deep : Int)
    (hu : wellFormed u = true) (hv : wellFormed v = true) :
    (isParametrique u t deep = .ok false → isParametrique v t deep = .ok false →
      derevative (BinaryOperator TokenType.multipl u v) t deep = .ok null) ∧
    (isParametrique u t deep = .ok false → isParametrique v t deep = .ok true →
      derevative (BinaryOperator TokenType.multipl u v) t deep =
        (do let dv ← derevative v t deep
            let uc ← clone u
            operator_mul uc dv)) ∧
    (isParametrique u t deep = .ok true → isParametrique v t deep = .ok false →
      derevative (BinaryOperator TokenType.multipl u v) t deep =
        (do let du ← derevative u t deep
            let vc ← clone v
            operator_mul du vc)) ∧
    (isParametrique u t deep = .ok true → isParametrique v t deep = .ok true →
      derevative (BinaryOperator TokenType.multipl u v) t deep =
        (do let du ← derevative u t deep
            let dv ← derevative v t deep
            let vc ← clone v
            let a ← operator_mul du vc
            let uc ← clone u
            let b ← operator_mul uc dv
            pure (BinaryOperator TokenType.plus a b))) ∧
    (Equation.parse null "2*xi" >>= fun e => derevative e TokenType.var_xi 0 >>= toString)
      = .ok "2" ∧
    (Equation.parse null "2*xi^2" >>= fun e => derevative e TokenType.var_xi 0 >>= toString)
      = .ok "2*2*xi" := by
  refine ⟨?_, ?_, ?_, ?_, by decide!, by decide!⟩
  · intro h1 h2
    rw [derevative_unfold]
    simp [derevativeBody, h1, h2]
  · intro h1 h2
    rw [derevative_unfold]
    cases h : derevative v t deep with
    | error e => simp [derevativeBody, h1, h2, h]
    | ok dv =>
        have := derevative_ne_null v dv t deep hv h2 h
        simp [derevativeBody, h1, h2, h, this]
  · intro h1 h2
    rw [derevative_unfold]
    cases h : derevative u t deep with
    | error e => simp [derevativeBody, h1, h2, h]
    | ok du =>
        have := derevative_ne_null u du t deep hu h1 h
        simp [derevativeBody, h1, h2, h, this]
  · intro h1 h2
    rw [derevative_unfold]
    cases h : derevative u t deep with
    | error e => simp [derevativeBody, h1, h2, h]
    | ok du =>
      cases h' : derevative v t deep with
      | error e => simp [derevativeBody, h1, h2, h, h']
      | ok dv =>
        have := derevative_ne_null u du t deep hu h1 h
        have := derevative_ne_null v dv t deep hv h2 h'
        simp [derevativeBody, h1, h2, h, h', *, operator_plus]

theorem C1_derevative_multiply_witness :
    wellFormed SquareOperator = true ∧ wellFormed (VariableOperator TokenType.var_xi 0) = true ∧
    derevative (BinaryOperator TokenType.multipl SquareOperator
        (VariableOperator TokenType.var_xi 0)) TokenType.var_xi 0 =
      (do let dv ← derevative (VariableOperator TokenType.var_xi 0) TokenType.var_xi 0
          let uc ← clone SquareOperator
          operator_mul uc dv) :=
  ⟨by decide, by decide,
    (C1_derevative_multiply SquareOperator (VariableOperator TokenType.var_xi 0)
      TokenType.var_xi 0 (by decide) (by decide)).2.1 (by decide) (by decide)⟩

/-- C3: for an exponential node `exp(u)`, `derevative`
returns nothing when `u` does not depend on the target and otherwise
`clone(exp(u)) * d(u)` built with the combinator `operator*`; `exp(xi)`
differentiated by `xi` renders `exp(xi)`. -/
theorem C3_derevative_exponential (u : Operator) (t : TokenType) (deep : Int) :
    (isParametrique u t deep = .ok false →
      derevative (UnaryOperator TokenType.exp u) t deep = .ok null) ∧
    (isParametrique u t deep = .ok true →
      derevative (UnaryOperator TokenType.exp u) t deep =
        (do let du ← derevative u t deep
            let c ← clone (UnaryOperator TokenType.exp u)
            operator_mul c du)) ∧
    (Equation.parse null "exp(xi)" >>= fun e => derevative e TokenType.var_xi 0 >>= toString)
      = .ok "exp(xi)" := by
  refine ⟨?_, ?_, by decide!⟩
  · intro h
    rw [derevative_unfold]
    simp [derevativeBody, h]
  · intro h
    rw [derevative_unfold]
    simp [derevativeBody, h]

theorem C3_derevative_exponential_witness :
    isParametrique (UnaryOperator TokenType.bracket_gr (VariableOperator TokenType.var_xi 0))
      TokenType.var_xi 0 = .ok true ∧
    derevative (UnaryOperator TokenType.exp
        (UnaryOperator TokenType.bracket_gr (VariableOperator TokenType.var_xi 0)))
      TokenType.var_xi 0 =
      .ok (UnaryOperator TokenType.exp
        (UnaryOperator TokenType.bracket_gr (VariableOperator TokenType.var_xi 0))) :=
  ⟨by decide, by
    rw [(C3_derevative_exponential
      (UnaryOperator TokenType.bracket_gr (VariableOperator TokenType.var_xi 0))
      TokenType.var_xi 0).2.1 (by decide)]
    decide!⟩

/-- C4: `-(xi-mi)^2` parses to the negated square of the bracketed
difference; differentiating the square by `xi` differentiates the expanded
tree `xi^2-2*xi*mi+mi^2`; the derivative of the whole renders `-(2*xi-2*mi)`
and its value is `-2*(xi-mi)` under every assignment of numbers to the
variables. -/
theorem C4_square_of_difference :
    Equation.parse null "-(xi-mi)^2" =
      .ok (UnaryOperator TokenType.minus (BinaryOperator TokenType.ext
        (UnaryOperator TokenType.bracket_gr (BinaryOperator TokenType.minus
          (VariableOperator TokenType.var_xi 0) (VariableOperator TokenType.var_mi 0)))
        SquareOperator)) ∧
    (expandedSquare TokenType.minus (VariableOperator TokenType.var_xi 0)
        (VariableOperator TokenType.var_mi 0) >>= toString) = .ok "xi^2-2*xi*mi+mi^2" ∧
    derevative (BinaryOperator TokenType.ext
        (UnaryOperator TokenType.bracket_gr (BinaryOperator TokenType.minus
          (VariableOperator TokenType.var_xi 0) (VariableOperator TokenType.var_mi 0)))
        SquareOperator) TokenType.var_xi 0 =
      (expandedSquare TokenType.minus (VariableOperator TokenType.var_xi 0)
        (VariableOperator TokenType.var_mi 0) >>= fun e => derevative e TokenType.var_xi 0) ∧
    (Equation.parse null "-(xi-mi)^2" >>= fun e => derevative e TokenType.var_xi 0 >>= toString)
      = .ok "-(2*xi-2*mi)" ∧
    ∃ d, (Equation.parse null "-(xi-mi)^2" >>= fun e => derevative e TokenType.var_xi 0) = .ok d ∧
      ∀ (L : Libm) (env : TokenType → Int → ℚ),
        value L env d = .ok (-2 * (env TokenType.var_xi 0 - env TokenType.var_mi 0)) := by
  refine ⟨by decide!, by decide!, by decide!, by decide!,
    UnaryOperator TokenType.minus (BinaryOperator TokenType.minus
      (BinaryOperator TokenType.multipl (ConstantOperator 2) (VariableOperator TokenType.var_xi 0))
      (BinaryOperator TokenType.multipl (ConstantOperator 2) (VariableOperator TokenType.var_mi 0))),
    by decide!, ?_⟩
  intro L env
  simp only [value, Result.ok_bind, Result.pure_eq]
  congr 1
  ring

/-- C5: for a power node whose base and exponent are well formed and whose
exponent depends on the target, `derevative` throws the runtime error of the
power case; it returns neither a tree nor nothing.  `xi^mi` differentiated by
`mi` is such a failure. -/
theorem C5_derevative_variable_exponent (base e : Operator) (t : TokenType) (deep : Int)
    (hb : wellFormed base = true) (he : wellFormed e = true)
    (hdep : isParametrique e t deep = .ok true) :
    derevative (BinaryOperator TokenType.ext base e) t deep =
      .error (Failure.runtime_error "This math operator isn't supported") ∧
    (Equation.parse null "xi^mi" >>= fun e => derevative e TokenType.var_mi 0) =
      .error (Failure.runtime_error "This math operator isn't supported") := by
  refine ⟨?_, by decide!⟩
  obtain ⟨bl, hbl⟩ := isParametrique_total base t deep hb
  have hL := child_outcome base t deep bl hbl (derevative_outcome base t deep hb)
  rw [derevative_unfold]
  simp only [derevativeBody]
  rcases hL with hL | ⟨dl, hL, _, _⟩
  · rw [hL]; rfl
  · rw [hL]
    simp only [Result.ok_bind, hdep, if_true]
    rcases derevative_outcome e t deep he with h | ⟨r, h1, h2, _⟩
    · rw [h]; rfl
    · have hr : r ≠ null := derevative_ne_null e r t deep he hdep h1
      simp [h1, derevativePower, hr]

theorem C5_derevative_variable_exponent_witness :
    wellFormed (VariableOperator TokenType.var_xi 0) = true ∧
    wellFormed (VariableOperator TokenType.var_mi 0) = true ∧
    isParametrique (VariableOperator TokenType.var_mi 0) TokenType.var_mi 0 = .ok true ∧
    derevative (BinaryOperator TokenType.ext (VariableOperator TokenType.var_xi 0)
        (VariableOperator TokenType.var_mi 0)) TokenType.var_mi 0 =
      .error (Failure.runtime_error "This math operator isn't supported") :=
  ⟨by decide, by decide, by decide,
    (C5_derevative_variable_exponent (VariableOperator TokenType.var_xi 0)
      (VariableOperator TokenType.var_mi 0) TokenType.var_mi 0
      (by decide) (by decide) (by decide)).1⟩

/-! ### Polynomial semantics of `derevative` -/

theorem toPoly_constant (e : Operator) (c : ℚ) (h : constantValue e = some c) :
    toPoly e = MvPolynomial.C c := by
  cases e <;> simp [constantValue] at h <;> subst h <;> rfl

/-- C7: the input `(ximi)` is built from table literals only and is accepted
by `parse`: the bracket contents are left as the two tokens `xi`, `mi`, the
tree keeps the first, and the rendering is `(xi)`, not the input. -/
theorem C7_round_trip_fails_in_bracket :
    (tokenize "(ximi)" >>= grammatics_rules_apply) =
      .ok [Token.TokenGroup TokenType.bracket_gr
        [Token.plain TokenType.var_xi, Token.plain TokenType.var_mi]] ∧
    Equation.parse null "(ximi)" =
      .ok (UnaryOperator TokenType.bracket_gr (VariableOperator TokenType.var_xi 0)) ∧
    (Equation.parse null "(ximi)" >>= toString) = .ok "(xi)" ∧
    Equation.parse null "ximi" = .error (Failure.runtime_error "Mistaken equation: ximi") :=
  ⟨by rfl, by decide!, by decide!, by decide!⟩

/-- C8: the input `exp()` is accepted by `parse` with a null child under the
exponential node, it renders as the empty string, and `parse` rejects the
empty string. -/
theorem C8_rendering_not_reparsable :
    Equation.parse null "exp()" = .ok (UnaryOperator TokenType.exp null) ∧
    (Equation.parse null "exp()" >>= toString) = .ok "" ∧
    Equation.parse null "" = .error (Failure.runtime_error "Mistaken equation: ") :=
  ⟨by decide!, by decide!, by decide!⟩

theorem isParametrique_addDeep (p q : Operator) (h : addDeep p = .ok q) (s : TokenType)
    (d : Int) : isParametrique q s (d + 1) = isParametrique p s d := by
  induction p generalizing q with
  | null => simp [addDeep] at h
  | ConstantOperator v => simp [addDeep] at h; subst h; rfl
  | OneValueOperator => simp [addDeep] at h; subst h; rfl
  | SquareOperator => simp [addDeep] at h; subst h; rfl
  | VariableOperator t e =>
      simp only [addDeep] at h
      split at h
      · cases h
      · cases h; simp [isParametrique]
  | UnaryOperator t sub ih =>
      simp only [addDeep] at h
      cases hs : addDeep sub with
      | error x => simp [hs] at h
      | ok a =>
          simp [hs] at h; subst h
          simp only [isParametrique]
          exact ih a hs
  | BinaryOperator t l r ihl ihr =>
      simp only [addDeep] at h
      cases hl : addDeep l with
      | error x => simp [hl] at h
      | ok a =>
        cases hr : addDeep r with
        | error x => simp [hl, hr] at h
        | ok b =>
          simp [hl, hr] at h; subst h
          simp only [isParametrique, ihl a hl, ihr b hr]
  | Functional root ih =>
      simp only [addDeep] at h
      cases hs : addDeep root with
      | error x => simp [hs] at h
      | ok a =>
          simp [hs] at h; subst h
          simp only [isParametrique]
          exact ih a hs

theorem isParametrique_addDeep_zero (p q : Operator) (h : addDeep p = .ok q)
    (hd : depthsNonneg p = true) (s : TokenType) : isParametrique q s 0 = .ok false := by
  induction p generalizing q with
  | null => simp [addDeep] at h
  | ConstantOperator v => simp [addDeep] at h; subst h; rfl
  | OneValueOperator => simp [addDeep] at h; subst h; rfl
  | SquareOperator => simp [addDeep] at h; subst h; rfl
  | VariableOperator t e =>
      simp only [addDeep] at h
      split at h
      · cases h
      cases h
      simp only [depthsNonneg, decide_eq_true_eq] at hd
      simp only [isParametrique]
      congr 1
      have : e + 1 ≠ 0 := by omega
      simp [this]
  | UnaryOperator t sub ih =>
      simp only [addDeep] at h
      cases hs : addDeep sub with
      | error x => simp [hs] at h
      | ok a =>
          simp [hs] at h; subst h
          simp only [isParametrique]
          exact ih a hs (by simpa [depthsNonneg] using hd)
  | BinaryOperator t l r ihl ihr =>
      simp only [addDeep] at h
      simp only [depthsNonneg, Bool.and_eq_true] at hd
      cases hl : addDeep l with
      | error x => simp [hl] at h
      | ok a =>
        cases hr : addDeep r with
        | error x => simp [hl, hr] at h
        | ok b =>
          simp [hl, hr] at h; subst h
          simp [isParametrique, ihl a hl hd.1, ihr b hr hd.2]
  | Functional root ih =>
      simp only [addDeep] at h
      cases hs : addDeep root with
      | error x => simp [hs] at h
      | ok a =>
          simp [hs] at h; subst h
          simp only [isParametrique]
          exact ih a hs (by simpa [depthsNonneg] using hd)

theorem nodes_pos (t : Operator) : 0 < nodes t := by
  cases t <;> simp [nodes]

theorem TreeAt.frame {m m' : Memory} {S : Finset Nat} {p : Pointer} {t : Operator}
    (h : TreeAt m S p t) (hm : ∀ a ∈ S, m'[a]? = m[a]?) : TreeAt m' S p t := by
  induction h with
  | constantNode a v h => exact TreeAt.constantNode a v (by rw [hm a (by simp), h])
  | oneNode a h => exact TreeAt.oneNode a (by rw [hm a (by simp), h])
  | squareNode a h => exact TreeAt.squareNode a (by rw [hm a (by simp), h])
  | variableNode a t d h => exact TreeAt.variableNode a t d (by rw [hm a (by simp), h])
  | unaryNode a t b S sub h hs ha ih =>
      exact TreeAt.unaryNode a t b S sub (by rw [hm a (by simp), h])
        (ih (fun x hx => hm x (by simp [hx]))) ha
  | binaryNode a t l r Sl Sr tl tr h hl hr hd hal har ihl ihr =>
      exact TreeAt.binaryNode a t l r Sl Sr tl tr (by rw [hm a (by simp), h])
        (ihl (fun x hx => hm x (by simp [hx]))) (ihr (fun x hx => hm x (by simp [hx])))
        hd hal har
  | functionalNode a b S root h hs ha ih =>
      exact TreeAt.functionalNode a b S root (by rw [hm a (by simp), h])
        (ih (fun x hx => hm x (by simp [hx]))) ha

theorem TreeAt.card {m : Memory} {S : Finset Nat} {p : Pointer} {t : Operator}
    (h : TreeAt m S p t) : S.card = nodes t ∧ ∀ a ∈ S, a < m.length := by
  have hlt : ∀ (a : Nat) (c : Cell), m[a]? = some c → a < m.length := by
    intro a c hc
    by_contra hge
    rw [List.getElem?_eq_none (by omega)] at hc
    cases hc
  induction h with
  | constantNode a v h => exact ⟨by simp [nodes], by intro x hx; simp at hx; subst hx; exact hlt _ _ h⟩
  | oneNode a h => exact ⟨by simp [nodes], by intro x hx; simp at hx; subst hx; exact hlt _ _ h⟩
  | squareNode a h => exact ⟨by simp [nodes], by intro x hx; simp at hx; subst hx; exact hlt _ _ h⟩
  | variableNode a t d h =>
      exact ⟨by simp [nodes], by intro x hx; simp at hx; subst hx; exact hlt _ _ h⟩
  | unaryNode a t b S sub h hs ha ih =>
      refine ⟨by rw [Finset.card_insert_of_not_mem ha, ih.1]; simp [nodes], ?_⟩
      intro x hx
      rcases Finset.mem_insert.mp hx with hx | hx
      · subst hx; exact hlt _ _ h
      · exact ih.2 x hx
  | binaryNode a t l r Sl Sr tl tr h hl hr hd hal har ihl ihr =>
      refine ⟨?_, ?_⟩
      · rw [Finset.card_insert_of_not_mem (by simp [hal, har]), Finset.card_union_of_disjoint hd,
          ihl.1, ihr.1]
        simp [nodes]
      · intro x hx
        rcases Finset.mem_insert.mp hx with hx | hx
        · subst hx; exact hlt _ _ h
        · rcases Finset.mem_union.mp hx with hx | hx
          · exact ihl.2 x hx
          · exact ihr.2 x hx
  | functionalNode a b S root h hs ha ih =>
      refine ⟨by rw [Finset.card_insert_of_not_mem ha, ih.1]; simp [nodes], ?_⟩
      intro x hx
      rcases Finset.mem_insert.mp hx with hx | hx
      · subst hx; exact hlt _ _ h
      · exact ih.2 x hx

theorem TreeAt.nodes_le_length {m : Memory} {S : Finset Nat} {p : Pointer} {t : Operator}
    (h : TreeAt m S p t) : nodes t ≤ m.length := by
  obtain ⟨h1, h2⟩ := h.card
  rw [← h1]
  have : S ⊆ Finset.range m.length := fun a ha => Finset.mem_range.mpr (h2 a ha)
  simpa using Finset.card_le_card this

theorem TreeAt.isParametrique {m : Memory} {S : Finset Nat} {p : Pointer} {t : Operator}
    (h : TreeAt m S p t) (s : TokenType) (d : Int) :
    ∀ n, nodes t ≤ n → isParametriqueFuelIn n m p s d = isParametrique t s d := by
  induction h with
  | constantNode a v h =>
      intro n hn; cases n with
      | zero => simp [nodes] at hn
      | succ n => simp [isParametriqueFuelIn, h, math.isParametrique]
  | oneNode a h =>
      intro n hn; cases n with
      | zero => simp [nodes] at hn
      | succ n => simp [isParametriqueFuelIn, h, math.isParametrique]
  | squareNode a h =>
      intro n hn; cases n with
      | zero => simp [nodes] at hn
      | succ n => simp [isParametriqueFuelIn, h, math.isParametrique]
  | variableNode a t d h =>
      intro n hn; cases n with
      | zero => simp [nodes] at hn
      | succ n => simp [isParametriqueFuelIn, h, math.isParametrique]
  | unaryNode a t b S sub h hs ha ih =>
      intro n hn; cases n with
      | zero => simp [nodes] at hn
      | succ n =>
          simp only [nodes] at hn
          simp [isParametriqueFuelIn, h, math.isParametrique, ih n (by omega)]
  | binaryNode a t l r Sl Sr tl tr h hl hr hd hal har ihl ihr =>
      intro n hn; cases n with
      | zero => simp [nodes] at hn
      | succ n =>
          simp only [nodes] at hn
          simp [isParametriqueFuelIn, h, math.isParametrique, ihl n (by omega),
            ihr n (by omega)]
  | functionalNode a b S root h hs ha ih =>
      intro n hn; cases n with
      | zero => simp [nodes] at hn
      | succ n =>
          simp only [nodes] at hn
          simp [isParametriqueFuelIn, h, math.isParametrique, ih n (by omega)]

theorem getElem?_lt_length {m : Memory} {a : Nat} {c : Cell} (h : m[a]? = some c) :
    a < m.length := by
  by_contra hge
  rw [List.getElem?_eq_none (by omega)] at h
  cases h

theorem TreeAt.addDeep (t : Operator) (hmax : depthsBelowMax t = true) :
    ∀ (m : Memory) (S : Finset Nat) (p : Pointer), TreeAt m S p t →
    ∀ n, nodes t ≤ n → ∃ m' t', addDeepFuelIn n m p = .ok m' ∧ math.addDeep t = .ok t' ∧
      TreeAt m' S p t' ∧ (∀ a, a ∉ S → m'[a]? = m[a]?) ∧ m'.length = m.length ∧
      nodes t' = nodes t := by
  induction t with
  | null => intro m S p h; cases h
  | ConstantOperator v =>
      intro m S p h n hn
      cases h with
      | constantNode a _ h =>
        cases n with
        | zero => simp [nodes] at hn
        | succ n =>
            exact ⟨m, _, by simp [addDeepFuelIn, h], rfl, TreeAt.constantNode a v h,
              fun _ _ => rfl, rfl, rfl⟩
  | OneValueOperator =>
      intro m S p h n hn
      cases h with
      | oneNode a h =>
        cases n with
        | zero => simp [nodes] at hn
        | succ n =>
            exact ⟨m, _, by simp [addDeepFuelIn, h], rfl, TreeAt.oneNode a h,
              fun _ _ => rfl, rfl, rfl⟩
  | SquareOperator =>
      intro m S p h n hn
      cases h with
      | squareNode a h =>
        cases n with
        | zero => simp [nodes] at hn
        | succ n =>
            exact ⟨m, _, by simp [addDeepFuelIn, h], rfl, TreeAt.squareNode a h,
              fun _ _ => rfl, rfl, rfl⟩
  | VariableOperator t d =>
      intro m S p h n hn
      cases h with
      | variableNode a _ _ h =>
        cases n with
        | zero => simp [nodes] at hn
        | succ n =>
            have hlt := getElem?_lt_length h
            simp only [depthsBelowMax, decide_eq_true_eq] at hmax
            have hnot : ¬ INT_MAX ≤ d := not_le.mpr hmax
            refine ⟨m.set a (Cell.VariableOperator t (d + 1)), VariableOperator t (d + 1),
              by simp [addDeepFuelIn, h, hnot], by simp [math.addDeep, hnot],
              TreeAt.variableNode a t (d + 1) ?_, ?_, by simp, rfl⟩
            · simp [List.getElem?_set, hlt]
            · intro x hx
              have : a ≠ x := by intro h; subst h; simp at hx
              simp [List.getElem?_set, this]
  | UnaryOperator t sub ih =>
      intro m S p h n hn
      cases h with
      | unaryNode a _ b S _ h hs ha =>
        cases n with
        | zero => simp [nodes] at hn
        | succ n =>
            simp only [nodes] at hn
            obtain ⟨m', t', h1, h2, h3, h4, h5, h6⟩ :=
              ih (by simpa [depthsBelowMax] using hmax) m S b hs n (by omega)
            refine ⟨m', UnaryOperator t t', by simp [addDeepFuelIn, h, h1],
              by simp [math.addDeep, h2],
              TreeAt.unaryNode a t b S t' (by rw [h4 a ha, h]) h3 ha,
              fun x hx => h4 x (fun hxs => hx (by simp [hxs])), h5, by simp [nodes, h6]⟩
  | Functional root ih =>
      intro m S p h n hn
      cases h with
      | functionalNode a b S _ h hs ha =>
        cases n with
        | zero => simp [nodes] at hn
        | succ n =>
            simp only [nodes] at hn
            obtain ⟨m', t', h1, h2, h3, h4, h5, h6⟩ :=
              ih (by simpa [depthsBelowMax] using hmax) m S b hs n (by omega)
            refine ⟨m', Functional t', by simp [addDeepFuelIn, h, h1],
              by simp [math.addDeep, h2],
              TreeAt.functionalNode a b S t' (by rw [h4 a ha, h]) h3 ha,
              fun x hx => h4 x (fun hxs => hx (by simp [hxs])), h5, by simp [nodes, h6]⟩
  | BinaryOperator t tl tr ihl ihr =>
      intro m S p h n hn
      cases h with
      | binaryNode a _ l r Sl Sr _ _ h hl hr hd hal har =>
        cases n with
        | zero => simp [nodes] at hn
        | succ n =>
            simp only [nodes] at hn
            simp only [depthsBelowMax, Bool.and_eq_true] at hmax
            obtain ⟨m1, tl', h1, h2, h3, h4, h5, h6⟩ := ihl hmax.1 m Sl l hl n (by omega)
            have hr1 : TreeAt m1 Sr r tr :=
              hr.frame (fun x hx => h4 x (fun hxl => (Finset.disjoint_left.mp hd) hxl hx))
            obtain ⟨m2, tr', k1, k2, k3, k4, k5, k6⟩ := ihr hmax.2 m1 Sr r hr1 n (by omega)
            have hl2 : TreeAt m2 Sl l tl' :=
              h3.frame (fun x hx => k4 x (fun hxr => (Finset.disjoint_left.mp hd) hx hxr))
            refine ⟨m2, BinaryOperator t tl' tr', by simp [addDeepFuelIn, h, h1, k1],
              by simp [math.addDeep, h2, k2],
              TreeAt.binaryNode a t l r Sl Sr tl' tr' (by rw [k4 a har, h4 a hal, h]) hl2 k3
                hd hal har, ?_, by rw [k5, h5], by simp [nodes, h6, k6]⟩
            intro x hx
            simp only [Finset.mem_insert, Finset.mem_union, not_or] at hx
            rw [k4 x hx.2.2, h4 x hx.2.1]

/-- Construction with the shift flag set does shift every Variable exactly
once when the pointer passed to the `Equation` constructor is the root of a
tree in which no object is reached along two paths (with depths that are
nonnegative and below `INT_MAX`): afterwards the tree depends on `(s, d + 1)`
exactly when it depended on `(s, d)` before, and on no `(s, 0)`. -/
theorem shift_once_without_sharing (m : Memory) (S : Finset Nat) (p : Pointer) (t : Operator)
    (ht : TreeAt m S p t) (hd : depthsNonneg t = true) (hmax : depthsBelowMax t = true) :
    ∃ m', Equation.constructIn m p true = .ok m' ∧
      (∀ (s : TokenType) (d : Int),
        isParametriqueIn m' p s (d + 1) = isParametriqueIn m p s d) ∧
      (∀ s : TokenType, isParametriqueIn m' p s 0 = .ok false) := by
  have hlen := ht.nodes_le_length
  obtain ⟨m', t', h1, h2, h3, _, h5, h6⟩ :=
    TreeAt.addDeep t hmax m S p ht (m.length + 1) (by omega)
  refine ⟨m', by simp [Equation.constructIn, addDeepIn, h1], ?_, ?_⟩
  · intro s d
    unfold isParametriqueIn
    rw [h3.isParametrique s (d + 1) _ (by rw [h6, h5]; omega),
      ht.isParametrique s d _ (by omega)]
    exact isParametrique_addDeep t t' h2 s d
  · intro s
    unfold isParametriqueIn
    rw [h3.isParametrique s 0 _ (by rw [h6, h5]; omega)]
    exact isParametrique_addDeep_zero t t' h2 hd s

/-- C9 fails on the code when a Variable is reached along two paths: the tree
of `phi(i-1)+phi(i-1)`, parsed with the tree of `xi` bound as placeholder, has
two Functional objects that share the Variable `xi`; it depends on `(xi, 0)`,
but construction with the shift flag set visits the Variable through both
Functional objects, so that afterwards it has depth 2 and the tree does not
depend on `(xi, 1)` but on `(xi, 2)`.  On the unshared tree of `xi-mi` the
same construction gives every Variable the depth 1. -/
theorem C9_shared_variable_shifted_twice :
    Equation.parseIn [] none "xi" = .ok ([Cell.VariableOperator TokenType.var_xi 0], some 0) ∧
    Equation.parseIn [Cell.VariableOperator TokenType.var_xi 0] (some 0) "phi(i-1)+phi(i-1)" =
      .ok ([Cell.VariableOperator TokenType.var_xi 0, Cell.Functional (some 0),
            Cell.Functional (some 0), Cell.BinaryOperator TokenType.plus (some 1) (some 2)],
          some 3) ∧
    isParametriqueIn [Cell.VariableOperator TokenType.var_xi 0, Cell.Functional (some 0),
        Cell.Functional (some 0), Cell.BinaryOperator TokenType.plus (some 1) (some 2)]
      (some 3) TokenType.var_xi 0 = .ok true ∧
    Equation.constructIn [Cell.VariableOperator TokenType.var_xi 0, Cell.Functional (some 0),
        Cell.Functional (some 0), Cell.BinaryOperator TokenType.plus (some 1) (some 2)]
      (some 3) true =
      .ok [Cell.VariableOperator TokenType.var_xi 2, Cell.Functional (some 0),
        Cell.Functional (some 0), Cell.BinaryOperator TokenType.plus (some 1) (some 2)] ∧
    isParametriqueIn [Cell.VariableOperator TokenType.var_xi 2, Cell.Functional (some 0),
        Cell.Functional (some 0), Cell.BinaryOperator TokenType.plus (some 1) (some 2)]
      (some 3) TokenType.var_xi 1 = .ok false ∧
    isParametriqueIn [Cell.VariableOperator TokenType.var_xi 2, Cell.Functional (some 0),
        Cell.Functional (some 0), Cell.BinaryOperator TokenType.plus (some 1) (some 2)]
      (some 3) TokenType.var_xi 2 = .ok true ∧
    Equation.parseIn [] none "xi-mi" =
      .ok ([Cell.VariableOperator TokenType.var_xi 0, Cell.VariableOperator TokenType.var_mi 0,
        Cell.BinaryOperator TokenType.minus (some 0) (some 1)], some 2) ∧
    Equation.constructIn [Cell.VariableOperator TokenType.var_xi 0,
        Cell.VariableOperator TokenType.var_mi 0,
        Cell.BinaryOperator TokenType.minus (some 0) (some 1)] (some 2) true =
      .ok [Cell.VariableOperator TokenType.var_xi 1, Cell.VariableOperator TokenType.var_mi 1,
        Cell.BinaryOperator TokenType.minus (some 0) (some 1)] := by
  refine ⟨by decide!, by decide!, by decide!, by decide!, by decide!, by decide!, by decide!,
    by decide!⟩

/-- C10: on `-xi-mi` the reducer leaves the leading minus sign in front of
the difference group `[xi, -, mi]`, so `parse` throws; with `+`, `*` or `/` in
place of the second minus sign the leading minus is grouped with `xi`. -/
theorem C10_leading_minus_before_subtraction :
    (tokenize "-xi-mi" >>= grammatics_rules_apply) =
      .ok [Token.plain TokenType.minus,
           Token.TokenGroup TokenType.minus_gr
             [Token.plain TokenType.var_xi, Token.plain TokenType.minus,
              Token.plain TokenType.var_mi]] ∧
    Equation.parse null "-xi-mi" = .error (Failure.runtime_error "Mistaken equation: -xi-mi") ∧
    Equation.parse null "-xi+mi" =
      .ok (BinaryOperator TokenType.plus
        (UnaryOperator TokenType.minus (VariableOperator TokenType.var_xi 0))
        (VariableOperator TokenType.var_mi 0)) ∧
    Equation.parse null "-xi*mi" =
      .ok (BinaryOperator TokenType.multipl
        (UnaryOperator TokenType.minus (VariableOperator TokenType.var_xi 0))
        (VariableOperator TokenType.var_mi 0)) ∧
    Equation.parse null "-xi/mi" =
      .ok (BinaryOperator TokenType.devision
        (UnaryOperator TokenType.minus (VariableOperator TokenType.var_xi 0))
        (VariableOperator TokenType.var_mi 0)) :=
  ⟨by rfl, by decide!, by decide!, by decide!, by decide!⟩

/-! ## `produce` does not read the Variables -/

theorem produce_eraseVariables (L : Libm) (context : CalculationContext) (p : Operator) :
    produce L context (eraseVariables p) = produce L context p := by
  induction p with
  | UnaryOperator t sub ih => simp only [eraseVariables, produce, ih]
  | BinaryOperator t l r ihl ihr => simp only [eraseVariables, produce, ihl, ihr]
  | Functional root ih => simp only [eraseVariables, produce, ih]
  | _ => rfl

theorem eraseVariables_addDeep (p q : Operator) (h : addDeep p = .ok q) :
    eraseVariables q = eraseVariables p := by
  induction p generalizing q with
  | null => simp [addDeep] at h
  | ConstantOperator v => simp [addDeep] at h; subst h; rfl
  | OneValueOperator => simp [addDeep] at h; subst h; rfl
  | SquareOperator => simp [addDeep] at h; subst h; rfl
  | VariableOperator t d =>
      simp only [addDeep] at h
      split at h
      · cases h
      · cases h; rfl
  | UnaryOperator t sub ih =>
      simp only [addDeep] at h
      cases hs : addDeep sub with
      | error e => simp [hs] at h
      | ok s =>
          simp [hs] at h
          subst h
          simp only [eraseVariables, ih s hs]
  | BinaryOperator t l r ihl ihr =>
      simp only [addDeep] at h
      cases hl : addDeep l with
      | error e => simp [hl] at h
      | ok l1 =>
        cases hr : addDeep r with
        | error e => simp [hl, hr] at h
        | ok r1 =>
          simp [hl, hr] at h
          subst h
          simp only [eraseVariables, ihl l1 hl, ihr r1 hr]
  | Functional root ih =>
      simp only [addDeep] at h
      cases hs : addDeep root with
      | error e => simp [hs] at h
      | ok s =>
          simp [hs] at h
          subst h
          simp only [eraseVariables, ih s hs]

theorem SameButVariables.refl (m : Memory) : SameButVariables m m := by
  refine ⟨rfl, fun a c h => ⟨c, h, ?_⟩⟩
  cases c <;> simp [sameButVariable]

theorem SameButVariables.trans {m1 m2 m3 : Memory} (h12 : SameButVariables m1 m2)
    (h23 : SameButVariables m2 m3) : SameButVariables m1 m3 := by
  refine ⟨h12.1.trans h23.1, fun a c h => ?_⟩
  obtain ⟨c2, h2, e2⟩ := h12.2 a c h
  obtain ⟨c3, h3, e3⟩ := h23.2 a c2 h2
  refine ⟨c3, h3, ?_⟩
  cases c <;> cases c2 <;> simp [sameButVariable] at e2 <;> cases c3 <;>
    simp_all [sameButVariable]

theorem addDeepFuelIn_same (n : Nat) : ∀ (m m' : Memory) (p : Pointer),
    addDeepFuelIn n m p = .ok m' → SameButVariables m m' := by
  induction n with
  | zero => intro m m' p h; simp [addDeepFuelIn] at h
  | succ n ih =>
    intro m m' p h
    cases p with
    | none => simp [addDeepFuelIn] at h
    | some a =>
      simp only [addDeepFuelIn] at h
      cases hc : m[a]? with
      | none => simp [hc] at h
      | some c =>
        rw [hc] at h
        cases c with
        | ConstantOperator v => simp at h; subst h; exact SameButVariables.refl m
        | OneValueOperator => simp at h; subst h; exact SameButVariables.refl m
        | SquareOperator => simp at h; subst h; exact SameButVariables.refl m
        | VariableOperator t d =>
            simp only at h
            split at h
            · cases h
            cases h
            refine ⟨by simp, fun b c hb => ?_⟩
            by_cases hab : a = b
            · subst hab
              rw [hc] at hb
              cases hb
              have hlt : a < m.length := by
                by_contra hge
                rw [List.getElem?_eq_none (by omega)] at hc
                cases hc
              exact ⟨_, by rw [List.getElem?_set_self hlt], by simp [sameButVariable]⟩
            · refine ⟨c, by rw [List.getElem?_set_ne hab]; exact hb, ?_⟩
              cases c <;> simp [sameButVariable]
        | UnaryOperator t sub => exact ih m m' sub h
        | BinaryOperator t l r =>
            simp only at h
            cases h1 : addDeepFuelIn n m l with
            | error e => simp [h1] at h
            | ok m1 =>
                simp [h1] at h
                exact (ih m m1 l h1).trans (ih m1 m' r h)
        | Functional root => exact ih m m' root h

theorem produceFuelIn_same (L : Libm) (context : CalculationContext) (n : Nat) :
    ∀ (m m' : Memory) (p : Pointer), SameButVariables m m' →
      produceFuelIn L context n m' p = produceFuelIn L context n m p := by
  induction n with
  | zero => intro m m' p _; rfl
  | succ n ih =>
    intro m m' p h
    cases p with
    | none => rfl
    | some a =>
      simp only [produceFuelIn]
      cases hc : m[a]? with
      | none =>
          have : m'[a]? = none := by
            rw [List.getElem?_eq_none_iff] at hc ⊢
            rw [← h.1]; exact hc
          rw [this]
      | some c =>
          obtain ⟨c', hc', e⟩ := h.2 a c hc
          rw [hc']
          cases c <;> cases c' <;> simp [sameButVariable] at e <;>
            simp_all <;> simp only [ih m m' _ h]

/-! ## The lexer -/

theorem tokenize_eq (script : String) :
    tokenize script =
      (script.toList.foldlM tokenizeStep { res := [], isValue := false, buffer := [] } >>=
        tokenizeEnd) := rfl

theorem findLiteral_some (buffer : List Char) (ty : TokenType)
    (h : findLiteral (String.mk buffer) = some ty) :
    (String.mk buffer, ty) ∈ g_TokenLiterals := by
  unfold findLiteral at h
  cases hf : g_TokenLiterals.find? (fun p => p.1 == String.mk buffer) with
  | none => simp [hf] at h
  | some p =>
      simp [hf] at h
      have h1 := List.find?_some hf
      have h2 := List.mem_of_find?_eq_some hf
      simp at h1
      rw [← h1, ← h]
      exact h2

theorem occursInLiteral_of_findLiteral (buffer : List Char) (ty : TokenType)
    (h : findLiteral (String.mk buffer) = some ty) (c : Char) (hc : c ∈ buffer) :
    occursInLiteral c = true := by
  have hm := findLiteral_some buffer ty h
  unfold occursInLiteral
  rw [List.any_eq_true]
  exact ⟨_, hm, by simpa using hc⟩

theorem tokenizeStep_bad (c : Char) (hc : occursInLiteral c = false) (st : LexState) (ch : Char)
    (hv : st.isValue = false) (hb : c ∈ st.buffer) :
    ∃ st1, tokenizeStep st ch = .ok st1 ∧ st1.isValue = false ∧ c ∈ st1.buffer := by
  have hne : st.buffer.isEmpty = false := by
    cases hbuf : st.buffer with
    | nil => rw [hbuf] at hb; cases hb
    | cons x xs => rfl
  have hnone : findLiteral (String.mk (st.buffer ++ [ch])) = none := by
    cases hf : findLiteral (String.mk (st.buffer ++ [ch])) with
    | none => rfl
    | some ty =>
        have := occursInLiteral_of_findLiteral _ ty hf c (List.mem_append_left _ hb)
        rw [hc] at this
        cases this
  refine ⟨{ st with buffer := st.buffer ++ [ch] }, ?_, hv, List.mem_append_left _ hb⟩
  unfold tokenizeStep
  by_cases hd : (ch.isDigit || ch == '.' || ch == ',') = true
  · simp only [hd, hne, if_true, Bool.false_eq_true, if_false, Result.pure_eq, Result.ok_bind, hnone]
  · simp only [hd, hv, Bool.false_eq_true, if_false, Result.pure_eq, Result.ok_bind, hnone]

theorem tokenizeStep_first_bad (c : Char) (hc : occursInLiteral c = false)
    (hd : isValueChar c = false) (st : LexState) :
    (∃ e, tokenizeStep st c = .error e) ∨
    ∃ st1, tokenizeStep st c = .ok st1 ∧ st1.isValue = false ∧ c ∈ st1.buffer := by
  have hnone : ∀ b : List Char, findLiteral (String.mk (b ++ [c])) = none := by
    intro b
    cases hf : findLiteral (String.mk (b ++ [c])) with
    | none => rfl
    | some ty =>
        have := occursInLiteral_of_findLiteral _ ty hf c (by simp)
        rw [hc] at this
        cases this
  have hd2 : (c.isDigit || c == '.' || c == ',') = false := hd
  unfold tokenizeStep
  simp only [hd2, Bool.false_eq_true, if_false]
  cases hv : st.isValue with
  | false =>
      right
      refine ⟨{ st with buffer := st.buffer ++ [c] }, ?_, hv, by simp⟩
      simp only [Bool.false_eq_true, if_false, Result.pure_eq, Result.ok_bind, hnone]
  | true =>
      cases hs : stod st.buffer with
      | error e => left; exact ⟨e, by simp [hs]⟩
      | ok v =>
          right
          refine ⟨{ res := st.res ++ [Token.TokenValue v], isValue := false, buffer := [c] },
            ?_, rfl, by simp⟩
          have := hnone []
          simp only [List.nil_append] at this
          simp [hs, this]

theorem foldlM_tokenizeStep_bad (c : Char) (hc : occursInLiteral c = false) (post : List Char) :
    ∀ st : LexState, st.isValue = false → c ∈ st.buffer →
      ∃ st1, post.foldlM tokenizeStep st = .ok st1 ∧ st1.isValue = false ∧ c ∈ st1.buffer := by
  induction post with
  | nil => intro st hv hb; exact ⟨st, rfl, hv, hb⟩
  | cons ch rest ih =>
      intro st hv hb
      obtain ⟨st1, h1, hv1, hb1⟩ := tokenizeStep_bad c hc st ch hv hb
      obtain ⟨st2, h2, hv2, hb2⟩ := ih st1 hv1 hb1
      exact ⟨st2, by simp [List.foldlM_cons, h1, h2], hv2, hb2⟩

theorem literal_head (p : String × TokenType) (hp : p ∈ g_TokenLiterals) :
    ∃ c cs, p.1.toList = c :: cs ∧ isValueChar c = false := by
  simp only [g_TokenLiterals, List.mem_cons, List.mem_singleton, List.not_mem_nil, or_false] at hp
  rcases hp with rfl | rfl | rfl | rfl | rfl | rfl | rfl | rfl | rfl | rfl | rfl | rfl <;>
    exact ⟨_, _, rfl, by decide⟩

theorem findLiteral_none_of_head (x : Char) (rest : List Char) (hx : isValueChar x = true) :
    findLiteral (String.mk (x :: rest)) = none := by
  cases hf : findLiteral (String.mk (x :: rest)) with
  | none => rfl
  | some ty =>
      obtain ⟨c, cs, h1, h2⟩ := literal_head _ (findLiteral_some _ ty hf)
      simp only [String.toList] at h1
      cases h1
      rw [hx] at h2
      cases h2

theorem literal_run (p : String × TokenType) (hp : p ∈ g_TokenLiterals) (res : List Token) :
    p.1.toList.foldlM tokenizeStep { res := res, isValue := false, buffer := [] } =
      .ok { res := res ++ [Token.plain p.2], isValue := false, buffer := [] } := by
  simp only [g_TokenLiterals, List.mem_cons, List.mem_singleton, List.not_mem_nil, or_false] at hp
  rcases hp with rfl | rfl | rfl | rfl | rfl | rfl | rfl | rfl | rfl | rfl | rfl | rfl <;> rfl

theorem tokenizeStep_flush (res : List Token) (ds : List Char) (v : ℚ) (c : Char)
    (hs : stod ds = .ok v) (hc : isValueChar c = false) :
    tokenizeStep { res := res, isValue := true, buffer := ds } c =
      tokenizeStep { res := res ++ [Token.TokenValue v], isValue := false, buffer := [] } c := by
  have hc2 : (c.isDigit || c == '.' || c == ',') = false := hc
  unfold tokenizeStep
  simp [hc2, hs]

theorem literal_run_flush (p : String × TokenType) (hp : p ∈ g_TokenLiterals) (res : List Token)
    (ds : List Char) (v : ℚ) (hs : stod ds = .ok v) :
    p.1.toList.foldlM tokenizeStep { res := res, isValue := true, buffer := ds } =
      .ok { res := res ++ [Token.TokenValue v] ++ [Token.plain p.2], isValue := false,
            buffer := [] } := by
  obtain ⟨c, cs, h1, h2⟩ := literal_head p hp
  have h := literal_run p hp (res ++ [Token.TokenValue v])
  rw [h1] at h ⊢
  rw [List.foldlM_cons] at h ⊢
  rw [tokenizeStep_flush res ds v c hs h2]
  exact h

theorem tokenizeStep_digit (res : List Token) (buf : List Char) (c : Char) (b : Bool)
    (hb : buf = [] ∨ (b = true ∧ ∃ x rest, buf = x :: rest ∧ isValueChar x = true))
    (hcv : isValueChar c = true) :
    tokenizeStep { res := res, isValue := b, buffer := buf } c =
      .ok { res := res, isValue := true, buffer := buf ++ [c] } := by
  have hc2 : (c.isDigit || c == '.' || c == ',') = true := hcv
  unfold tokenizeStep
  rcases hb with rfl | ⟨rfl, x, rest, rfl, hx⟩
  · simp [hc2, findLiteral_none_of_head c [] hcv]
  · have := findLiteral_none_of_head x (rest ++ [c]) hx
    simp [hc2, this]

theorem digits_run (res : List Token) (ds : List Char)
    (hd : ∀ c ∈ ds, isValueChar c = true) :
    ∀ (buf : List Char) (b : Bool),
      (buf = [] ∨ (b = true ∧ ∃ x rest, buf = x :: rest ∧ isValueChar x = true)) →
      ds.foldlM tokenizeStep { res := res, isValue := b, buffer := buf } =
        .ok { res := res, isValue := (if ds = [] then b else true), buffer := buf ++ ds } := by
  induction ds with
  | nil => intro buf b _; simp
  | cons c cs ih =>
      intro buf b hb
      have hc : isValueChar c = true := hd c (by simp)
      rw [List.foldlM_cons, tokenizeStep_digit res buf c b hb hc, Result.ok_bind]
      have hb2 : (buf ++ [c] = [] ∨
          (true = true ∧ ∃ x rest, buf ++ [c] = x :: rest ∧ isValueChar x = true)) := by
        right
        refine ⟨rfl, ?_⟩
        rcases hb with rfl | ⟨_, x, rest, rfl, hx⟩
        · exact ⟨c, [], rfl, hc⟩
        · exact ⟨x, rest ++ [c], rfl, hx⟩
      rw [ih (fun c hc => hd c (by simp [hc])) (buf ++ [c]) true hb2]
      simp

theorem g_LiteralTokens_some (ty : TokenType) (s : String) (h : g_LiteralTokens ty = some s) :
    (s, ty) ∈ g_TokenLiterals := by
  unfold g_LiteralTokens at h
  cases hf : g_TokenLiterals.find? (fun p => p.2 == ty) with
  | none => simp [hf] at h
  | some p =>
      simp [hf] at h
      have h1 := List.find?_some hf
      have h2 := List.mem_of_find?_eq_some hf
      simp at h1
      rw [← h1, ← h]
      exact h2

theorem relabelList_eq_map (σ : Token → Token) (ts : List Token) :
    relabelList σ ts = ts.map (relabel σ) := by
  induction ts with
  | nil => rfl
  | cons t ts ih => simp [relabelList, ih]

theorem sameForRules_ne (a b x : TokenType) (h : sameForRules a b)
    (hx : isOperandType x = false) : (a ≠ x) = (b ≠ x) := by
  rcases h with rfl | ⟨ha, hb⟩
  · rfl
  · have h1 : a ≠ x := by rintro rfl; rw [ha] at hx; cases hx
    have h2 : b ≠ x := by rintro rfl; rw [hb] at hx; cases hx
    simp [h1, h2]

theorem resetExpectation_inv (rule : Grammatic) (len : Nat) (st st1 : ScanState)
    (hr : ∀ x ∈ rule._tokenOrdering, isOperandType x = false)
    (hb : ∀ b, st.bracket_type = some b → isOperandType b = false)
    (h : resetExpectation rule len st = .ok st1) : ScanInv rule st1 := by
  unfold resetExpectation at h
  cases hrev : rule._tokenOrdering.reverse with
  | nil => simp [hrev] at h
  | cons top rest =>
      simp [hrev] at h
      subst h
      have hmem : ∀ x ∈ top :: rest, isOperandType x = false := by
        intro x hx
        apply hr
        rw [← List.mem_reverse, hrev]
        exact hx
      exact ⟨hr, hmem top (by simp), fun x hx => hmem x (by simp [hx]), hb⟩

theorem resetExpectation_bracket_type (rule : Grammatic) (len : Nat) (st st1 : ScanState)
    (h : resetExpectation rule len st = .ok st1) :
    st1.bracket_type = st.bracket_type ∧ st1.allMode = st.allMode := by
  unfold resetExpectation at h
  cases hrev : rule._tokenOrdering.reverse with
  | nil => simp [hrev] at h
  | cons top rest =>
      simp [hrev] at h
      subst h
      exact ⟨rfl, rfl⟩

theorem ScanInv.of_fields {rule : Grammatic} {st st1 : ScanState} (h : ScanInv rule st)
    (e1 : st1.expectedToken = st.expectedToken) (e2 : st1.expectedTokens = st.expectedTokens)
    (e3 : st1.bracket_type = st.bracket_type) : ScanInv rule st1 := by
  obtain ⟨h1, h2, h3, h4⟩ := h
  exact ⟨h1, by rw [e1]; exact h2, by rw [e2]; exact h3, by rw [e3]; exact h4⟩

theorem scanStep_same (rule : Grammatic) (len : Nat) (st : ScanState) (i : Nat)
    (a b : TokenType) (hinv : ScanInv rule st) (h : sameForRules a b) :
    scanStep rule len st i a = scanStep rule len st i b := by
  obtain ⟨_, h2, _, h4⟩ := hinv
  rcases h with rfl | ⟨ha, hb⟩
  · rfl
  · have ha1 : a ≠ st.expectedToken := by rintro rfl; rw [ha] at h2; cases h2
    have hb1 : b ≠ st.expectedToken := by rintro rfl; rw [hb] at h2; cases h2
    have key : ∀ (x : TokenType) (st1 : ScanState), isOperandType x = true →
        st1.bracket_type = st.bracket_type → ¬ (st1.allMode = true ∧ some x = st1.bracket_type) := by
      intro x st1 hx e ⟨_, hh⟩
      rw [e] at hh
      have := h4 x hh.symm
      rw [hx] at this
      cases this
    unfold scanStep
    split
    · rfl
    · by_cases hany : st.expectedToken = TokenType.any
      · have hna : ¬ (st.expectedToken ≠ TokenType.any ∧ a ≠ st.expectedToken) := by simp [hany]
        have hnb : ¬ (st.expectedToken ≠ TokenType.any ∧ b ≠ st.expectedToken) := by simp [hany]
        rw [if_neg hna, if_neg hnb]
      · have hpa : st.expectedToken ≠ TokenType.any ∧ a ≠ st.expectedToken := ⟨hany, ha1⟩
        have hpb : st.expectedToken ≠ TokenType.any ∧ b ≠ st.expectedToken := ⟨hany, hb1⟩
        rw [if_pos hpa, if_pos hpb]
        by_cases hc : (!st.allMode) = true ∧
            rule._tokenOrdering.length ≠ st.expectedTokens.length + 1
        · rw [if_pos hc]
          cases hre : resetExpectation rule len st with
          | error e => rfl
          | ok st1 =>
              obtain ⟨e1, _⟩ := resetExpectation_bracket_type rule len st st1 hre
              simp only [Result.ok_bind]
              rw [if_neg (key a st1 ha e1), if_neg (key b st1 hb e1)]
        · rw [if_neg hc]
          simp only [Result.pure_eq, Result.ok_bind]
          rw [if_neg (key a st ha rfl), if_neg (key b st hb rfl)]

theorem scanStep_inv (rule : Grammatic) (len : Nat) (st st1 : ScanState) (i : Nat)
    (a : TokenType) (hinv : ScanInv rule st) (h : scanStep rule len st i a = .ok st1) :
    ScanInv rule st1 := by
  have hinv0 := hinv
  obtain ⟨h1, h2, h3, h4⟩ := hinv
  unfold scanStep at h
  split at h
  · cases h; exact hinv0
  · split at h
    · split at h
      · cases hre : resetExpectation rule len st with
        | error e => simp [hre] at h
        | ok st2 =>
            have hi := resetExpectation_inv rule len st st2 h1 h4 hre
            simp only [hre, Result.ok_bind, Result.pure_eq] at h
            split at h <;> cases h
            · exact hi.of_fields rfl rfl rfl
            · exact hi
      · simp only [Result.pure_eq, Result.ok_bind] at h
        split at h <;> cases h
        · exact hinv0.of_fields rfl rfl rfl
        · exact hinv0
    · split at h
      · split at h <;> cases h
        · exact hinv0.of_fields rfl rfl rfl
        · exact hinv0.of_fields rfl rfl rfl
      · rename_i top rest he
        have htop : isOperandType top = false := h3 top (by simp [he])
        have hrest : ∀ x ∈ rest, isOperandType x = false := fun x hx => h3 x (by simp [he, hx])
        simp only at h
        split at h
        · split at h
          · cases h
          · rename_i top2 rest2
            cases h
            exact ⟨h1, hrest top2 (by simp), fun x hx => hrest x (by simp [hx]),
              fun b hb => by simp at hb; subst hb; exact h2⟩
        · cases h
          exact ⟨h1, htop, hrest, h4⟩

theorem scanLoop_same (rule : Grammatic) (len : Nat) (σ : Token → Token)
    (hσ : ∀ t, sameForRules (relabel σ t).type t.type) :
    ∀ (l : List (Nat × Token)) (st : ScanState), ScanInv rule st →
      scanLoop rule len (l.map (fun p => (p.1, relabel σ p.2))) st = scanLoop rule len l st := by
  intro l
  induction l with
  | nil => intro st _; rfl
  | cons p rest ih =>
      intro st hinv
      simp only [List.map_cons, scanLoop]
      rw [scanStep_same rule len st p.1 _ _ hinv (hσ p.2)]
      cases hstep : scanStep rule len st p.1 p.2.type with
      | error e => rfl
      | ok st1 =>
          simp only [Result.ok_bind]
          exact ih st1 (scanStep_inv rule len st st1 p.1 _ hinv hstep)

theorem relabelList_length (σ : Token → Token) (ts : List Token) :
    (relabelList σ ts).length = ts.length := by
  simp [relabelList_eq_map]

theorem rule_tokens_not_operand (rule : Grammatic) (h : rule ∈ s_Grammatics) :
    ∀ x ∈ rule._tokenOrdering, isOperandType x = false := by
  simp only [s_Grammatics, List.mem_cons, List.mem_singleton, List.not_mem_nil, or_false] at h
  rcases h with rfl | rfl | rfl | rfl | rfl | rfl | rfl | rfl | rfl | rfl | rfl | rfl | rfl | rfl <;>
    decide

theorem ruleProcessor_relabel (σ : Token → Token)
    (hσ : ∀ t, sameForRules (relabel σ t).type t.type)
    (recurse : List Token → Result (List Token))
    (hrec : ∀ x, recurse (relabelList σ x) = relabelList σ <$> recurse x)
    (rule : Grammatic) (hrule : rule ∈ s_Grammatics) (tokens : List Token) :
    ruleProcessor recurse rule (relabelList σ tokens) =
      Option.map (relabelList σ) <$> ruleProcessor recurse rule tokens := by
  unfold ruleProcessor
  simp only [relabelList_length]
  cases h0 : resetExpectation rule tokens.length
      { expectedTokens := [], expectedToken := TokenType.nothing,
        firstSubToken := tokens.length, endSubToken := tokens.length, allMode := false,
        sub_bracket_index := 0, bracket_type := none, stopped := false } with
  | error e => rfl
  | ok st0 =>
      have hinv : ScanInv rule st0 :=
        resetExpectation_inv rule _ _ st0 (rule_tokens_not_operand rule hrule) (by simp) h0
      simp only [Result.ok_bind]
      have hl : ((List.range tokens.length).zip (relabelList σ tokens)).reverse =
          (((List.range tokens.length).zip tokens).reverse).map
            (fun p => (p.1, relabel σ p.2)) := by
        rw [relabelList_eq_map, List.zip_map_right, List.map_reverse]
        rfl
      rw [hl, scanLoop_same rule _ σ hσ _ st0 hinv]
      cases hs : scanLoop rule tokens.length ((List.range tokens.length).zip tokens).reverse st0 with
      | error e => rfl
      | ok st =>
          simp only [Result.ok_bind]
          generalize (if st.expectedToken = TokenType.nothing then 0 else st.firstSubToken) = f
          by_cases hf : f = tokens.length
          · simp [hf]
          · simp only [hf, if_false]
            by_cases hall : st.allMode = true
            · simp only [hall, if_true]
              rw [relabelList_eq_map, ← List.map_drop, ← List.map_take, ← relabelList_eq_map, hrec]
              cases hr : recurse (List.take (st.endSubToken - 1 - (f + 1))
                (List.drop (f + 1) tokens)) with
              | error e => rfl
              | ok g =>
                  simp [relabelList_eq_map, List.map_take, List.map_drop, relabel]
            · simp only [hall, if_false]
              simp [relabelList_eq_map, List.map_take, List.map_drop, relabel]

theorem whileRule_relabel (σ : Token → Token)
    (hσ : ∀ t, sameForRules (relabel σ t).type t.type)
    (recurse : List Token → Result (List Token))
    (hrec : ∀ x, recurse (relabelList σ x) = relabelList σ <$> recurse x)
    (rule : Grammatic) (hrule : rule ∈ s_Grammatics) :
    ∀ (n : Nat) (tokens : List Token),
      whileRule recurse rule n (relabelList σ tokens) =
        relabelList σ <$> whileRule recurse rule n tokens := by
  intro n
  induction n with
  | zero => intro tokens; rfl
  | succ n ih =>
      intro tokens
      simp only [whileRule]
      rw [ruleProcessor_relabel σ hσ recurse hrec rule hrule tokens]
      cases hp : ruleProcessor recurse rule tokens with
      | error e => rfl
      | ok r =>
          cases r with
          | none => rfl
          | some tokens1 =>
              simp only [Result.map_ok, Option.map_some', Result.ok_bind]
              exact ih tokens1

theorem foldlM_rules_relabel (σ : Token → Token)
    (step : List Token → Grammatic → Result (List Token)) (rules : List Grammatic)
    (hstep : ∀ rule ∈ rules, ∀ toks,
      step (relabelList σ toks) rule = relabelList σ <$> step toks rule) :
    ∀ tokens, rules.foldlM step (relabelList σ tokens) =
      relabelList σ <$> rules.foldlM step tokens := by
  induction rules with
  | nil => intro tokens; rfl
  | cons rule rest ih =>
      intro tokens
      simp only [List.foldlM_cons]
      rw [hstep rule (by simp) tokens]
      cases hs : step tokens rule with
      | error e => rfl
      | ok toks1 =>
          simp only [Result.map_ok, Result.ok_bind]
          exact ih (fun r hr => hstep r (by simp [hr])) toks1

theorem grammatics_rules_applyFuel_relabel (σ : Token → Token)
    (hσ : ∀ t, sameForRules (relabel σ t).type t.type) :
    ∀ (n : Nat) (tokens : List Token),
      grammatics_rules_applyFuel n (relabelList σ tokens) =
        relabelList σ <$> grammatics_rules_applyFuel n tokens := by
  intro n
  induction n with
  | zero => intro tokens; rfl
  | succ n ih =>
      intro tokens
      simp only [grammatics_rules_applyFuel]
      apply foldlM_rules_relabel
      intro rule hrule toks
      rw [relabelList_length]
      exact whileRule_relabel σ hσ _ ih rule hrule _ toks

theorem grammatics_rules_apply_relabel (σ : Token → Token)
    (hσ : ∀ t, sameForRules (relabel σ t).type t.type) (tokens : List Token) :
    grammatics_rules_apply (relabelList σ tokens) =
      relabelList σ <$> grammatics_rules_apply tokens := by
  unfold grammatics_rules_apply
  rw [relabelList_length]
  exact grammatics_rules_applyFuel_relabel σ hσ _ tokens

theorem isOperandType_of_isOperandToken (a : Token) (h : isOperandToken a = true) :
    isOperandType a.type = true := by
  cases a with
  | plain ty =>
      simp only [isOperandToken, decide_eq_true_eq] at h
      simp only [isOperandType, Token.type, decide_eq_true_eq]
      exact Or.inr h
  | TokenValue v => rfl
  | TokenGroup ty g => simp [isOperandToken] at h

theorem placeOperands_same (a b c : Token) (ha : isOperandToken a = true)
    (hb : isOperandToken b = true) (hc : isOperandToken c = true) (t : Token) :
    sameForRules (relabel (placeOperands a b c) t).type t.type := by
  cases t with
  | plain ty => exact Or.inl rfl
  | TokenGroup ty g => exact Or.inl (by simp [relabel, Token.type])
  | TokenValue v =>
      right
      refine ⟨?_, rfl⟩
      simp only [relabel, placeOperands]
      split
      · exact isOperandType_of_isOperandToken a ha
      · split
        · exact isOperandType_of_isOperandToken b hb
        · split
          · exact isOperandType_of_isOperandToken c hc
          · rfl

theorem grammatics_rules_apply_chain (a b c : Token) (ha : isOperandToken a = true)
    (hb : isOperandToken b = true) (hc : isOperandToken c = true) (op gr : TokenType)
    (h : grammatics_rules_apply [Token.TokenValue 0, Token.plain op, Token.TokenValue 1,
        Token.plain op, Token.TokenValue 2] =
      .ok [Token.TokenGroup gr [Token.TokenValue 0, Token.plain op,
        Token.TokenGroup gr [Token.TokenValue 1, Token.plain op, Token.TokenValue 2]]]) :
    grammatics_rules_apply [a, Token.plain op, b, Token.plain op, c] =
      .ok [Token.TokenGroup gr [a, Token.plain op, Token.TokenGroup gr [b, Token.plain op, c]]] := by
  have hn := grammatics_rules_apply_relabel (placeOperands a b c)
    (placeOperands_same a b c ha hb hc)
    [Token.TokenValue 0, Token.plain op, Token.TokenValue 1, Token.plain op, Token.TokenValue 2]
  rw [h] at hn
  simpa [relabelList, relabel, placeOperands] using hn

theorem chain_plus : grammatics_rules_apply [Token.TokenValue 0, Token.plain TokenType.plus,
      Token.TokenValue 1, Token.plain TokenType.plus, Token.TokenValue 2] =
    .ok [Token.TokenGroup TokenType.plus_gr [Token.TokenValue 0, Token.plain TokenType.plus,
      Token.TokenGroup TokenType.plus_gr [Token.TokenValue 1, Token.plain TokenType.plus,
        Token.TokenValue 2]]] := by rfl

theorem chain_minus : grammatics_rules_apply [Token.TokenValue 0, Token.plain TokenType.minus,
      Token.TokenValue 1, Token.plain TokenType.minus, Token.TokenValue 2] =
    .ok [Token.TokenGroup TokenType.minus_gr [Token.TokenValue 0, Token.plain TokenType.minus,
      Token.TokenGroup TokenType.minus_gr [Token.TokenValue 1, Token.plain TokenType.minus,
        Token.TokenValue 2]]] := by rfl

theorem chain_multipl : grammatics_rules_apply [Token.TokenValue 0,
      Token.plain TokenType.multipl, Token.TokenValue 1, Token.plain TokenType.multipl,
      Token.TokenValue 2] =
    .ok [Token.TokenGroup TokenType.multipl_gr [Token.TokenValue 0,
      Token.plain TokenType.multipl, Token.TokenGroup TokenType.multipl_gr
        [Token.TokenValue 1, Token.plain TokenType.multipl, Token.TokenValue 2]]] := by rfl

theorem chain_devision : grammatics_rules_apply [Token.TokenValue 0,
      Token.plain TokenType.devision, Token.TokenValue 1, Token.plain TokenType.devision,
      Token.TokenValue 2] =
    .ok [Token.TokenGroup TokenType.devision_gr [Token.TokenValue 0,
      Token.plain TokenType.devision, Token.TokenGroup TokenType.devision_gr
        [Token.TokenValue 1, Token.plain TokenType.devision, Token.TokenValue 2]]] := by rfl

theorem tokenToOperator_value (phi : Operator) (v : ℚ) :
    tokenToOperator phi (Token.TokenValue v) =
      .ok (if v = 1 then OneValueOperator else if v = 2 then SquareOperator
        else ConstantOperator v) := by
  simp only [tokenToOperator]
  split_ifs <;> rfl

theorem produce_value_node (L : Libm) (context : CalculationContext) (v : ℚ) :
    produce L context (if v = 1 then OneValueOperator else if v = 2 then SquareOperator
        else ConstantOperator v) = .ok v := by
  split_ifs with h1 h2
  · simp [produce, h1]
  · simp [produce, h2]
  · simp [produce]

theorem isNumeral_spec (s : List Char) (h : isNumeral s = true) :
    (∃ x rest, s = x :: rest ∧ isValueChar x = true) ∧ ∀ c ∈ s, isValueChar c = true := by
  simp only [isNumeral, Bool.and_eq_true, Bool.not_eq_true', List.all_eq_true] at h
  refine ⟨?_, h.2⟩
  cases s with
  | nil => simp at h
  | cons x rest => exact ⟨x, rest, rfl, h.2 x (by simp)⟩

/-- The scan of a numeric literal from an empty buffer: the characters are
collected in the buffer and numeric mode is on. -/
theorem numeral_run (res : List Token) (s : List Char) (h : isNumeral s = true) :
    s.foldlM tokenizeStep { res := res, isValue := false, buffer := [] } =
      .ok { res := res, isValue := true, buffer := s } := by
  obtain ⟨⟨x, rest, hx, _⟩, hall⟩ := isNumeral_spec s h
  rw [digits_run res s hall [] false (Or.inl rfl)]
  simp [hx]

/-- The text of one numeric literal: `tokenize` returns what `std::stod`
makes of it, a value token or the exception. -/
theorem tokenize_numeral (s : List Char) (h : isNumeral s = true) :
    tokenize (String.mk s) = (stod s >>= fun v => pure [Token.TokenValue v]) := by
  rw [tokenize_eq]
  show (s.foldlM tokenizeStep { res := [], isValue := false, buffer := [] } >>= tokenizeEnd) = _
  rw [numeral_run [] s h]
  simp [tokenizeEnd]

/-- A numeric literal that `std::stod` refuses, followed by a table literal:
`tokenize` throws what `std::stod` throws. -/
theorem tokenize_numeral_error (s : List Char) (e : Failure) (p : String × TokenType)
    (hp : p ∈ g_TokenLiterals) (rest : List Char) (h : isNumeral s = true)
    (hs : stod s = .error e) :
    tokenize (String.mk (s ++ p.1.toList ++ rest)) = .error e := by
  obtain ⟨c, cs, h1, h2⟩ := literal_head p hp
  have hc2 : (c.isDigit || c == '.' || c == ',') = false := h2
  rw [tokenize_eq]
  show ((s ++ p.1.toList ++ rest).foldlM tokenizeStep
    { res := [], isValue := false, buffer := [] } >>= tokenizeEnd) = _
  rw [List.append_assoc, List.foldlM_append, numeral_run [] s h, Result.ok_bind, h1,
    List.cons_append, List.foldlM_cons]
  have hstep : tokenizeStep { res := [], isValue := true, buffer := s } c = .error e := by
    unfold tokenizeStep
    simp [hc2, hs]
  rw [hstep]
  rfl

theorem tokenize_chain (sa sb sc : List Char) (a b c : ℚ) (op : TokenType) (s : String)
    (hs : g_LiteralTokens op = some s)
    (ha : isNumeral sa = true) (hb : isNumeral sb = true) (hc : isNumeral sc = true)
    (hsa : stod sa = .ok a) (hsb : stod sb = .ok b) (hsc : stod sc = .ok c) :
    tokenize (String.mk (sa ++ s.toList ++ sb ++ s.toList ++ sc)) =
      .ok [Token.TokenValue a, Token.plain op, Token.TokenValue b, Token.plain op,
        Token.TokenValue c] := by
  have hmem := g_LiteralTokens_some op s hs
  rw [tokenize_eq]
  show ((sa ++ s.toList ++ sb ++ s.toList ++ sc).foldlM tokenizeStep
    { res := [], isValue := false, buffer := [] } >>= tokenizeEnd) = _
  rw [List.foldlM_append, List.foldlM_append, List.foldlM_append, List.foldlM_append,
    numeral_run [] sa ha, Result.ok_bind, literal_run_flush (s, op) hmem [] sa a hsa,
    Result.ok_bind, numeral_run _ sb hb, Result.ok_bind,
    literal_run_flush (s, op) hmem _ sb b hsb, Result.ok_bind, numeral_run _ sc hc,
    Result.ok_bind]
  simp [tokenizeEnd, hsc]

theorem parse_chain (sa sb sc : List Char) (a b c : ℚ) (op gr : TokenType) (s : String)
    (hs : g_LiteralTokens op = some s)
    (h : grammatics_rules_apply [Token.TokenValue 0, Token.plain op, Token.TokenValue 1,
        Token.plain op, Token.TokenValue 2] =
      .ok [Token.TokenGroup gr [Token.TokenValue 0, Token.plain op,
        Token.TokenGroup gr [Token.TokenValue 1, Token.plain op, Token.TokenValue 2]]])
    (ha : isNumeral sa = true) (hb : isNumeral sb = true) (hc : isNumeral sc = true)
    (hsa : stod sa = .ok a) (hsb : stod sb = .ok b) (hsc : stod sc = .ok c)
    (phi : Operator) :
    Equation.parse phi (String.mk (sa ++ s.toList ++ sb ++ s.toList ++ sc)) =
      tokenToOperator phi (Token.TokenGroup gr [Token.TokenValue a, Token.plain op,
        Token.TokenGroup gr [Token.TokenValue b, Token.plain op, Token.TokenValue c]]) := by
  unfold Equation.parse
  rw [tokenize_chain sa sb sc a b c op s hs ha hb hc hsa hsb hsc]
  simp only [Result.ok_bind]
  rw [grammatics_rules_apply_chain (Token.TokenValue a) (Token.TokenValue b)
    (Token.TokenValue c) rfl rfl rfl op gr h]
  rfl

theorem tokenToOperator_chain (L : Libm) (context : CalculationContext) (phi : Operator)
    (a b c : ℚ) (op gr : TokenType)
    (hgr : gr = TokenType.multipl_gr ∨ gr = TokenType.devision_gr ∨ gr = TokenType.plus_gr
      ∨ gr = TokenType.minus_gr) :
    ∃ ta tb tc, tokenToOperator phi (Token.TokenGroup gr [Token.TokenValue a, Token.plain op,
        Token.TokenGroup gr [Token.TokenValue b, Token.plain op, Token.TokenValue c]]) =
        .ok (BinaryOperator op ta (BinaryOperator op tb tc)) ∧
      produce L context ta = .ok a ∧ produce L context tb = .ok b ∧
      produce L context tc = .ok c := by
  refine ⟨_, _, _, ?_, produce_value_node L context a, produce_value_node L context b,
    produce_value_node L context c⟩
  have ha := tokenToOperator_value phi a
  have hb := tokenToOperator_value phi b
  have hc := tokenToOperator_value phi c
  have inner : tokenToOperator phi
      (Token.TokenGroup gr [Token.TokenValue b, Token.plain op, Token.TokenValue c]) =
      .ok (BinaryOperator op
        (if b = 1 then OneValueOperator else if b = 2 then SquareOperator
          else ConstantOperator b)
        (if c = 1 then OneValueOperator else if c = 2 then SquareOperator
          else ConstantOperator c)) := by
    rcases hgr with rfl | rfl | rfl | rfl <;>
      (rw [tokenToOperator]
       simp only [beginToOperator, rbeginToOperator, secondType, Token.type, hb, hc]
       rfl)
  rcases hgr with rfl | rfl | rfl | rfl <;>
    (rw [tokenToOperator]
     simp only [beginToOperator, rbeginToOperator, secondType, Token.type, ha, inner]
     rfl)

/-! ## The determinant by Laplace expansion -/

theorem Matrix.get_eq (m : Matrix) (n : Nat) (h : m.squareOf n) (i j : Nat) (hi : i < n)
    (hj : j < n) : m.get i j = .ok (m.entry i j) := by
  obtain ⟨h1, h2⟩ := h
  have hi2 : i < m._v.length := by omega
  have hrow : (m._v[i]).1.length = n := h2 _ (List.getElem_mem hi2)
  have hj2 : j < (m._v[i]).1.length := by omega
  simp only [Matrix.get, Matrix.entry, List.getElem?_eq_getElem hi2,
    List.getElem?_eq_getElem hj2, List.getD_eq_getElem _ _ hj2]

theorem filter_ne_range (k c : Nat) (hc : c ≤ k) :
    (List.range (k + 1)).filter (fun j => decide (j ≠ c)) = (List.range k).map (skipIndex c) := by
  induction k with
  | zero =>
      have : c = 0 := by omega
      subst this
      decide
  | succ k ih =>
      rw [List.range_succ, List.filter_append]
      by_cases hck : c = k + 1
      · subst hck
        have h1 : (List.range (k + 1)).filter (fun j => decide (j ≠ k + 1)) = List.range (k + 1) := by
          rw [List.filter_eq_self]
          intro a ha
          rw [List.mem_range] at ha
          simp; omega
        rw [h1]
        have h2 : (List.range (k + 1)).map (skipIndex (k + 1)) = List.range (k + 1) := by
          conv_rhs => rw [← List.map_id (List.range (k + 1))]
          apply List.map_congr_left
          intro a ha
          rw [List.mem_range] at ha
          simp [skipIndex, ha]
        rw [h2]
        simp
      · rw [ih (by omega)]
        rw [List.range_succ (n := k), List.map_append]
        have : skipIndex c k = k + 1 := by
          simp [skipIndex]; omega
        simp [this, hck]
        omega

theorem minor_row_fold (m : Matrix) (n : Nat) (h : m.squareOf n) (i c : Nat) (hi : i < n) :
    ∀ (js : List Nat) (init : Vector), (∀ j ∈ js, j < n) →
      js.foldlM (fun (vc : Vector) j =>
          if j = c then (pure vc : Result Vector)
          else do
            let x ← m.get i j
            return { _v := vc._v ++ [x] }) init =
        .ok { _v := init._v ++ (js.filter (fun j => decide (j ≠ c))).map (m.entry i) } := by
  intro js
  induction js with
  | nil => intro init _; simp
  | cons j rest ih =>
      intro init hjs
      have hj : j < n := hjs j (by simp)
      have hrest : ∀ j ∈ rest, j < n := fun x hx => hjs x (by simp [hx])
      rw [List.foldlM_cons]
      by_cases hjc : j = c
      · simp only [hjc, if_true, pure_bind]
        rw [ih init hrest]
        simp
      · simp only [hjc, if_false, m.get_eq n h i j hi hj, Result.ok_bind]
        simp only [pure_bind]
        rw [ih _ hrest]
        simp [hjc]

theorem Matrix.addRow_ok (res : Matrix) (vc : Vector) (w : Nat)
    (hres : ∀ row ∈ res._v, row._v.length = w) (hvc : vc._v.length = w) :
    res.addRow vc = .ok { _v := res._v ++ [vc] } := by
  unfold Matrix.addRow
  cases hv : res._v with
  | nil => rfl
  | cons first rest =>
      have : first._v.length = w := hres first (by simp [hv])
      simp [Vector.size, this, hvc]

theorem minor_fold (m : Matrix) (n : Nat) (h : m.squareOf n) (r c : Nat) :
    ∀ (is : List Nat) (init : Matrix), (∀ i ∈ is, i < n) →
      (∀ row ∈ init._v, row._v.length =
        ((List.range n).filter (fun j => decide (j ≠ c))).length) →
      is.foldlM (fun (res : Matrix) i =>
          if i = r then (pure res : Result Matrix)
          else do
            let vc ←
              (List.range n).foldlM
                (fun (vc : Vector) j =>
                  if j = c then (pure vc : Result Vector)
                  else do
                    let x ← m.get i j
                    return { _v := vc._v ++ [x] })
                { _v := [] }
            res.addRow vc) init =
        .ok { _v := init._v ++ (is.filter (fun i => decide (i ≠ r))).map (fun i =>
          ({ _v := ((List.range n).filter (fun j => decide (j ≠ c))).map (m.entry i) } :
            Vector)) } := by
  intro is
  induction is with
  | nil => intro init _ _; simp
  | cons i rest ih =>
      intro init his hinit
      have hi : i < n := his i (by simp)
      have hrest : ∀ i ∈ rest, i < n := fun x hx => his x (by simp [hx])
      rw [List.foldlM_cons]
      by_cases hir : i = r
      · simp only [hir, if_true, pure_bind]
        rw [ih init hrest hinit]
        simp
      · simp only [hir, if_false]
        rw [minor_row_fold m n h i c hi (List.range n) { _v := [] }
          (fun j hj => List.mem_range.mp hj)]
        simp only [Result.ok_bind, List.nil_append]
        rw [Matrix.addRow_ok init _ _ hinit (by simp)]
        simp only [Result.ok_bind]
        rw [ih _ hrest (by
          intro row hrow
          simp only [List.mem_append, List.mem_singleton] at hrow
          rcases hrow with hrow | rfl
          · exact hinit row hrow
          · simp)]
        simp [hir]

theorem Matrix.minor_eq (m : Matrix) (k : Nat) (h : m.squareOf (k + 1)) (r c : Nat)
    (hr : r ≤ k) (hc : c ≤ k) :
    m.minor r c = .ok { _v := (List.range k).map (fun i =>
      ({ _v := (List.range k).map (fun j => m.entry (skipIndex r i) (skipIndex c j)) } :
        Vector)) } := by
  unfold Matrix.minor
  rw [h.1]
  rw [minor_fold m (k + 1) h r c (List.range (k + 1)) { _v := [] }
    (fun i hi => List.mem_range.mp hi) (by simp)]
  simp only [List.nil_append, filter_ne_range k r hr, filter_ne_range k c hc, List.map_map]
  rfl

theorem zero_count_fold (m : Matrix) (n : Nat) (h : m.squareOf n) (amongRows : Bool) (i : Nat)
    (hi : i < n) :
    ∀ (js : List Nat) (init : Nat), (∀ j ∈ js, j < n) →
      ∃ count, js.foldlM (fun (count : Nat) j => do
            let elem ← (if amongRows then m.get i j else m.get j i)
            return (if elem = 0 then count + 1 else count)) init = (.ok count : Result Nat) := by
  intro js
  induction js with
  | nil => intro init _; exact ⟨init, rfl⟩
  | cons j rest ih =>
      intro init hjs
      have hj : j < n := hjs j (by simp)
      have hrest : ∀ j ∈ rest, j < n := fun x hx => hjs x (by simp [hx])
      rw [List.foldlM_cons]
      cases amongRows with
      | true =>
          simp only [if_true, m.get_eq n h i j hi hj, Result.ok_bind, pure_bind]
          exact ih _ hrest
      | false =>
          simp only [Bool.false_eq_true, if_false, m.get_eq n h j i hj hi, Result.ok_bind,
            pure_bind]
          exact ih _ hrest

theorem biggest_fold (m : Matrix) (n : Nat) (h : m.squareOf n) (amongRows : Bool) :
    ∀ (is : List Nat) (best : Nat × Nat), (∀ i ∈ is, i < n) → best.1 < n →
      ∃ v count, is.foldlM (fun (best : Nat × Nat) i => do
          let currentNumberOfZeroElements ←
            (List.range n).foldlM
              (fun (count : Nat) j => do
                let elem ← (if amongRows then m.get i j else m.get j i)
                return (if elem = 0 then count + 1 else count))
              0
          return (if currentNumberOfZeroElements > best.2 then
            (i, currentNumberOfZeroElements) else best)) best =
        (.ok (v, count) : Result (Nat × Nat)) ∧ v < n := by
  intro is
  induction is with
  | nil => intro best _ hb; exact ⟨best.1, best.2, rfl, hb⟩
  | cons i rest ih =>
      intro best his hb
      have hi : i < n := his i (by simp)
      have hrest : ∀ i ∈ rest, i < n := fun x hx => his x (by simp [hx])
      rw [List.foldlM_cons]
      obtain ⟨count, hcount⟩ := zero_count_fold m n h amongRows i hi (List.range n) 0
        (fun j hj => List.mem_range.mp hj)
      rw [hcount]
      simp only [Result.ok_bind, pure_bind]
      apply ih _ hrest
      split
      · exact hi
      · exact hb

theorem Matrix.biggest_ok (m : Matrix) (n : Nat) (hn : 0 < n) (h : m.squareOf n)
    (amongRows : Bool) :
    ∃ v count, m.calculateVectorWithBiggestNumberOfZeroElements amongRows = .ok (v, count) ∧
      v < n := by
  unfold Matrix.calculateVectorWithBiggestNumberOfZeroElements
  rw [h.1]
  exact biggest_fold m n h amongRows (List.range n) (0, 0) (fun i hi => List.mem_range.mp hi) hn

theorem expansion_fold (m : Matrix) (n : Nat) (h : m.squareOf n) (self : Matrix → Result ℚ)
    (alongRows : Bool) (bv : Nat) (hbv : bv < n) (cof : Nat → ℚ)
    (hcof : ∀ i, i < n →
      (if alongRows then m.algebraicComplement self bv i
        else m.algebraicComplement self i bv) = .ok (cof i)) :
    ∀ (is : List Nat) (init : ℚ), (∀ i ∈ is, i < n) →
      is.foldlM (fun (res : ℚ) i => do
          let v ← (if alongRows then m.get bv i else m.get i bv)
          if v = 0 then return res
          else do
            let det ←
              (if alongRows then m.algebraicComplement self bv i
               else m.algebraicComplement self i bv)
            return res + v * det) init =
        .ok (init + (is.map (fun i =>
          (if alongRows then m.entry bv i else m.entry i bv) * cof i)).sum) := by
  intro is
  induction is with
  | nil => intro init _; simp
  | cons i rest ih =>
      intro init his
      have hi : i < n := his i (by simp)
      have hrest : ∀ i ∈ rest, i < n := fun x hx => his x (by simp [hx])
      rw [List.foldlM_cons]
      have hget : (if alongRows then m.get bv i else m.get i bv) =
          .ok (if alongRows then m.entry bv i else m.entry i bv) := by
        cases alongRows with
        | true => simp only [if_true]; exact m.get_eq n h bv i hbv hi
        | false => simp only [Bool.false_eq_true, if_false]; exact m.get_eq n h i bv hi hbv
      rw [hget]
      simp only [Result.ok_bind]
      by_cases hz : (if alongRows then m.entry bv i else m.entry i bv) = 0
      · simp only [hz, if_true, pure_bind]
        rw [ih init hrest]
        simp only [List.map_cons, List.sum_cons, hz, zero_mul, zero_add]
      · simp only [hz, if_false, hcof i hi, Result.ok_bind, pure_bind]
        rw [ih _ hrest]
        simp [add_assoc]

theorem list_sum_range (f : Nat → ℚ) (n : Nat) :
    ((List.range n).map f).sum = ∑ i : Fin n, f i := by
  rw [← Finset.sum_range]
  induction n with
  | zero => simp
  | succ n ih => rw [List.range_succ, List.map_append, List.sum_append, ih,
      Finset.sum_range_succ]; simp

theorem sign_eq (r c : Nat) : (if (r + c) % 2 = 0 then (1 : ℚ) else -1) = (-1) ^ (r + c) := by
  split
  · rename_i h
    have : Even (r + c) := Nat.even_iff.mpr h
    rw [this.neg_one_pow]
  · rename_i h
    have : Odd (r + c) := Nat.odd_iff.mpr (by omega)
    rw [this.neg_one_pow]

theorem succAbove_val (k : Nat) (x : Fin (k + 1)) (i : Fin k) :
    ((x.succAbove i : Fin (k + 1)) : Nat) = skipIndex x i := by
  unfold skipIndex Fin.succAbove
  split
  · rename_i h
    have : (i : Nat) < x := by simpa [Fin.lt_def] using h
    simp [this]
  · rename_i h
    have : ¬ (i : Nat) < x := by simpa [Fin.lt_def] using h
    simp [this]

theorem minorMatrix_square (m : Matrix) (k r c : Nat) :
    Matrix.squareOf k { _v := (List.range k).map (fun i =>
      ({ _v := (List.range k).map (fun j => m.entry (skipIndex r i) (skipIndex c j)) } :
        Vector)) } := by
  refine ⟨by simp, ?_⟩
  intro row hrow
  simp only [List.mem_map] at hrow
  obtain ⟨i, _, rfl⟩ := hrow
  simp

theorem minorMatrix_toMat (m : Matrix) (k : Nat) (r c : Fin (k + 1)) :
    Matrix.toMat { _v := (List.range k).map (fun i =>
      ({ _v := (List.range k).map (fun j => m.entry (skipIndex r i) (skipIndex c j)) } :
        Vector)) } k = (m.toMat (k + 1)).submatrix r.succAbove c.succAbove := by
  ext i j
  simp only [Matrix.toMat, Matrix.of_apply, Matrix.submatrix_apply, succAbove_val]
  simp [Matrix.entry]

theorem algebraicComplement_eq (m : Matrix) (k : Nat) (h : m.squareOf (k + 1))
    (self : Matrix → Result ℚ)
    (hself : ∀ m', Matrix.squareOf k m' → self m' = .ok (Matrix.det (m'.toMat k)))
    (r c : Fin (k + 1)) :
    m.algebraicComplement self r c =
      .ok ((-1) ^ ((r : Nat) + (c : Nat)) *
        Matrix.det ((m.toMat (k + 1)).submatrix r.succAbove c.succAbove)) := by
  unfold Matrix.algebraicComplement
  rw [m.minor_eq k h r c (by omega) (by omega)]
  simp only [Result.ok_bind]
  rw [hself _ (minorMatrix_square m k r c), minorMatrix_toMat m k r c]
  simp only [Result.ok_bind, sign_eq]
  rfl

theorem determinantFuel_eq (n : Nat) : 1 ≤ n → ∀ (fuel : Nat), n ≤ fuel → ∀ (m : Matrix),
    m.squareOf n → Matrix.determinantFuel fuel m = .ok (Matrix.det (m.toMat n)) := by
  induction n with
  | zero => intro h; omega
  | succ k ih =>
      intro _ fuel hfuel m h
      cases fuel with
      | zero => omega
      | succ f =>
        simp only [Matrix.determinantFuel, Matrix.determinantBody, h.1]
        by_cases h1 : k + 1 = 1
        · have hk : k = 0 := by omega
          subst hk
          simp only [if_true]
          rw [m.get_eq 1 h 0 0 (by omega) (by omega), Matrix.det_fin_one]
          rfl
        · rw [if_neg h1]
          by_cases h2 : k + 1 = 2
          · have hk : k = 1 := by omega
            subst hk
            simp only [if_true]
            rw [m.get_eq 2 h 0 0 (by omega) (by omega), m.get_eq 2 h 1 1 (by omega) (by omega),
              m.get_eq 2 h 1 0 (by omega) (by omega), m.get_eq 2 h 0 1 (by omega) (by omega)]
            simp only [Result.ok_bind, pure_bind]
            rw [Matrix.det_fin_two]
            simp only [Matrix.toMat, Matrix.of_apply]
            show Except.ok _ = Except.ok _
            congr 1
            simp
            ring
          · rw [if_neg h2]
            obtain ⟨br, nr, hbr, hbrlt⟩ := m.biggest_ok (k + 1) (by omega) h true
            obtain ⟨bc, nc, hbc, hbclt⟩ := m.biggest_ok (k + 1) (by omega) h false
            rw [hbr, hbc]
            simp only [Result.ok_bind]
            have hself : ∀ m', Matrix.squareOf k m' →
                Matrix.determinantFuel f m' = .ok (Matrix.det (m'.toMat k)) :=
              fun m' hm' => ih (by omega) f (by omega) m' hm'
            by_cases hal : nr ≥ nc
            · simp only [hal, decide_True, if_true]
              have hexp := expansion_fold m (k + 1) h (Matrix.determinantFuel f) true br hbrlt
                (fun i => if hi : i < k + 1 then
                  (-1) ^ (br + i) * Matrix.det ((m.toMat (k + 1)).submatrix
                    (Fin.succAbove ⟨br, hbrlt⟩) (Fin.succAbove ⟨i, hi⟩)) else 0)
                (by
                  intro i hi
                  simp only [if_true, hi, dif_pos]
                  exact algebraicComplement_eq m k h _ hself ⟨br, hbrlt⟩ ⟨i, hi⟩)
                (List.range (k + 1)) 0 (fun i hi => List.mem_range.mp hi)
              simp only [if_true] at hexp
              rw [hexp]
              congr 1
              rw [zero_add, list_sum_range, Matrix.det_succ_row (m.toMat (k + 1)) ⟨br, hbrlt⟩]
              apply Finset.sum_congr rfl
              intro j _
              simp only [if_true, j.isLt, dif_pos, Matrix.toMat, Matrix.of_apply]
              ring
            · simp only [hal, decide_False, Bool.false_eq_true, if_false]
              have hexp := expansion_fold m (k + 1) h (Matrix.determinantFuel f) false bc hbclt
                (fun i => if hi : i < k + 1 then
                  (-1) ^ (i + bc) * Matrix.det ((m.toMat (k + 1)).submatrix
                    (Fin.succAbove ⟨i, hi⟩) (Fin.succAbove ⟨bc, hbclt⟩)) else 0)
                (by
                  intro i hi
                  simp only [Bool.false_eq_true, if_false, hi, dif_pos]
                  exact algebraicComplement_eq m k h _ hself ⟨i, hi⟩ ⟨bc, hbclt⟩)
                (List.range (k + 1)) 0 (fun i hi => List.mem_range.mp hi)
              simp only [Bool.false_eq_true, if_false] at hexp
              rw [hexp]
              congr 1
              rw [zero_add, list_sum_range, Matrix.det_succ_column (m.toMat (k + 1)) ⟨bc, hbclt⟩]
              apply Finset.sum_congr rfl
              intro j _
              simp only [Bool.false_eq_true, if_false, j.isLt, dif_pos, Matrix.toMat,
                Matrix.of_apply]
              ring

/-! ## Failures of the lexer -/

theorem roundToDouble_error (q : ℚ) (e : Failure) (h : roundToDouble q = .error e) :
    e = Failure.out_of_range := by
  unfold roundToDouble at h
  simp only at h
  split_ifs at h <;> (injection h with h1; exact h1.symm)

theorem stod_error (buffer : List Char) (e : Failure) (h : stod buffer = .error e) :
    e = Failure.invalid_argument ∨ e = Failure.out_of_range := by
  unfold stod at h
  simp only at h
  split at h
  · cases h; exact Or.inl rfl
  · exact Or.inr (roundToDouble_error _ e h)

theorem tokenizeStep_error (st : LexState) (ch : Char) (e : Failure)
    (h : tokenizeStep st ch = .error e) :
    e = Failure.invalid_argument ∨ e = Failure.out_of_range := by
  unfold tokenizeStep at h
  by_cases hd : (ch.isDigit || ch == '.' || ch == ',') = true
  · simp only [hd, if_true, Result.pure_eq, Result.ok_bind] at h
    generalize findLiteral _ = o at h
    cases o <;> cases h
  · simp only [hd, Bool.false_eq_true, if_false] at h
    by_cases hv : st.isValue = true
    · simp only [hv, if_true] at h
      cases hs : stod st.buffer with
      | error e1 =>
          rw [hs] at h
          cases h
          exact stod_error _ _ hs
      | ok v =>
          rw [hs] at h
          simp only [Result.ok_bind, Result.pure_eq] at h
          generalize findLiteral _ = o at h
          cases o <;> cases h
    · simp only [hv, Bool.false_eq_true, if_false, Result.pure_eq, Result.ok_bind] at h
      cases hf : findLiteral (String.mk (st.buffer ++ [ch])) with
      | none => rw [hf] at h; cases h
      | some ty => rw [hf] at h; cases h

theorem foldlM_tokenizeStep_error (l : List Char) : ∀ (st : LexState) (e : Failure),
    l.foldlM tokenizeStep st = .error e →
      e = Failure.invalid_argument ∨ e = Failure.out_of_range := by
  induction l with
  | nil => intro st e h; cases h
  | cons ch rest ih =>
      intro st e h
      rw [List.foldlM_cons] at h
      cases hs : tokenizeStep st ch with
      | error e1 =>
          simp only [hs, Result.error_bind] at h
          cases h
          exact tokenizeStep_error st ch _ hs
      | ok st1 =>
          simp only [hs, Result.ok_bind] at h
          exact ih st1 e h

/-! ## Claims C11 to C20 -/

/-- C11: for every constant node (`ConstantOperator` of any value,
`OneValueOperator`, `SquareOperator`) and every target symbol and depth,
`derevative` returns nothing, the null pointer.  `parse("1")` builds the
OneValue node, so its derivative by any symbol (and depth) is nothing. -/
theorem C11_derevative_constant (v : ℚ) (t : TokenType) (deep : Int) (phi : Operator) :
    derevative (ConstantOperator v) t deep = .ok null ∧
    derevative OneValueOperator t deep = .ok null ∧
    derevative SquareOperator t deep = .ok null ∧
    Equation.parse phi "1" = .ok OneValueOperator ∧
    (Equation.parse phi "1" >>= fun p => derevative p t deep) = .ok null := by
  have h : Equation.parse phi "1" = .ok OneValueOperator := by
    have hs : stod ['1'] = .ok 1 := by decide!
    have ht : tokenize "1" = .ok [Token.TokenValue 1] := by
      rw [tokenize_numeral ['1'] (by decide), hs]
      rfl
    unfold Equation.parse
    rw [ht]
    rfl
  refine ⟨rfl, rfl, rfl, h, ?_⟩
  rw [h]
  rfl

/-- C12: for every Variable node with symbol `s` and depth `d` and every target
`(s', d')`, `derevative` returns the OneValue node when `s' = s` and `d' = d`
and nothing otherwise; the OneValue node renders "1"; the result is nothing
exactly when the symbol or the depth differs. -/
theorem C12_derevative_variable (s s' : TokenType) (d d' : Int) :
    derevative (VariableOperator s d) s' d' =
      .ok (if s' = s ∧ d = d' then OneValueOperator else null) ∧
    derevative (VariableOperator s d) s d = .ok OneValueOperator ∧
    toString OneValueOperator = .ok "1" ∧
    (derevative (VariableOperator s d) s' d' = .ok null ↔ (s' ≠ s ∨ d' ≠ d)) := by
  have h : derevative (VariableOperator s d) s' d' =
      .ok (if s' = s ∧ d = d' then OneValueOperator else null) := rfl
  refine ⟨h, ?_, rfl, ?_⟩
  · show Except.ok (if s = s ∧ d = d then OneValueOperator else null) = _
    simp
  · rw [h]
    by_cases hc : s' = s ∧ d = d'
    · rw [if_pos hc]
      constructor
      · intro e; cases e
      · rintro (h1 | h2)
        · exact absurd hc.1 h1
        · exact absurd hc.2.symm h2
    · rw [if_neg hc]
      simp only [true_iff]
      by_contra hn
      push_neg at hn
      exact hc ⟨hn.1, hn.2.symm⟩

/-- C13: the parser gives the node of `exp(...)` the tag
`TokenType::exp` (the type of the first token of the group), but the
constructor of `UnaryOperator` stores the exponential as `_action` only for the
tag `TokenType::exp_gr`, so the node's `_action` is empty: `produce` on the tree
of "exp(xi)" throws `std::bad_function_call`, and `produce` on a node with the
parser's tag never returns a value.  With the tag `exp_gr` it would return
`exp` of the child's value. -/
theorem C13_produce_exponential_throws (L : Libm) (context : CalculationContext)
    (phi sub : Operator) (b : Token) :
    Equation.parse null "exp(xi)" =
      .ok (UnaryOperator TokenType.exp (UnaryOperator TokenType.bracket_gr
        (VariableOperator TokenType.var_xi 0))) ∧
    (Equation.parse null "exp(xi)" >>= produce L context) =
      .error Failure.bad_function_call ∧
    tokenToOperator phi (Token.TokenGroup TokenType.exp_gr [Token.plain TokenType.exp, b]) =
      (UnaryOperator TokenType.exp <$> tokenToOperator phi b) ∧
    (∀ x, produce L context (UnaryOperator TokenType.exp sub) ≠ .ok x) ∧
    produce L context (UnaryOperator TokenType.exp_gr (VariableOperator TokenType.var_xi 0)) =
      .ok (L.exp context._parameterV) := by
  have h : Equation.parse null "exp(xi)" =
      .ok (UnaryOperator TokenType.exp (UnaryOperator TokenType.bracket_gr
        (VariableOperator TokenType.var_xi 0))) := by decide!
  refine ⟨h, ?_, ?_, ?_, rfl⟩
  · rw [h]
    rfl
  · rw [tokenToOperator]
    simp only [firstType, rbeginToOperator, Token.type]
    cases tokenToOperator phi b <;> rfl
  · intro x
    simp only [produce]
    cases produce L context sub with
    | error e => simp
    | ok v => simp

theorem produce_eq_value (L : Libm) (context : CalculationContext) (p : Operator) :
    produce L context p = value L (fun _ _ => context._parameterV) p := by
  induction p with
  | UnaryOperator t sub ih => simp only [produce, value, ih]
  | BinaryOperator t l r ihl ihr => simp only [produce, value, ihl, ihr]
  | Functional root ih => simp only [produce, value, ih]
  | _ => rfl

/-- C14: `produce` binds every Variable node to the one context scalar: two
trees that differ only in the symbols and depths of their Variable nodes have
the same result of `produce` (a value or the same failure), for every context.
In particular `produce` after `addDeep` equals `produce` before it, on tree
values and on the objects in memory that `addDeep` changes in place (for every
pointer into the memory, whatever is shared).  `produce` is the exact evaluation
`value` at the constant assignment. -/
theorem C14_produce_ignores_variables (L : Libm) (context : CalculationContext)
    (p q : Operator) (h : eraseVariables p = eraseVariables q) :
    produce L context p = produce L context q ∧
    (∀ r, addDeep p = .ok r → produce L context r = produce L context p) ∧
    (∀ (m m1 : Memory) (a b : Pointer), addDeepIn m a = .ok m1 →
      produceIn L context m1 b = produceIn L context m b) ∧
    produce L context p = value L (fun _ _ => context._parameterV) p := by
  refine ⟨?_, ?_, ?_, produce_eq_value L context p⟩
  · rw [← produce_eraseVariables L context p, h, produce_eraseVariables]
  · intro r hr
    rw [← produce_eraseVariables L context r, eraseVariables_addDeep p r hr,
      produce_eraseVariables]
  · intro m m1 a b hm
    have hs := addDeepFuelIn_same _ m m1 a hm
    unfold produceIn
    rw [← hs.1]
    exact produceFuelIn_same L context _ m m1 b hs

theorem C14_produce_ignores_variables_witness :
    eraseVariables (BinaryOperator TokenType.plus (VariableOperator TokenType.var_xi 0)
        (VariableOperator TokenType.var_mi 3)) =
      eraseVariables (BinaryOperator TokenType.plus (VariableOperator TokenType.var_di 7)
        (VariableOperator TokenType.var_xi 1)) ∧
    produce (Libm.mk (fun x => x) (fun x _ => x)) (CalculationContext.mk 5)
        (BinaryOperator TokenType.plus (VariableOperator TokenType.var_xi 0)
          (VariableOperator TokenType.var_mi 3)) =
      produce (Libm.mk (fun x => x) (fun x _ => x)) (CalculationContext.mk 5)
        (BinaryOperator TokenType.plus (VariableOperator TokenType.var_di 7)
          (VariableOperator TokenType.var_xi 1)) :=
  ⟨rfl, (C14_produce_ignores_variables (Libm.mk (fun x => x) (fun x _ => x))
    (CalculationContext.mk 5) _ _ rfl).1⟩

/-- C16: `tokenize` fails with an error on every input that contains, at any
position, a character that is not a digit, '.' or ',' and occurs in none of the
table literals (a space, for example): no such input yields a token sequence.
The error is the `std::runtime_error` "Undefined symbol: ..." of line 527, or
the `std::invalid_argument` or `std::out_of_range` of a `std::stod` call met
before. -/
theorem C16_tokenize_rejects_foreign_character (script : String) (c : Char)
    (hmem : c ∈ script.toList) (hd : isValueChar c = false) (hc : occursInLiteral c = false) :
    ∃ e, tokenize script = .error e ∧
      (e = Failure.invalid_argument ∨ e = Failure.out_of_range ∨
        ∃ buffer, e = Failure.runtime_error ("Undefined symbol: " ++ buffer)) := by
  obtain ⟨pre, post, hsplit⟩ := List.append_of_mem hmem
  rw [tokenize_eq, hsplit, List.foldlM_append]
  cases hpre : pre.foldlM tokenizeStep { res := [], isValue := false, buffer := [] } with
  | error e =>
      exact ⟨e, by simp, by
        rcases foldlM_tokenizeStep_error pre _ e hpre with h | h
        · exact Or.inl h
        · exact Or.inr (Or.inl h)⟩
  | ok st =>
      simp only [Result.ok_bind, List.foldlM_cons]
      rcases tokenizeStep_first_bad c hc hd st with ⟨e, he⟩ | ⟨st1, h1, hv1, hb1⟩
      · exact ⟨e, by simp [he], by
          rcases tokenizeStep_error st c e he with h | h
          · exact Or.inl h
          · exact Or.inr (Or.inl h)⟩
      · obtain ⟨st2, h2, hv2, hb2⟩ := foldlM_tokenizeStep_bad c hc post st1 hv1 hb1
        simp only [h1, Result.ok_bind, h2]
        have hne : st2.buffer.isEmpty = false := by
          cases hbuf : st2.buffer with
          | nil => rw [hbuf] at hb2; cases hb2
          | cons x xs => rfl
        exact ⟨Failure.runtime_error ("Undefined symbol: " ++ String.mk st2.buffer),
          by simp [tokenizeEnd, hv2, hne], Or.inr (Or.inr ⟨String.mk st2.buffer, rfl⟩)⟩

theorem C16_tokenize_rejects_foreign_character_witness :
    ' ' ∈ "1 2".toList ∧ isValueChar ' ' = false ∧ occursInLiteral ' ' = false ∧
    (∃ e, tokenize "1 2" = .error e ∧
      (e = Failure.invalid_argument ∨ e = Failure.out_of_range ∨
        ∃ buffer, e = Failure.runtime_error ("Undefined symbol: " ++ buffer))) ∧
    tokenize "1 2" = .error (Failure.runtime_error "Undefined symbol:  2") :=
  ⟨by decide, by decide, by decide,
    C16_tokenize_rejects_foreign_character "1 2" ' ' (by decide) (by decide) (by decide),
    by
      have hs : stod ['1'] = .ok 1 := by decide!
      have h1 : tokenizeStep { res := [], isValue := false, buffer := [] } '1' =
          .ok { res := [], isValue := true, buffer := ['1'] } :=
        tokenizeStep_digit [] [] '1' false (Or.inl rfl) (by decide)
      have h2 := tokenizeStep_flush [] ['1'] 1 ' ' hs (by decide)
      rw [tokenize_eq]
      show ((['1', ' ', '2'].foldlM tokenizeStep { res := [], isValue := false, buffer := [] })
        >>= tokenizeEnd) = _
      rw [List.foldlM_cons, h1, Result.ok_bind, List.foldlM_cons, h2]
      rfl⟩

/-- C17: for a group token with no children
`tokenToOperator` returns the null pointer and raises no error (lines 72-73);
the reducer turns "()" into an empty bracket group, so `parse("()")` succeeds
with a null root and `parse("exp()")` succeeds with an exponential node whose
child is null. -/
theorem C17_empty_group_returns_null (phi : Operator) (ty : TokenType) :
    tokenToOperator phi (Token.TokenGroup ty []) =
      (if ty = TokenType.var_di ∨ ty = TokenType.var_mi ∨ ty = TokenType.var_xi then
        .ok (VariableOperator ty 0)
       else if ty = TokenType.phi_i_1 then .ok (Functional phi) else .ok null) ∧
    tokenToOperator phi (Token.TokenGroup TokenType.bracket_gr []) = .ok null ∧
    (tokenize "()" >>= grammatics_rules_apply) =
      .ok [Token.TokenGroup TokenType.bracket_gr []] ∧
    Equation.parse null "()" = .ok null ∧
    Equation.parse null "exp()" = .ok (UnaryOperator TokenType.exp null) := by
  refine ⟨?_, by rfl, by rfl, by decide!, by decide!⟩
  cases ty <;> rfl

/-- C18: for every square `n`-by-`n` matrix with `n ≥ 1` over exact numbers,
`calculateDeterminantLaplaceExpansion` returns the determinant of the matrix,
the Leibniz sum over permutations, whichever row or column the zero-count
heuristic selects for the expansion.  Such a matrix passes the tests `isEmpty`
and `isSquare` that the caller makes first. -/
theorem C18_determinant_laplace (m : Matrix) (n : Nat) (hn : 1 ≤ n) (h : m.squareOf n) :
    m.calculateDeterminantLaplaceExpansion = .ok (Matrix.det (m.toMat n)) ∧
    Matrix.det (m.toMat n) =
      ∑ σ : Equiv.Perm (Fin n), ((Equiv.Perm.sign σ : ℤ) : ℚ) * ∏ i : Fin n, m.entry (σ i) i ∧
    m.isEmpty = false ∧ m.isSquare = true := by
  refine ⟨?_, ?_, ?_, ?_⟩
  · unfold Matrix.calculateDeterminantLaplaceExpansion
    exact determinantFuel_eq n hn (m._v.length + 1) (by rw [h.1]; omega) m h
  · rw [Matrix.det_apply']
    rfl
  · unfold Matrix.isEmpty
    cases hv : m._v with
    | nil => have := h.1; rw [hv] at this; simp at this; omega
    | cons first rest => rfl
  · unfold Matrix.isSquare
    cases hv : m._v with
    | nil => rfl
    | cons first rest =>
        have h1 := h.1
        have h2 := h.2 first (by rw [hv]; simp)
        rw [hv] at h1
        simp only [Vector.size, decide_eq_true_eq]
        rw [h2]
        exact h1

theorem C18_determinant_laplace_witness :
    1 ≤ 3 ∧
    Matrix.squareOf 3 (Matrix.mk [Vector.mk [2, 0, 1], Vector.mk [1, 3, 2], Vector.mk [1, 1, 4]]) ∧
    Matrix.calculateDeterminantLaplaceExpansion
        (Matrix.mk [Vector.mk [2, 0, 1], Vector.mk [1, 3, 2], Vector.mk [1, 1, 4]]) = .ok 18 ∧
    Matrix.calculateDeterminantLaplaceExpansion
        (Matrix.mk [Vector.mk [2, 0, 1], Vector.mk [1, 3, 2], Vector.mk [1, 1, 4]]) =
      .ok (Matrix.det (Matrix.toMat
        (Matrix.mk [Vector.mk [2, 0, 1], Vector.mk [1, 3, 2], Vector.mk [1, 1, 4]]) 3)) := by
  have hs : Matrix.squareOf 3
      (Matrix.mk [Vector.mk [2, 0, 1], Vector.mk [1, 3, 2], Vector.mk [1, 1, 4]]) := by
    refine ⟨rfl, ?_⟩
    intro row hrow
    simp only [List.mem_cons, List.mem_singleton, List.not_mem_nil, or_false] at hrow
    rcases hrow with rfl | rfl | rfl <;> rfl
  exact ⟨by decide, hs, by decide!, (C18_determinant_laplace _ 3 (by decide) hs).1⟩

/-- C19: chains of one binary operator are right-associated by the reducer:
for every three operand tokens `a`, `b`, `c` (variable tokens or value tokens)
and each operator among + - * /, `grammatics_rules_apply` on the flat sequence
`a op b op c` returns the single group `[a, op, [b, op, c]]`; `parse` of
"xi-mi-di" builds Binary(subtract, xi, Binary(subtract, mi, di)). -/
theorem C19_chain_right_associated (a b c : Token) (ha : isOperandToken a = true)
    (hb : isOperandToken b = true) (hc : isOperandToken c = true) :
    grammatics_rules_apply [a, Token.plain TokenType.plus, b, Token.plain TokenType.plus, c] =
      .ok [Token.TokenGroup TokenType.plus_gr [a, Token.plain TokenType.plus,
        Token.TokenGroup TokenType.plus_gr [b, Token.plain TokenType.plus, c]]] ∧
    grammatics_rules_apply [a, Token.plain TokenType.minus, b, Token.plain TokenType.minus, c] =
      .ok [Token.TokenGroup TokenType.minus_gr [a, Token.plain TokenType.minus,
        Token.TokenGroup TokenType.minus_gr [b, Token.plain TokenType.minus, c]]] ∧
    grammatics_rules_apply
        [a, Token.plain TokenType.multipl, b, Token.plain TokenType.multipl, c] =
      .ok [Token.TokenGroup TokenType.multipl_gr [a, Token.plain TokenType.multipl,
        Token.TokenGroup TokenType.multipl_gr [b, Token.plain TokenType.multipl, c]]] ∧
    grammatics_rules_apply
        [a, Token.plain TokenType.devision, b, Token.plain TokenType.devision, c] =
      .ok [Token.TokenGroup TokenType.devision_gr [a, Token.plain TokenType.devision,
        Token.TokenGroup TokenType.devision_gr [b, Token.plain TokenType.devision, c]]] ∧
    Equation.parse null "xi-mi-di" =
      .ok (BinaryOperator TokenType.minus (VariableOperator TokenType.var_xi 0)
        (BinaryOperator TokenType.minus (VariableOperator TokenType.var_mi 0)
          (VariableOperator TokenType.var_di 0))) :=
  ⟨grammatics_rules_apply_chain a b c ha hb hc _ _ chain_plus,
   grammatics_rules_apply_chain a b c ha hb hc _ _ chain_minus,
   grammatics_rules_apply_chain a b c ha hb hc _ _ chain_multipl,
   grammatics_rules_apply_chain a b c ha hb hc _ _ chain_devision, by decide!⟩

theorem C19_chain_right_associated_witness :
    isOperandToken (Token.plain TokenType.var_xi) = true ∧
    isOperandToken (Token.TokenValue 3) = true ∧
    grammatics_rules_apply [Token.plain TokenType.var_xi, Token.plain TokenType.devision,
        Token.TokenValue 3, Token.plain TokenType.devision, Token.TokenValue 3] =
      .ok [Token.TokenGroup TokenType.devision_gr [Token.plain TokenType.var_xi,
        Token.plain TokenType.devision, Token.TokenGroup TokenType.devision_gr
          [Token.TokenValue 3, Token.plain TokenType.devision, Token.TokenValue 3]]] :=
  ⟨rfl, rfl, (C19_chain_right_associated (Token.plain TokenType.var_xi) (Token.TokenValue 3)
    (Token.TokenValue 3) rfl rfl rfl).2.2.2.1⟩


/-- C20 (amended): the reducer groups a chain from the right, and `produce`
evaluates the tree as grouped: for all numeric literals `a`, `b`, `c` that
`std::stod` converts, `produce` on `parse("a-b-c")` is `a-(b-c)` and on
`parse("a/b/c")` is `a/(b/c)` (for nonzero `b` and `c`), not the left-to-right
values, `a`, `b`, `c` standing for the doubles `std::stod` reads; for + and *
the grouping does not change the exact value.  A literal that `std::stod`
refuses makes `parse` throw the same exception.  The same values hold of the
token sequences `x - y - z` and `x / y / z` for all values `x`, `y`, `z`.
`produce` on `parse("5-3-1")` is 3. -/
theorem C20_chain_values (sa sb sc : List Char) (a b c x y z : ℚ) (L : Libm)
    (context : CalculationContext) (phi : Operator)
    (ha : isNumeral sa = true) (hb : isNumeral sb = true) (hc : isNumeral sc = true)
    (hsa : stod sa = .ok a) (hsb : stod sb = .ok b) (hsc : stod sc = .ok c) :
    (Equation.parse phi (String.mk (sa ++ "-".toList ++ sb ++ "-".toList ++ sc)) >>=
      produce L context) = .ok (a - (b - c)) ∧
    (b ≠ 0 → c ≠ 0 →
      (Equation.parse phi (String.mk (sa ++ "/".toList ++ sb ++ "/".toList ++ sc)) >>=
        produce L context) = .ok (a / (b / c))) ∧
    (Equation.parse phi (String.mk (sa ++ "+".toList ++ sb ++ "+".toList ++ sc)) >>=
      produce L context) = .ok (a + b + c) ∧
    (Equation.parse phi (String.mk (sa ++ "*".toList ++ sb ++ "*".toList ++ sc)) >>=
      produce L context) = .ok (a * b * c) ∧
    (∀ (s rest : List Char) (e : Failure), isNumeral s = true → stod s = .error e →
      Equation.parse phi (String.mk (s ++ "-".toList ++ rest)) = .error e) ∧
    (∃ t, grammatics_rules_apply [Token.TokenValue x, Token.plain TokenType.minus,
        Token.TokenValue y, Token.plain TokenType.minus, Token.TokenValue z] = .ok [t] ∧
      (tokenToOperator phi t >>= produce L context) = .ok (x - (y - z))) ∧
    (y ≠ 0 → z ≠ 0 →
      ∃ t, grammatics_rules_apply [Token.TokenValue x, Token.plain TokenType.devision,
          Token.TokenValue y, Token.plain TokenType.devision, Token.TokenValue z] = .ok [t] ∧
        (tokenToOperator phi t >>= produce L context) = .ok (x / (y / z))) ∧
    (Equation.parse phi "5-3-1" >>= produce L context) = .ok 3 := by
  have hminus : ∀ (sa sb sc : List Char) (a b c : ℚ), isNumeral sa = true →
      isNumeral sb = true → isNumeral sc = true → stod sa = .ok a → stod sb = .ok b →
      stod sc = .ok c →
      (Equation.parse phi (String.mk (sa ++ "-".toList ++ sb ++ "-".toList ++ sc)) >>=
        produce L context) = .ok (a - (b - c)) := by
    intro sa sb sc a b c ha hb hc hsa hsb hsc
    rw [parse_chain sa sb sc a b c TokenType.minus TokenType.minus_gr "-" (by decide)
      chain_minus ha hb hc hsa hsb hsc phi]
    obtain ⟨ta, tb, tc, h, hpa, hpb, hpc⟩ := tokenToOperator_chain L context phi a b c
      TokenType.minus TokenType.minus_gr (by simp)
    rw [h]
    simp [produce, hpa, hpb, hpc]
  refine ⟨hminus sa sb sc a b c ha hb hc hsa hsb hsc, ?_, ?_, ?_, ?_, ?_, ?_, ?_⟩
  · intro _ _
    rw [parse_chain sa sb sc a b c TokenType.devision TokenType.devision_gr "/" (by decide)
      chain_devision ha hb hc hsa hsb hsc phi]
    obtain ⟨ta, tb, tc, h, hpa, hpb, hpc⟩ := tokenToOperator_chain L context phi a b c
      TokenType.devision TokenType.devision_gr (by simp)
    rw [h]
    simp [produce, hpa, hpb, hpc]
  · rw [parse_chain sa sb sc a b c TokenType.plus TokenType.plus_gr "+" (by decide)
      chain_plus ha hb hc hsa hsb hsc phi]
    obtain ⟨ta, tb, tc, h, hpa, hpb, hpc⟩ := tokenToOperator_chain L context phi a b c
      TokenType.plus TokenType.plus_gr (by simp)
    rw [h]
    simp [produce, hpa, hpb, hpc, add_assoc]
  · rw [parse_chain sa sb sc a b c TokenType.multipl TokenType.multipl_gr "*" (by decide)
      chain_multipl ha hb hc hsa hsb hsc phi]
    obtain ⟨ta, tb, tc, h, hpa, hpb, hpc⟩ := tokenToOperator_chain L context phi a b c
      TokenType.multipl TokenType.multipl_gr (by simp)
    rw [h]
    simp [produce, hpa, hpb, hpc, mul_assoc]
  · intro s rest e hn he
    have hmem : ("-", TokenType.minus) ∈ g_TokenLiterals := by simp [g_TokenLiterals]
    unfold Equation.parse
    rw [tokenize_numeral_error s e ("-", TokenType.minus) hmem rest hn he]
    rfl
  · obtain ⟨ta, tb, tc, h, hpa, hpb, hpc⟩ := tokenToOperator_chain L context phi x y z
      TokenType.minus TokenType.minus_gr (by simp)
    refine ⟨_, grammatics_rules_apply_chain (Token.TokenValue x) (Token.TokenValue y)
      (Token.TokenValue z) rfl rfl rfl _ _ chain_minus, ?_⟩
    rw [h]
    simp [produce, hpa, hpb, hpc]
  · intro _ _
    obtain ⟨ta, tb, tc, h, hpa, hpb, hpc⟩ := tokenToOperator_chain L context phi x y z
      TokenType.devision TokenType.devision_gr (by simp)
    refine ⟨_, grammatics_rules_apply_chain (Token.TokenValue x) (Token.TokenValue y)
      (Token.TokenValue z) rfl rfl rfl _ _ chain_devision, ?_⟩
    rw [h]
    simp [produce, hpa, hpb, hpc]
  · have h := hminus ['5'] ['3'] ['1'] 5 3 1 (by decide) (by decide) (by decide)
      (by decide!) (by decide!) (by decide!)
    have e : String.mk (['5'] ++ "-".toList ++ ['3'] ++ "-".toList ++ ['1']) = "5-3-1" := by
      decide
    rw [e] at h
    rw [h]
    norm_num

theorem C20_chain_values_witness :
    isNumeral "7.5".toList = true ∧ isNumeral "2.5".toList = true ∧
    isNumeral "0.5".toList = true ∧
    stod "7.5".toList = .ok (mkRat 15 2) ∧ stod "2.5".toList = .ok (mkRat 5 2) ∧
    stod "0.5".toList = .ok (mkRat 1 2) ∧
    (Equation.parse null "7.5-2.5-0.5" >>=
      produce (Libm.mk (fun _ => 0) (fun _ _ => 0)) (CalculationContext.mk 0)) =
        .ok (mkRat 15 2 - (mkRat 5 2 - mkRat 1 2)) := by
  have h := (C20_chain_values "7.5".toList "2.5".toList "0.5".toList (mkRat 15 2) (mkRat 5 2)
    (mkRat 1 2) 0 0 0 (Libm.mk (fun _ => 0) (fun _ _ => 0)) (CalculationContext.mk 0) null
    (by decide) (by decide) (by decide) (by decide!) (by decide!) (by decide!)).1
  have e : String.mk ("7.5".toList ++ "-".toList ++ "2.5".toList ++ "-".toList ++ "0.5".toList)
      = "7.5-2.5-0.5" := by decide
  rw [e] at h
  exact ⟨by decide, by decide, by decide, by decide!, by decide!, by decide!, h⟩

/-- C20 as stated fails: `produce` on `parse("5-3-1")` is not `(5-3)-1`, which
is 1; and when the first literal is the numeral of 400 nines, which is outside
the range of `double`, `parse` throws `std::out_of_range`. -/
theorem C20_counterexample :
    (Equation.parse null "5-3-1" >>=
      produce (Libm.mk (fun _ => 0) (fun _ _ => 0)) (CalculationContext.mk 0)) ≠
      .ok ((5 - 3) - 1) ∧
    Equation.parse null (String.mk (List.replicate 400 '9' ++ "-3-1".toList)) =
      .error Failure.out_of_range := by
  refine ⟨by decide!, by decide!⟩

/-! ## Claims C21 to C29 -/

theorem grammatics_rules_apply_place (a b c : Token) (ha : isOperandToken a = true)
    (hb : isOperandToken b = true) (hc : isOperandToken c = true) (ts out : List Token)
    (h : grammatics_rules_apply ts = .ok out) :
    grammatics_rules_apply (relabelList (placeOperands a b c) ts) =
      .ok (relabelList (placeOperands a b c) out) := by
  rw [grammatics_rules_apply_relabel (placeOperands a b c)
    (placeOperands_same a b c ha hb hc) ts, h]
  rfl

theorem mixed_devision_multipl : grammatics_rules_apply [Token.TokenValue 0,
      Token.plain TokenType.devision, Token.TokenValue 1, Token.plain TokenType.multipl,
      Token.TokenValue 2] =
    .ok [Token.TokenGroup TokenType.devision_gr [Token.TokenValue 0,
      Token.plain TokenType.devision, Token.TokenGroup TokenType.multipl_gr
        [Token.TokenValue 1, Token.plain TokenType.multipl, Token.TokenValue 2]]] := by rfl

theorem mixed_minus_plus : grammatics_rules_apply [Token.TokenValue 0,
      Token.plain TokenType.minus, Token.TokenValue 1, Token.plain TokenType.plus,
      Token.TokenValue 2] =
    .ok [Token.TokenGroup TokenType.minus_gr [Token.TokenValue 0,
      Token.plain TokenType.minus, Token.TokenGroup TokenType.plus_gr
        [Token.TokenValue 1, Token.plain TokenType.plus, Token.TokenValue 2]]] := by rfl

theorem mixed_multipl_devision : grammatics_rules_apply [Token.TokenValue 0,
      Token.plain TokenType.multipl, Token.TokenValue 1, Token.plain TokenType.devision,
      Token.TokenValue 2] =
    .ok [Token.TokenGroup TokenType.devision_gr [Token.TokenGroup TokenType.multipl_gr
        [Token.TokenValue 0, Token.plain TokenType.multipl, Token.TokenValue 1],
      Token.plain TokenType.devision, Token.TokenValue 2]] := by rfl

theorem mixed_plus_minus : grammatics_rules_apply [Token.TokenValue 0,
      Token.plain TokenType.plus, Token.TokenValue 1, Token.plain TokenType.minus,
      Token.TokenValue 2] =
    .ok [Token.TokenGroup TokenType.minus_gr [Token.TokenGroup TokenType.plus_gr
        [Token.TokenValue 0, Token.plain TokenType.plus, Token.TokenValue 1],
      Token.plain TokenType.minus, Token.TokenValue 2]] := by rfl

theorem mixed_plus_devision : grammatics_rules_apply [Token.TokenValue 0,
      Token.plain TokenType.plus, Token.TokenValue 1, Token.plain TokenType.devision,
      Token.TokenValue 2] =
    .ok [Token.TokenGroup TokenType.plus_gr [Token.TokenValue 0,
      Token.plain TokenType.plus, Token.TokenGroup TokenType.devision_gr
        [Token.TokenValue 1, Token.plain TokenType.devision, Token.TokenValue 2]]] := by rfl

/-- C21: rule order is the precedence among the four binary rules, multiply
before divide before add before subtract: for every three operand tokens `a`,
`b`, `c` the sequence `a / b * c` reduces to the quotient group
`[a, /, [b, *, c]]` and `a - b + c` to the difference group `[a, -, [b, +, c]]`;
in the opposite orders the first pair is grouped, `[[a, *, b], /, c]` and
`[[a, +, b], -, c]`, and `a + b / c` reduces to `[a, +, [b, /, c]]`.  `produce`
on `parse("8/4*2")` is 1 and on `parse("5-3+1")` is 1. -/
theorem C21_rule_order_is_precedence (a b c : Token) (ha : isOperandToken a = true)
    (hb : isOperandToken b = true) (hc : isOperandToken c = true) (L : Libm)
    (context : CalculationContext) :
    grammatics_rules_apply
        [a, Token.plain TokenType.devision, b, Token.plain TokenType.multipl, c] =
      .ok [Token.TokenGroup TokenType.devision_gr [a, Token.plain TokenType.devision,
        Token.TokenGroup TokenType.multipl_gr [b, Token.plain TokenType.multipl, c]]] ∧
    grammatics_rules_apply [a, Token.plain TokenType.minus, b, Token.plain TokenType.plus, c] =
      .ok [Token.TokenGroup TokenType.minus_gr [a, Token.plain TokenType.minus,
        Token.TokenGroup TokenType.plus_gr [b, Token.plain TokenType.plus, c]]] ∧
    grammatics_rules_apply
        [a, Token.plain TokenType.multipl, b, Token.plain TokenType.devision, c] =
      .ok [Token.TokenGroup TokenType.devision_gr [Token.TokenGroup TokenType.multipl_gr
        [a, Token.plain TokenType.multipl, b], Token.plain TokenType.devision, c]] ∧
    grammatics_rules_apply [a, Token.plain TokenType.plus, b, Token.plain TokenType.minus, c] =
      .ok [Token.TokenGroup TokenType.minus_gr [Token.TokenGroup TokenType.plus_gr
        [a, Token.plain TokenType.plus, b], Token.plain TokenType.minus, c]] ∧
    grammatics_rules_apply
        [a, Token.plain TokenType.plus, b, Token.plain TokenType.devision, c] =
      .ok [Token.TokenGroup TokenType.plus_gr [a, Token.plain TokenType.plus,
        Token.TokenGroup TokenType.devision_gr [b, Token.plain TokenType.devision, c]]] ∧
    (Equation.parse null "8/4*2" >>= produce L context) = .ok 1 ∧
    (Equation.parse null "5-3+1" >>= produce L context) = .ok 1 := by
  have key := fun ts out h => grammatics_rules_apply_place a b c ha hb hc ts out h
  have h1 := key _ _ mixed_devision_multipl
  have h2 := key _ _ mixed_minus_plus
  have h3 := key _ _ mixed_multipl_devision
  have h4 := key _ _ mixed_plus_minus
  have h5 := key _ _ mixed_plus_devision
  have p1 : Equation.parse null "8/4*2" = .ok (BinaryOperator TokenType.devision
      (ConstantOperator 8) (BinaryOperator TokenType.multipl (ConstantOperator 4)
        SquareOperator)) := by decide!
  have p2 : Equation.parse null "5-3+1" = .ok (BinaryOperator TokenType.minus
      (ConstantOperator 5) (BinaryOperator TokenType.plus (ConstantOperator 3)
        OneValueOperator)) := by decide!
  refine ⟨?_, ?_, ?_, ?_, ?_, ?_, ?_⟩
  · simpa [relabelList, relabel, placeOperands] using h1
  · simpa [relabelList, relabel, placeOperands] using h2
  · simpa [relabelList, relabel, placeOperands] using h3
  · simpa [relabelList, relabel, placeOperands] using h4
  · simpa [relabelList, relabel, placeOperands] using h5
  · rw [p1]
    simp [produce]
    norm_num
  · rw [p2]
    simp [produce]
    norm_num

theorem C21_rule_order_is_precedence_witness :
    isOperandToken (Token.TokenValue 8) = true ∧ isOperandToken (Token.TokenValue 4) = true ∧
    isOperandToken (Token.plain TokenType.var_xi) = true ∧
    grammatics_rules_apply [Token.TokenValue 8, Token.plain TokenType.devision,
        Token.TokenValue 4, Token.plain TokenType.multipl, Token.plain TokenType.var_xi] =
      .ok [Token.TokenGroup TokenType.devision_gr [Token.TokenValue 8,
        Token.plain TokenType.devision, Token.TokenGroup TokenType.multipl_gr
          [Token.TokenValue 4, Token.plain TokenType.multipl, Token.plain TokenType.var_xi]]] :=
  ⟨rfl, rfl, rfl, (C21_rule_order_is_precedence (Token.TokenValue 8) (Token.TokenValue 4)
    (Token.plain TokenType.var_xi) rfl rfl rfl (Libm.mk (fun _ => 0) (fun _ _ => 0))
    (CalculationContext.mk 0)).1⟩

theorem minus_before_bare_power : grammatics_rules_apply [Token.plain TokenType.minus,
      Token.TokenValue 0, Token.plain TokenType.ext, Token.TokenValue 1] =
    .ok [Token.TokenGroup TokenType.ext_gr [Token.TokenGroup TokenType.single_minus_gr
        [Token.plain TokenType.minus, Token.TokenValue 0],
      Token.plain TokenType.ext, Token.TokenValue 1]] := by rfl

theorem minus_after_bracket_power : grammatics_rules_apply [Token.plain TokenType.minus,
      Token.plain TokenType.left_bracket, Token.TokenValue 0,
      Token.plain TokenType.right_bracket, Token.plain TokenType.ext, Token.TokenValue 1] =
    .ok [Token.TokenGroup TokenType.single_minus_gr [Token.plain TokenType.minus,
      Token.TokenGroup TokenType.ext_gr [Token.TokenGroup TokenType.bracket_gr
        [Token.TokenValue 0], Token.plain TokenType.ext, Token.TokenValue 1]]] := by rfl

theorem parse_minus_bracket_power : Equation.parse null "-(xi)^2" =
    .ok (UnaryOperator TokenType.minus (BinaryOperator TokenType.ext
      (UnaryOperator TokenType.bracket_gr (VariableOperator TokenType.var_xi 0))
      SquareOperator)) := by decide!

theorem parse_minus_bare_power : Equation.parse null "-xi^2" =
    .ok (BinaryOperator TokenType.ext
      (UnaryOperator TokenType.minus (VariableOperator TokenType.var_xi 0))
      SquareOperator) := by decide!

theorem powValue_two (L : Libm) (x : ℚ) : powValue L x 2 = x ^ 2 := by
  have hden : (2 : ℚ).den = 1 := rfl
  have hnum : (2 : ℚ).num = 2 := rfl
  simp only [powValue, hden, hnum, if_true]
  norm_cast

/-- C22: a leading unary minus is grouped after a power whose base is a bracket
group but before a power whose base is a bare token: for all operand tokens `a`
and `e` the sequence `- ( a ) ^ e` reduces to `[-, [(a), ^, e]]` and `- a ^ e`
to `[[-, a], ^, e]`.  `parse("-(xi)^2")` builds
Unary(negate, Binary(power, (xi), 2)) and `parse("-xi^2")` builds
Binary(power, Unary(negate, xi), 2), whose value at the context value `v` is
`v^2`. -/
theorem C22_leading_minus_and_power (a e : Token) (ha : isOperandToken a = true)
    (he : isOperandToken e = true) (L : Libm) (context : CalculationContext) :
    grammatics_rules_apply [Token.plain TokenType.minus, Token.plain TokenType.left_bracket, a,
        Token.plain TokenType.right_bracket, Token.plain TokenType.ext, e] =
      .ok [Token.TokenGroup TokenType.single_minus_gr [Token.plain TokenType.minus,
        Token.TokenGroup TokenType.ext_gr [Token.TokenGroup TokenType.bracket_gr [a],
          Token.plain TokenType.ext, e]]] ∧
    grammatics_rules_apply [Token.plain TokenType.minus, a, Token.plain TokenType.ext, e] =
      .ok [Token.TokenGroup TokenType.ext_gr [Token.TokenGroup TokenType.single_minus_gr
        [Token.plain TokenType.minus, a], Token.plain TokenType.ext, e]] ∧
    Equation.parse null "-(xi)^2" =
      .ok (UnaryOperator TokenType.minus (BinaryOperator TokenType.ext
        (UnaryOperator TokenType.bracket_gr (VariableOperator TokenType.var_xi 0))
        SquareOperator)) ∧
    Equation.parse null "-xi^2" =
      .ok (BinaryOperator TokenType.ext
        (UnaryOperator TokenType.minus (VariableOperator TokenType.var_xi 0))
        SquareOperator) ∧
    (Equation.parse null "-xi^2" >>= produce L context) = .ok (context._parameterV ^ 2) ∧
    (Equation.parse null "-(xi)^2" >>= produce L context) = .ok (-(context._parameterV ^ 2)) := by
  have h1 := grammatics_rules_apply_place a e e ha he he _ _ minus_after_bracket_power
  have h2 := grammatics_rules_apply_place a e e ha he he _ _ minus_before_bare_power
  refine ⟨?_, ?_, parse_minus_bracket_power, parse_minus_bare_power, ?_, ?_⟩
  · simpa [relabelList, relabel, placeOperands] using h1
  · simpa [relabelList, relabel, placeOperands] using h2
  · rw [parse_minus_bare_power]
    simp only [produce, Result.ok_bind, Result.pure_eq, powValue_two]
    simp
  · rw [parse_minus_bracket_power]
    simp only [produce, Result.ok_bind, Result.pure_eq, powValue_two]

theorem C22_leading_minus_and_power_witness :
    isOperandToken (Token.plain TokenType.var_xi) = true ∧
    isOperandToken (Token.TokenValue 3) = true ∧
    grammatics_rules_apply [Token.plain TokenType.minus, Token.plain TokenType.var_xi,
        Token.plain TokenType.ext, Token.TokenValue 3] =
      .ok [Token.TokenGroup TokenType.ext_gr [Token.TokenGroup TokenType.single_minus_gr
        [Token.plain TokenType.minus, Token.plain TokenType.var_xi],
        Token.plain TokenType.ext, Token.TokenValue 3]] :=
  ⟨rfl, rfl, (C22_leading_minus_and_power (Token.plain TokenType.var_xi) (Token.TokenValue 3)
    rfl rfl (Libm.mk (fun _ => 0) (fun _ _ => 0)) (CalculationContext.mk 0)).2.1⟩

/-! ## When `derevative` throws -/

theorem isParametrique_binary_false (bt : TokenType) (l r : Operator) (t : TokenType)
    (deep : Int) (hl : wellFormed l = true) (hr : wellFormed r = true)
    (h : isParametrique (BinaryOperator bt l r) t deep = .ok false) :
    isParametrique l t deep = .ok false ∧ isParametrique r t deep = .ok false := by
  obtain ⟨x, hx⟩ := isParametrique_total l t deep hl
  obtain ⟨y, hy⟩ := isParametrique_total r t deep hr
  rw [isParametrique_binary bt l r t deep x y hx hy] at h
  cases x <;> cases y <;> simp at h
  exact ⟨hx, hy⟩

theorem supported_of_independent (t : TokenType) (deep : Int) (p : Operator)
    (hw : wellFormed p = true) (h : isParametrique p t deep = .ok false) :
    supported t deep p = true := by
  induction p with
  | null => rfl
  | ConstantOperator v => rfl
  | OneValueOperator => rfl
  | SquareOperator => rfl
  | VariableOperator vt d => rfl
  | UnaryOperator ut sub ih =>
      simp only [wellFormed, Bool.and_eq_true] at hw
      simp only [isParametrique] at h
      simpa only [supported] using ih hw.2 h
  | BinaryOperator bt l r ihl ihr =>
      simp only [wellFormed, Bool.and_eq_true] at hw
      obtain ⟨h1, h2⟩ := isParametrique_binary_false bt l r t deep hw.1.2 hw.2 h
      simp [supported, ihl hw.1.2 h1, ihr hw.2 h2, h1, h2]
  | Functional root ih =>
      simp only [wellFormed] at hw
      simp only [isParametrique] at h
      simpa only [supported] using ih hw h

theorem clone_constantValue (p c : Operator) (h : clone p = .ok c)
    (hc : (constantValue p).isSome = true) : (constantValue c).isSome = true := by
  cases p <;> simp [constantValue] at hc <;> simp [clone] at h <;> subst h <;> rfl

theorem clone_supported (t : TokenType) (deep : Int) (p : Operator)
    (hw : wellFormed p = true) :
    ∀ c, clone p = .ok c → supported t deep p = true → supported t deep c = true := by
  induction p with
  | null => simp [wellFormed] at hw
  | ConstantOperator v => intro c h _; cases h; rfl
  | OneValueOperator => intro c h _; cases h; rfl
  | SquareOperator => intro c h _; cases h; rfl
  | VariableOperator vt d => intro c h _; cases h; rfl
  | UnaryOperator ut sub ih =>
      simp only [wellFormed, Bool.and_eq_true] at hw
      intro c h hs
      obtain ⟨s, hs1, _, _⟩ := clone_wellFormed sub hw.2
      simp only [clone, hs1, Result.ok_bind, Result.pure_eq] at h
      cases h
      simp only [supported] at hs ⊢
      exact ih hw.2 s hs1 hs
  | BinaryOperator bt l r ihl ihr =>
      simp only [wellFormed, Bool.and_eq_true] at hw
      intro c h hs
      obtain ⟨cl, hcl, _, hpl⟩ := clone_wellFormed l hw.1.2
      obtain ⟨cr, hcr, _, hpr⟩ := clone_wellFormed r hw.2
      simp only [clone, hcl, hcr, Result.ok_bind, Result.pure_eq] at h
      cases h
      simp only [supported, Bool.and_eq_true, Bool.or_eq_true, decide_eq_true_eq] at hs ⊢
      refine ⟨⟨ihl hw.1.2 cl hcl hs.1.1, ihr hw.2 cr hcr hs.1.2⟩, ?_⟩
      rcases hs.2 with h | ⟨h1, h2⟩
      · exact Or.inl h
      · right
        rw [hpl, hpr]
        refine ⟨h1, ?_⟩
        rcases h2 with h2 | h2
        · exact Or.inl h2
        · exact Or.inr (clone_constantValue r cr hcr h2)
  | Functional root ih =>
      simp only [wellFormed] at hw
      intro c h hs
      simp only [clone] at h
      simp only [supported] at hs
      exact ih hw c h hs

theorem operator_mul_supported (t : TokenType) (deep : Int) (a b c : Operator)
    (ha : a ≠ null) (hb : b ≠ null) (h : operator_mul a b = .ok c)
    (hsa : supported t deep a = true) (hsb : supported t deep b = true) :
    supported t deep c = true := by
  obtain ⟨c2, h2, _, h3⟩ := operator_mul_total a b ha hb
  rw [h] at h2
  cases h2
  rcases h3 with h3 | h3 | h3 <;> subst h3 <;> simp [supported, hsa, hsb]

theorem expandedSquare_supported (t : TokenType) (deep : Int) (st : TokenType)
    (sl sr e : Operator) (hl : wellFormed sl = true) (hr : wellFormed sr = true)
    (hsl : supported t deep sl = true) (hsr : supported t deep sr = true)
    (h : expandedSquare st sl sr = .ok e) : supported t deep e = true := by
  obtain ⟨llc, hcl, hwl, _⟩ := clone_wellFormed sl hl
  obtain ⟨rrc, hcr, hwr, _⟩ := clone_wellFormed sr hr
  have s1 := clone_supported t deep sl hl llc hcl hsl
  have s2 := clone_supported t deep sr hr rrc hcr hsr
  have hS : wellFormed SquareOperator = true := rfl
  obtain ⟨two_llc, h1, n1, _⟩ := operator_mul_total SquareOperator llc (by simp)
    (wellFormed_ne_null _ hwl)
  obtain ⟨two_ab, h2, _, _⟩ := operator_mul_total two_llc rrc n1 (wellFormed_ne_null _ hwr)
  have s3 := operator_mul_supported t deep _ _ _ (by simp) (wellFormed_ne_null _ hwl) h1 rfl s1
  have s4 := operator_mul_supported t deep _ _ _ n1 (wellFormed_ne_null _ hwr) h2 s3 s2
  simp only [expandedSquare, hcl, hcr, operator_pow_SquareOperator, h1, h2, Result.ok_bind,
    Result.pure_eq] at h
  cases h
  have c1 : (constantValue SquareOperator).isSome = true := rfl
  have c2 : isParametrique SquareOperator t deep = .ok false := rfl
  by_cases hst : st = TokenType.plus <;>
    simp [hst, operator_plus, operator_minus, supported, s1, s2, s4, c1, c2]

/-- The locals `l` and `r` of `BinaryOperator::derevative` when the virtual
call on the child does not throw. -/
theorem child_ok (c : Operator) (t : TokenType) (deep : Int) (hw : wellFormed c = true)
    (hok : isParametrique c t deep = .ok true → ∃ r, derevative c t deep = .ok r) :
    ∃ r, (do if (← isParametrique c t deep) then derevative c t deep else pure null) = .ok r ∧
      (r = null ↔ isParametrique c t deep = .ok false) ∧ (r ≠ null → wellFormed r = true) := by
  obtain ⟨b, hb⟩ := isParametrique_total c t deep hw
  rcases child_outcome c t deep b hb (derevative_outcome c t deep hw) with h | ⟨r, h1, h2, h3⟩
  · cases b with
    | false => simp [hb] at h
    | true =>
      obtain ⟨r, hr⟩ := hok hb
      simp [hb, hr] at h
  · refine ⟨r, h1, ?_, h3⟩
    rw [h2, hb]; cases b <;> simp

theorem derevative_supported_aux (t : TokenType) (deep : Int) :
    ∀ (n : Nat) (p : Operator), weight p ≤ n → wellFormed p = true →
      supported t deep p = true → ∃ r, derevative p t deep = .ok r := by
  intro n
  induction n with
  | zero => intro p h; have := weight_pos p; omega
  | succ n ih =>
    intro p hn hw hs
    cases p with
    | null => simp [wellFormed] at hw
    | ConstantOperator v => exact ⟨null, by rw [derevative_unfold]; rfl⟩
    | OneValueOperator => exact ⟨null, by rw [derevative_unfold]; rfl⟩
    | SquareOperator => exact ⟨null, by rw [derevative_unfold]; rfl⟩
    | VariableOperator vt d => exact ⟨_, by rw [derevative_unfold]; rfl⟩
    | Functional root =>
        simp only [wellFormed] at hw
        simp only [supported] at hs
        obtain ⟨r, hr⟩ := ih root (by simp [weight] at hn; omega) hw hs
        exact ⟨r, by rw [derevative_unfold]; simpa only [derevativeBody] using hr⟩
    | UnaryOperator ut sub =>
        simp only [wellFormed, Bool.and_eq_true, decide_eq_true_eq] at hw
        obtain ⟨hut, hws⟩ := hw
        simp only [supported] at hs
        obtain ⟨b, hb⟩ := isParametrique_total sub t deep hws
        rw [derevative_unfold]
        simp only [derevativeBody, hb]
        cases b with
        | false => exact ⟨null, by simp⟩
        | true =>
          obtain ⟨r, h1⟩ := ih sub (by simp [weight] at hn; omega) hws hs
          have hr : r ≠ null := derevative_ne_null sub r t deep hws hb h1
          rcases hut with h | h | h <;> subst h
          · exact ⟨r, by simp [h1]⟩
          · obtain ⟨c, hc, hwc, _⟩ := clone_wellFormed (UnaryOperator TokenType.exp sub)
              (by simp [wellFormed, hws])
            obtain ⟨m, hm, _, _⟩ := operator_mul_total c r (wellFormed_ne_null _ hwc) hr
            exact ⟨m, by simp [h1, hc, hm]⟩
          · exact ⟨UnaryOperator TokenType.minus r, by simp [h1]⟩
    | BinaryOperator bt l r =>
        simp only [wellFormed, Bool.and_eq_true, decide_eq_true_eq] at hw
        obtain ⟨⟨hbt, hwl⟩, hwr⟩ := hw
        simp only [supported, Bool.and_eq_true, Bool.or_eq_true, decide_eq_true_eq] at hs
        obtain ⟨⟨hsl, hsr⟩, hpow⟩ := hs
        have hwtl := weight_left_lt bt l r
        have hwtr := weight_right_lt bt l r
        obtain ⟨dl, hL, hl2, hl3⟩ := child_ok l t deep hwl (fun _ => ih l (by omega) hwl hsl)
        obtain ⟨dr, hR, hr2, hr3⟩ := child_ok r t deep hwr (fun _ => ih r (by omega) hwr hsr)
        rw [derevative_unfold]
        simp only [derevativeBody]
        rw [hL, hR]
        simp only [Result.ok_bind]
        obtain ⟨cl, hcl, hwcl, _⟩ := clone_wellFormed l hwl
        obtain ⟨cr, hcr, hwcr, _⟩ := clone_wellFormed r hwr
        rcases hbt with h | h | h | h | h <;> subst h <;> simp only []
        · -- power
          have hpow2 : isParametrique r t deep = .ok false ∧
              (isParametrique l t deep = .ok false ∨ (constantValue r).isSome = true) := by
            rcases hpow with h | h
            · exact absurd rfl h
            · exact h
          have hdr : dr = null := hr2.mpr hpow2.1
          unfold derevativePower
          by_cases hdl : dl = null
          · exact ⟨null, by simp [hdl, hdr]⟩
          simp only [hdr, hdl, ne_eq, not_true_eq_false, if_false]
          have hsome : (constantValue r).isSome = true := by
            rcases hpow2.2 with h | h
            · exact absurd (hl2.mpr h) hdl
            · exact h
          cases hcv : constantValue r with
          | none => rw [hcv] at hsome; cases hsome
          | some cv =>
            simp only []
            by_cases hone : r = OneValueOperator
            · exact ⟨dl, by simp [hone]⟩
            simp only [hone, if_false]
            have hgoal := derevativePower_cases (fun q => derevative q t deep) l r dl cv hdl hcv hone
            unfold derevativePower at hgoal
            simp only [hdl, hcv, hone, ne_eq, not_true_eq_false, if_false] at hgoal
            rcases hgoal with ⟨ut, st, sl, sr, hl, hr, hst, hg⟩ | hg
            · subst hl
              rw [hg]
              simp only [wellFormed, Bool.and_eq_true, decide_eq_true_eq] at hwl
              simp only [supported, Bool.and_eq_true] at hsl
              obtain ⟨x, hx⟩ := isParametrique_total sl t deep hwl.2.1.2
              obtain ⟨y, hy⟩ := isParametrique_total sr t deep hwl.2.2
              obtain ⟨e, he, hwe, _⟩ :=
                expandedSquare_total st sl sr t deep x y hst hwl.2.1.2 hwl.2.2 hx hy
              have hlt := weight_expandedSquare_lt ut st sl sr r e hst he
              have hse := expandedSquare_supported t deep st sl sr e hwl.2.1.2 hwl.2.2
                hsl.1.1 hsl.1.2 he
              obtain ⟨d, hd⟩ := ih e (by omega) hwe hse
              exact ⟨d, by simp [he, hd]⟩
            · rw [hg]
              obtain ⟨c, hc, _⟩ := powerRule_total l r dl cv hwl hwr (hl3 hdl)
              exact ⟨c, hc⟩
        · -- multiply
          by_cases hdl : dl = null <;> by_cases hdr : dr = null
          · exact ⟨null, by simp [hdl, hdr]⟩
          · obtain ⟨m, hm, _, _⟩ := operator_mul_total cl dr (wellFormed_ne_null _ hwcl) hdr
            exact ⟨m, by simp [hdl, hdr, hcl, hm]⟩
          · obtain ⟨m, hm, _, _⟩ := operator_mul_total dl cr hdl (wellFormed_ne_null _ hwcr)
            exact ⟨m, by simp [hdl, hdr, hcr, hm]⟩
          · obtain ⟨a, ha, _, _⟩ := operator_mul_total dl cr hdl (wellFormed_ne_null _ hwcr)
            obtain ⟨b, hb, _, _⟩ := operator_mul_total cl dr (wellFormed_ne_null _ hwcl) hdr
            exact ⟨operator_plus a b, by simp [hdl, hdr, hcr, hcl, ha, hb]⟩
        · -- divide
          by_cases hdl : dl = null <;> by_cases hdr : dr = null
          · exact ⟨null, by simp [hdl, hdr]⟩
          · obtain ⟨m, hm, _, _⟩ := operator_mul_total cl dr (wellFormed_ne_null _ hwcl) hdr
            exact ⟨operator_div (UnaryOperator TokenType.minus m)
                (BinaryOperator TokenType.ext cr SquareOperator),
              by simp [hdl, hdr, hcl, hcr, hm, operator_pow_SquareOperator]⟩
          · obtain ⟨m, hm, _, _⟩ := operator_mul_total dl cr hdl (wellFormed_ne_null _ hwcr)
            exact ⟨operator_div m (BinaryOperator TokenType.ext cr SquareOperator),
              by simp [hdl, hdr, hcr, hm, operator_pow_SquareOperator]⟩
          · obtain ⟨a, ha, _, _⟩ := operator_mul_total dl cr hdl (wellFormed_ne_null _ hwcr)
            obtain ⟨b, hb, _, _⟩ := operator_mul_total cl dr (wellFormed_ne_null _ hwcl) hdr
            exact ⟨operator_div (operator_minus a b)
                (BinaryOperator TokenType.ext cr SquareOperator),
              by simp [hdl, hdr, hcr, hcl, ha, hb, operator_pow_SquareOperator]⟩
        · -- add
          by_cases hdl : dl = null <;> by_cases hdr : dr = null
          · exact ⟨null, by simp [hdl, hdr]⟩
          · exact ⟨dr, by simp [hdl]⟩
          · exact ⟨dl, by simp [hdl, hdr]⟩
          · exact ⟨operator_plus dl dr, by simp [hdl, hdr]⟩
        · -- subtract
          by_cases hdl : dl = null <;> by_cases hdr : dr = null
          · exact ⟨null, by simp [hdl, hdr]⟩
          · exact ⟨UnaryOperator TokenType.minus dr, by simp [hdl, hdr]⟩
          · exact ⟨dl, by simp [hdl, hdr]⟩
          · exact ⟨operator_minus dl dr, by simp [hdl, hdr]⟩

theorem derevative_supported (t : TokenType) (deep : Int) (p : Operator)
    (hw : wellFormed p = true) (hs : supported t deep p = true) :
    ∃ r, derevative p t deep = .ok r :=
  derevative_supported_aux t deep (weight p) p (le_refl _) hw hs

theorem supported_of_derevative (t : TokenType) (deep : Int) (p : Operator)
    (hw : wellFormed p = true) (h : ∃ r, derevative p t deep = .ok r) :
    supported t deep p = true := by
  induction p with
  | null => rfl
  | ConstantOperator v => rfl
  | OneValueOperator => rfl
  | SquareOperator => rfl
  | VariableOperator vt d => rfl
  | Functional root ih =>
      simp only [wellFormed] at hw
      obtain ⟨r, hr⟩ := h
      rw [derevative_unfold] at hr
      simp only [derevativeBody] at hr
      simpa only [supported] using ih hw ⟨r, hr⟩
  | UnaryOperator ut sub ih =>
      simp only [wellFormed, Bool.and_eq_true] at hw
      obtain ⟨b, hb⟩ := isParametrique_total sub t deep hw.2
      simp only [supported]
      cases b with
      | false => exact supported_of_independent t deep sub hw.2 hb
      | true =>
        apply ih hw.2
        obtain ⟨r, hr⟩ := h
        rw [derevative_unfold] at hr
        simp only [derevativeBody, hb] at hr
        cases hd : derevative sub t deep with
        | error e => simp [hd] at hr
        | ok d => exact ⟨d, rfl⟩
  | BinaryOperator bt l r ihl ihr =>
      simp only [wellFormed, Bool.and_eq_true] at hw
      obtain ⟨⟨_, hwl⟩, hwr⟩ := hw
      obtain ⟨x, hx⟩ := isParametrique_total l t deep hwl
      obtain ⟨y, hy⟩ := isParametrique_total r t deep hwr
      obtain ⟨res, hres⟩ := h
      rw [derevative_unfold] at hres
      simp only [derevativeBody, hx, hy, Result.ok_bind] at hres
      have hl : x = true → ∃ d, derevative l t deep = .ok d := by
        intro hxt
        cases hd : derevative l t deep with
        | error e => simp [hxt, hd] at hres
        | ok d => exact ⟨d, rfl⟩
      have hr : y = true → ∃ d, derevative r t deep = .ok d := by
        intro hyt
        cases hd : derevative r t deep with
        | error e =>
            cases x with
            | false => simp [hyt, hd] at hres
            | true =>
              obtain ⟨d, hd2⟩ := hl rfl
              simp [hyt, hd, hd2] at hres
        | ok d => exact ⟨d, rfl⟩
      have hsl : supported t deep l = true := by
        cases x with
        | false => exact supported_of_independent t deep l hwl hx
        | true => exact ihl hwl (hl rfl)
      have hsr : supported t deep r = true := by
        cases y with
        | false => exact supported_of_independent t deep r hwr hy
        | true => exact ihr hwr (hr rfl)
      simp only [supported, hsl, hsr, Bool.and_self, Bool.true_and, Bool.or_eq_true,
        decide_eq_true_eq, Bool.and_eq_true]
      by_cases hbt : bt = TokenType.ext
      swap
      · exact Or.inl hbt
      right
      subst hbt
      have hy2 : y = false := by
        cases y with
        | false => rfl
        | true =>
          obtain ⟨d, hd⟩ := hr rfl
          have hne := derevative_ne_null r d t deep hwr hy hd
          cases x with
          | false => simp [hd, derevativePower, hne] at hres
          | true =>
            obtain ⟨d2, hd2⟩ := hl rfl
            simp [hd, hd2, derevativePower, hne] at hres
      subst hy2
      refine ⟨hy, ?_⟩
      cases x with
      | false => exact Or.inl hx
      | true =>
        right
        obtain ⟨d, hd⟩ := hl rfl
        have hne := derevative_ne_null l d t deep hwl hx hd
        cases hcv : constantValue r with
        | none => simp [hd, derevativePower, hne, hcv] at hres
        | some cv => rfl

/-- C23 (amended): for a power node of well-formed trees whose exponent does
not depend on the target and whose base has a derivative that does not fail,
`derevative` returns without error exactly when the base does not depend on
the target or the exponent is a constant node (Constant, OneValue, Square).
It returns nothing when the base is independent, the derivative of the base
when the exponent is the OneValue node, the derivative of the expanded square
or the general power rule for another constant exponent, and it throws the
runtime error of the power case when the base depends on the target and the
exponent is not a constant node. -/
theorem C23_derevative_power_failure (base e : Operator) (t : TokenType) (deep : Int)
    (hb : wellFormed base = true) (he : wellFormed e = true)
    (hind : isParametrique e t deep = .ok false)
    (hbase : ∃ d, derevative base t deep = .ok d) :
    ((∃ r, derevative (BinaryOperator TokenType.ext base e) t deep = .ok r) ↔
      (isParametrique base t deep = .ok false ∨ (constantValue e).isSome = true)) ∧
    (isParametrique base t deep = .ok false →
      derevative (BinaryOperator TokenType.ext base e) t deep = .ok null) ∧
    (isParametrique base t deep = .ok true → e = OneValueOperator →
      derevative (BinaryOperator TokenType.ext base e) t deep = derevative base t deep) ∧
    (isParametrique base t deep = .ok true → constantValue e = none →
      derevative (BinaryOperator TokenType.ext base e) t deep =
        .error (Failure.runtime_error "This math operator isn't supported")) ∧
    (∀ cv d, isParametrique base t deep = .ok true → constantValue e = some cv →
      e ≠ OneValueOperator → derevative base t deep = .ok d →
      (∃ ut st sl sr, base = UnaryOperator ut (BinaryOperator st sl sr) ∧ e = SquareOperator ∧
        (st = TokenType.plus ∨ st = TokenType.minus) ∧
        derevative (BinaryOperator TokenType.ext base e) t deep =
          (expandedSquare st sl sr >>= fun x => derevative x t deep)) ∨
      derevative (BinaryOperator TokenType.ext base e) t deep = powerRule base e cv d) := by
  have hw : wellFormed (BinaryOperator TokenType.ext base e) = true := by
    simp [wellFormed, hb, he]
  have hsb : supported t deep base = true := supported_of_derevative t deep base hb hbase
  have hse : supported t deep e = true := supported_of_independent t deep e he hind
  have hiff : (∃ r, derevative (BinaryOperator TokenType.ext base e) t deep = .ok r) ↔
      (isParametrique base t deep = .ok false ∨ (constantValue e).isSome = true) := by
    constructor
    · intro h
      have hs := supported_of_derevative t deep _ hw h
      simp only [supported, hsb, hse, Bool.and_self, Bool.true_and, Bool.or_eq_true,
        decide_eq_true_eq, Bool.and_eq_true, ne_eq, not_true_eq_false, false_or] at hs
      exact hs.2
    · intro h
      apply derevative_supported t deep _ hw
      simp only [supported, hsb, hse, Bool.and_self, Bool.true_and, Bool.or_eq_true,
        decide_eq_true_eq, Bool.and_eq_true]
      exact Or.inr ⟨hind, h⟩
  obtain ⟨d, hd⟩ := hbase
  refine ⟨hiff, ?_, ?_, ?_, ?_⟩
  · intro h
    rw [derevative_unfold]
    simp [derevativeBody, h, hind, derevativePower]
  · intro h hone
    have hne := derevative_ne_null base d t deep hb h hd
    subst hone
    rw [derevative_unfold]
    simp [derevativeBody, h, isParametrique, hd, derevativePower, hne, constantValue]
  · intro h hnone
    rcases derevative_outcome _ t deep hw with hx | ⟨r, hr, _, _⟩
    · exact hx
    · rcases hiff.mp ⟨r, hr⟩ with h2 | h2
      · rw [h] at h2; cases h2
      · rw [hnone] at h2; cases h2
  · intro cv d2 h hcv hone hd2
    have hne := derevative_ne_null base d2 t deep hb h hd2
    have hu : derevative (BinaryOperator TokenType.ext base e) t deep =
        derevativePower (fun q => derevative q t deep) base e d2 null := by
      rw [derevative_unfold]
      simp only [derevativeBody, h, hind, hd2, Result.ok_bind, if_true, Bool.false_eq_true,
        if_false, Result.pure_eq]
    rw [hu]
    exact derevativePower_cases (fun q => derevative q t deep) base e d2 cv hne hcv hone

theorem C23_derevative_power_failure_witness :
    wellFormed (VariableOperator TokenType.var_xi 0) = true ∧
    wellFormed SquareOperator = true ∧
    isParametrique SquareOperator TokenType.var_xi 0 = .ok false ∧
    (∃ d, derevative (VariableOperator TokenType.var_xi 0) TokenType.var_xi 0 = .ok d) ∧
    ∃ r, derevative (BinaryOperator TokenType.ext (VariableOperator TokenType.var_xi 0)
      SquareOperator) TokenType.var_xi 0 = .ok r :=
  ⟨by decide, by decide, by decide, ⟨OneValueOperator, by decide!⟩,
    (C23_derevative_power_failure (VariableOperator TokenType.var_xi 0) SquareOperator
      TokenType.var_xi 0 (by decide) (by decide) (by decide)
      ⟨OneValueOperator, by decide!⟩).1.mpr (Or.inr rfl)⟩

/-- C23 as stated fails: in `xi^mi` and in `xi^(2)` the exponent does not
depend on `xi` and the derivative of the base `xi` is the OneValue node, yet
`derevative` by `xi` throws, because the exponent is a Variable node and a
bracket node and not a constant node. -/
theorem C23_counterexample :
    Equation.parse null "xi^mi" = .ok (BinaryOperator TokenType.ext
      (VariableOperator TokenType.var_xi 0) (VariableOperator TokenType.var_mi 0)) ∧
    isParametrique (VariableOperator TokenType.var_mi 0) TokenType.var_xi 0 = .ok false ∧
    derevative (VariableOperator TokenType.var_xi 0) TokenType.var_xi 0 = .ok OneValueOperator ∧
    derevative (BinaryOperator TokenType.ext (VariableOperator TokenType.var_xi 0)
        (VariableOperator TokenType.var_mi 0)) TokenType.var_xi 0 =
      .error (Failure.runtime_error "This math operator isn't supported") ∧
    Equation.parse null "xi^(2)" = .ok (BinaryOperator TokenType.ext
      (VariableOperator TokenType.var_xi 0)
      (UnaryOperator TokenType.bracket_gr SquareOperator)) ∧
    isParametrique (UnaryOperator TokenType.bracket_gr SquareOperator) TokenType.var_xi 0 =
      .ok false ∧
    derevative (BinaryOperator TokenType.ext (VariableOperator TokenType.var_xi 0)
        (UnaryOperator TokenType.bracket_gr SquareOperator)) TokenType.var_xi 0 =
      .error (Failure.runtime_error "This math operator isn't supported") := by
  decide!

/-- C24: for a divide node `u/v` of well-formed trees, `derevative` returns
nothing when neither `u` nor `v` depends on the target, and otherwise the
divide node `top / (clone(v) ^ 2)`, the denominator being
`operator^(clone(v), Square)`, where `top` is `-(clone(u) * d(v))` when only `v`
depends, `d(u) * clone(v)` when only `u` depends and
`(d(u) * clone(v)) - (clone(u) * d(v))` when both depend, `*` being the
combinator `operator*`. -/
theorem C24_derevative_divide (u v : Operator) (t : TokenType) (deep : Int)
    (hu : wellFormed u = true) (hv : wellFormed v = true) :
    (isParametrique u t deep = .ok false → isParametrique v t deep = .ok false →
      derevative (BinaryOperator TokenType.devision u v) t deep = .ok null) ∧
    (isParametrique u t deep = .ok false → isParametrique v t deep = .ok true →
      derevative (BinaryOperator TokenType.devision u v) t deep =
        (do let dv ← derevative v t deep
            let uc ← clone u
            let m ← operator_mul uc dv
            let vc ← clone v
            let den ← operator_pow vc SquareOperator
            pure (BinaryOperator TokenType.devision (UnaryOperator TokenType.minus m) den))) ∧
    (isParametrique u t deep = .ok true → isParametrique v t deep = .ok false →
      derevative (BinaryOperator TokenType.devision u v) t deep =
        (do let du ← derevative u t deep
            let vc ← clone v
            let top ← operator_mul du vc
            let vc2 ← clone v
            let den ← operator_pow vc2 SquareOperator
            pure (BinaryOperator TokenType.devision top den))) ∧
    (isParametrique u t deep = .ok true → isParametrique v t deep = .ok true →
      derevative (BinaryOperator TokenType.devision u v) t deep =
        (do let du ← derevative u t deep
            let dv ← derevative v t deep
            let vc ← clone v
            let a ← operator_mul du vc
            let uc ← clone u
            let b ← operator_mul uc dv
            let vc2 ← clone v
            let den ← operator_pow vc2 SquareOperator
            pure (BinaryOperator TokenType.devision (BinaryOperator TokenType.minus a b)
              den))) ∧
    (∀ vc, operator_pow vc SquareOperator = .ok (BinaryOperator TokenType.ext vc SquareOperator)) ∧
    (Equation.parse null "xi/mi" >>= fun e => derevative e TokenType.var_mi 0 >>= toString)
      = .ok "-xi/mi^2" := by
  refine ⟨?_, ?_, ?_, ?_, operator_pow_SquareOperator, by decide!⟩
  · intro h1 h2
    rw [derevative_unfold]
    simp [derevativeBody, h1, h2]
  · intro h1 h2
    rw [derevative_unfold]
    cases h : derevative v t deep with
    | error e => simp [derevativeBody, h1, h2, h]
    | ok dv =>
        have := derevative_ne_null v dv t deep hv h2 h
        simp [derevativeBody, h1, h2, h, this, operator_div]
  · intro h1 h2
    rw [derevative_unfold]
    cases h : derevative u t deep with
    | error e => simp [derevativeBody, h1, h2, h]
    | ok du =>
        have := derevative_ne_null u du t deep hu h1 h
        simp [derevativeBody, h1, h2, h, this, operator_div]
  · intro h1 h2
    rw [derevative_unfold]
    cases h : derevative u t deep with
    | error e => simp [derevativeBody, h1, h2, h]
    | ok du =>
      cases h' : derevative v t deep with
      | error e => simp [derevativeBody, h1, h2, h, h']
      | ok dv =>
        have := derevative_ne_null u du t deep hu h1 h
        have := derevative_ne_null v dv t deep hv h2 h'
        simp [derevativeBody, h1, h2, h, h', *, operator_minus, operator_div]

theorem C24_derevative_divide_witness :
    wellFormed (VariableOperator TokenType.var_xi 0) = true ∧
    wellFormed (VariableOperator TokenType.var_mi 0) = true ∧
    derevative (BinaryOperator TokenType.devision (VariableOperator TokenType.var_xi 0)
        (VariableOperator TokenType.var_mi 0)) TokenType.var_mi 0 =
      (do let dv ← derevative (VariableOperator TokenType.var_mi 0) TokenType.var_mi 0
          let uc ← clone (VariableOperator TokenType.var_xi 0)
          let m ← operator_mul uc dv
          let vc ← clone (VariableOperator TokenType.var_mi 0)
          let den ← operator_pow vc SquareOperator
          pure (BinaryOperator TokenType.devision (UnaryOperator TokenType.minus m) den)) :=
  ⟨by decide, by decide,
    (C24_derevative_divide (VariableOperator TokenType.var_xi 0)
      (VariableOperator TokenType.var_mi 0) TokenType.var_mi 0 (by decide) (by decide)).2.1
      (by decide) (by decide)⟩

/-! ## The identity shortcuts of the combinators -/

theorem isNearOne_true_iff (x : Operator) :
    isNearOne x = .ok true ↔
      (x = OneValueOperator ∨ ∃ v, x = ConstantOperator v ∧ fabs (1 - v) ≤ tol) := by
  cases x with
  | null => simp [isNearOne]
  | ConstantOperator v => simp [isNearOne]
  | OneValueOperator => simp [isNearOne]
  | SquareOperator => simp [isNearOne_SquareOperator]
  | VariableOperator vt d => simp [isNearOne]
  | UnaryOperator ut sub => simp [isNearOne]
  | BinaryOperator bt l r => simp [isNearOne]
  | Functional root => simp [isNearOne]

theorem binary_ne_left (bt : TokenType) (a b : Operator) : BinaryOperator bt a b ≠ a := by
  intro h
  have h1 := weight_left_lt bt a b
  rw [h] at h1
  exact absurd h1 (lt_irrefl _)

theorem binary_ne_right (bt : TokenType) (a b : Operator) : BinaryOperator bt a b ≠ b := by
  intro h
  have h1 := weight_right_lt bt a b
  rw [h] at h1
  exact absurd h1 (lt_irrefl _)

theorem powValue_one (L : Libm) (x : ℚ) : powValue L x 1 = x := by
  have hden : (1 : ℚ).den = 1 := rfl
  have hnum : (1 : ℚ).num = 1 := rfl
  simp only [powValue, hden, hnum, if_true, zpow_one]

/-- C25 (amended): with `x` and `y` the answers of `isNearOne` on the two
operands, `operator*` returns the right operand unchanged when `x`, otherwise
the left operand unchanged when `y`, and otherwise a new Binary multiply node;
`operator^` returns its base unchanged when `y` and otherwise a new Binary power
node.  An operand is near one exactly when it is the OneValue node or a
Constant node whose value is within `tol` of 1, so an operand is returned
unchanged exactly when the other one is such a node.  The value of the
combined tree is the product (power) of the operands' values when a new node
is built or the dropped operand has the value 1. -/
theorem C25_combinator_shortcuts (a b : Operator) (x y : Bool) (L : Libm)
    (context : CalculationContext)
    (ha : isNearOne a = .ok x) (hb : isNearOne b = .ok y) :
    operator_mul a b =
      .ok (if x then b else if y then a else BinaryOperator TokenType.multipl a b) ∧
    operator_pow a b = .ok (if y then a else BinaryOperator TokenType.ext a b) ∧
    (x = true ↔ (a = OneValueOperator ∨ ∃ v, a = ConstantOperator v ∧ fabs (1 - v) ≤ tol)) ∧
    (y = true ↔ (b = OneValueOperator ∨ ∃ v, b = ConstantOperator v ∧ fabs (1 - v) ≤ tol)) ∧
    (∀ c, operator_mul a b = .ok c → ((c = a ∨ c = b) ↔ (x = true ∨ y = true))) ∧
    (∀ c, operator_pow a b = .ok c → (c = a ↔ y = true)) ∧
    (∀ c va vb, operator_mul a b = .ok c → produce L context a = .ok va →
      produce L context b = .ok vb →
      ((x = false ∧ y = false) ∨ (x = true ∧ va = 1) ∨ (x = false ∧ y = true ∧ vb = 1)) →
      produce L context c = .ok (va * vb)) ∧
    (∀ c va vb, operator_pow a b = .ok c → produce L context a = .ok va →
      produce L context b = .ok vb → (y = false ∨ vb = 1) →
      produce L context c = .ok (powValue L va vb)) := by
  have hmul : operator_mul a b =
      .ok (if x then b else if y then a else BinaryOperator TokenType.multipl a b) := by
    cases x <;> cases y <;> simp [operator_mul, ha, hb]
  have hpow : operator_pow a b = .ok (if y then a else BinaryOperator TokenType.ext a b) := by
    cases y <;> simp [operator_pow, hb]
  refine ⟨hmul, hpow, ?_, ?_, ?_, ?_, ?_, ?_⟩
  · rw [← isNearOne_true_iff, ha]
    cases x <;> simp
  · rw [← isNearOne_true_iff, hb]
    cases y <;> simp
  · intro c hc
    rw [hmul] at hc
    cases hc
    cases x with
    | true => simp
    | false =>
      cases y with
      | true => simp
      | false =>
        simp [binary_ne_left, binary_ne_right]
  · intro c hc
    rw [hpow] at hc
    cases hc
    cases y with
    | true => simp
    | false => simp [binary_ne_left]
  · intro c va vb hc hva hvb hcase
    rw [hmul] at hc
    cases hc
    rcases hcase with ⟨hx, hy⟩ | ⟨hx, h1⟩ | ⟨hx, hy, h1⟩
    · subst hx; subst hy
      simp [produce, hva, hvb]
    · subst hx; subst h1
      simp [hvb]
    · subst hx; subst hy; subst h1
      simp [hva]
  · intro c va vb hc hva hvb hcase
    rw [hpow] at hc
    cases hc
    cases y with
    | false => simp [produce, hva, hvb]
    | true =>
      rcases hcase with h | h
      · cases h
      · subst h
        simp [hva, powValue_one]

theorem C25_combinator_shortcuts_witness :
    isNearOne (ConstantOperator 1) = .ok true ∧
    isNearOne (VariableOperator TokenType.var_xi 0) = .ok false ∧
    operator_mul (ConstantOperator 1) (VariableOperator TokenType.var_xi 0) =
      .ok (if true then VariableOperator TokenType.var_xi 0
        else if false then ConstantOperator 1
        else BinaryOperator TokenType.multipl (ConstantOperator 1)
          (VariableOperator TokenType.var_xi 0)) :=
  ⟨by decide!, by decide!,
    (C25_combinator_shortcuts (ConstantOperator 1) (VariableOperator TokenType.var_xi 0)
      true false (Libm.mk (fun _ => 0) (fun _ _ => 0)) (CalculationContext.mk 0)
      (by decide!) (by decide!)).1⟩

/-- C25 as stated fails: the Constant node of value 1.0000005 is not a
OneValue node, yet `operator*` returns the other operand `xi` unchanged and
`operator^` returns the base `xi` unchanged, and at the context value 3 the
value 3 of the result is not the product 1.0000005 * 3.  `parse` reads the
literal 1.0000005 as the nearest `double`, 2251800939585155 / 2^51, which is
near one as well, and the derivative of `parse("1.0000005*xi")` by `xi` is for
this reason the OneValue node. -/
theorem C25_counterexample :
    ConstantOperator (mkRat 2000001 2000000) ≠ OneValueOperator ∧
    operator_mul (ConstantOperator (mkRat 2000001 2000000))
      (VariableOperator TokenType.var_xi 0) = .ok (VariableOperator TokenType.var_xi 0) ∧
    operator_pow (VariableOperator TokenType.var_xi 0)
      (ConstantOperator (mkRat 2000001 2000000)) = .ok (VariableOperator TokenType.var_xi 0) ∧
    produce (Libm.mk (fun _ => 0) (fun _ _ => 0)) (CalculationContext.mk 3)
      (VariableOperator TokenType.var_xi 0) = .ok 3 ∧
    produce (Libm.mk (fun _ => 0) (fun _ _ => 0)) (CalculationContext.mk 3)
      (ConstantOperator (mkRat 2000001 2000000)) = .ok (mkRat 2000001 2000000) ∧
    (3 : ℚ) ≠ mkRat 2000001 2000000 * 3 ∧
    Equation.parse null "1.0000005*xi" = .ok (BinaryOperator TokenType.multipl
      (ConstantOperator (mkRat 2251800939585155 2251799813685248))
      (VariableOperator TokenType.var_xi 0)) ∧
    (Equation.parse null "1.0000005*xi" >>= fun e => derevative e TokenType.var_xi 0) =
      .ok OneValueOperator := by
  decide!

/-! ## Null pointers stop `derevative` -/

theorem wellFormed_of_independent (t : TokenType) (deep : Int) (p : Operator)
    (hk : knownTags p = true) (h : isParametrique p t deep = .ok false) :
    wellFormed p = true := by
  induction p with
  | null => cases h
  | ConstantOperator v => rfl
  | OneValueOperator => rfl
  | SquareOperator => rfl
  | VariableOperator vt d => rfl
  | UnaryOperator ut sub ih =>
      simp only [knownTags, Bool.and_eq_true] at hk
      simp only [isParametrique] at h
      simp only [wellFormed, Bool.and_eq_true]
      exact ⟨hk.1, ih hk.2 h⟩
  | BinaryOperator bt l r ihl ihr =>
      simp only [knownTags, Bool.and_eq_true] at hk
      simp only [wellFormed, Bool.and_eq_true]
      simp only [isParametrique] at h
      cases hl : isParametrique l t deep with
      | error e => simp [hl] at h
      | ok x =>
        cases x with
        | true => simp [hl] at h
        | false =>
          simp [hl] at h
          exact ⟨⟨hk.1.1, ihl hk.1.2 hl⟩, ihr hk.2 h⟩
  | Functional root ih =>
      simp only [knownTags] at hk
      simp only [isParametrique] at h
      simpa only [wellFormed] using ih hk h

theorem wellFormed_of_derevative (t : TokenType) (deep : Int) (p : Operator)
    (hk : knownTags p = true) (h : ∃ r, derevative p t deep = .ok r) :
    wellFormed p = true := by
  induction p with
  | null =>
      obtain ⟨r, hr⟩ := h
      rw [derevative_unfold] at hr
      cases hr
  | ConstantOperator v => rfl
  | OneValueOperator => rfl
  | SquareOperator => rfl
  | VariableOperator vt d => rfl
  | Functional root ih =>
      simp only [knownTags] at hk
      obtain ⟨r, hr⟩ := h
      rw [derevative_unfold] at hr
      simp only [derevativeBody] at hr
      simpa only [wellFormed] using ih hk ⟨r, hr⟩
  | UnaryOperator ut sub ih =>
      simp only [knownTags, Bool.and_eq_true] at hk
      simp only [wellFormed, Bool.and_eq_true]
      refine ⟨hk.1, ?_⟩
      obtain ⟨r, hr⟩ := h
      rw [derevative_unfold] at hr
      simp only [derevativeBody] at hr
      cases hb : isParametrique sub t deep with
      | error e => simp [hb] at hr
      | ok b =>
        cases b with
        | false => exact wellFormed_of_independent t deep sub hk.2 hb
        | true =>
          apply ih hk.2
          cases hd : derevative sub t deep with
          | error e => simp [hb, hd] at hr
          | ok d => exact ⟨d, rfl⟩
  | BinaryOperator bt l r ihl ihr =>
      simp only [knownTags, Bool.and_eq_true] at hk
      simp only [wellFormed, Bool.and_eq_true]
      obtain ⟨res, hres⟩ := h
      rw [derevative_unfold] at hres
      simp only [derevativeBody] at hres
      have hwl : wellFormed l = true := by
        cases hb : isParametrique l t deep with
        | error e => simp [hb] at hres
        | ok b =>
          cases b with
          | false => exact wellFormed_of_independent t deep l hk.1.2 hb
          | true =>
            apply ihl hk.1.2
            cases hd : derevative l t deep with
            | error e => simp [hb, hd] at hres
            | ok d => exact ⟨d, rfl⟩
      have hwr : wellFormed r = true := by
        cases hL : (do if (← isParametrique l t deep) then derevative l t deep else pure null :
            Result Operator) with
        | error e => rw [hL] at hres; cases hres
        | ok dl =>
          rw [hL] at hres
          simp only [Result.ok_bind] at hres
          cases hb : isParametrique r t deep with
          | error e => simp [hb] at hres
          | ok b =>
            cases b with
            | false => exact wellFormed_of_independent t deep r hk.2 hb
            | true =>
              apply ihr hk.2
              cases hd : derevative r t deep with
              | error e => simp [hb, hd] at hres
              | ok d => exact ⟨d, rfl⟩
      exact ⟨⟨hk.1.1, hwl⟩, hwr⟩

/-- C26: for every tree whose tags are those of the operator hierarchy (null
child pointers allowed) and every target on which `derevative` does not fail
but returns `r`, `r` is nothing exactly when `isParametrique` is false for the
tree, and a tree without null pointers exactly when it is true.  On a tree
without null pointers `derevative` never meets a null operand: it does not end
in a null dereference, which is how a combinator applied to a null operand
ends. -/
theorem C26_derevative_null_iff_independent (p r : Operator) (t : TokenType) (deep : Int)
    (hk : knownTags p = true) (h : derevative p t deep = .ok r) :
    (r = null ↔ isParametrique p t deep = .ok false) ∧
    (r ≠ null ↔ isParametrique p t deep = .ok true) ∧
    (r ≠ null → wellFormed r = true) ∧
    (∀ q : Operator, wellFormed q = true →
      derevative q t deep ≠ .error Failure.null_dereference) := by
  have hw : wellFormed p = true := wellFormed_of_derevative t deep p hk ⟨r, h⟩
  obtain ⟨b, hb⟩ := isParametrique_total p t deep hw
  refine ⟨?_, ?_, ?_, ?_⟩
  · rcases derevative_outcome p t deep hw with h1 | ⟨d, h1, h2, _⟩
    · rw [h1] at h; cases h
    · rw [h1] at h; cases h; exact h2
  · rcases derevative_outcome p t deep hw with h1 | ⟨d, h1, h2, _⟩
    · rw [h1] at h; cases h
    · rw [h1] at h; cases h
      rw [Ne, h2, hb]
      cases b <;> simp
  · rcases derevative_outcome p t deep hw with h1 | ⟨d, h1, _, h3⟩
    · rw [h1] at h; cases h
    · rw [h1] at h; cases h; exact h3
  · intro q hq
    rcases derevative_outcome q t deep hq with h1 | ⟨d, h1, _, _⟩
    · rw [h1]; intro hc; cases hc
    · rw [h1]; intro hc; cases hc

theorem C26_derevative_null_iff_independent_witness :
    knownTags (BinaryOperator TokenType.multipl (VariableOperator TokenType.var_xi 0)
      (VariableOperator TokenType.var_mi 0)) = true ∧
    derevative (BinaryOperator TokenType.multipl (VariableOperator TokenType.var_xi 0)
      (VariableOperator TokenType.var_mi 0)) TokenType.var_xi 0 =
        .ok (VariableOperator TokenType.var_mi 0) ∧
    (VariableOperator TokenType.var_mi 0 ≠ null ↔
      isParametrique (BinaryOperator TokenType.multipl (VariableOperator TokenType.var_xi 0)
        (VariableOperator TokenType.var_mi 0)) TokenType.var_xi 0 = .ok true) :=
  ⟨by decide, by decide!,
    (C26_derevative_null_iff_independent (BinaryOperator TokenType.multipl
      (VariableOperator TokenType.var_xi 0) (VariableOperator TokenType.var_mi 0))
      (VariableOperator TokenType.var_mi 0) TokenType.var_xi 0 (by decide) (by decide!)).2.1⟩

/-- C27 fails on the code: the derivative of `parse("(xi+xi^2)*mi")` by `xi`
is the product of `1+2*xi` and `mi`; `toString` renders it without brackets as
`1+2*xi*mi`, which parses to the sum of `1` and `2*(xi*mi)`, and at the context
value 3 `produce` gives 21 on the derivative and 19 on the re-parsed tree. -/
theorem C27_rendered_derivative_differs :
    Equation.parse null "(xi+xi^2)*mi" = .ok (BinaryOperator TokenType.multipl
      (UnaryOperator TokenType.bracket_gr (BinaryOperator TokenType.plus
        (VariableOperator TokenType.var_xi 0)
        (BinaryOperator TokenType.ext (VariableOperator TokenType.var_xi 0) SquareOperator)))
      (VariableOperator TokenType.var_mi 0)) ∧
    (Equation.parse null "(xi+xi^2)*mi" >>= fun e => derevative e TokenType.var_xi 0) =
      .ok (BinaryOperator TokenType.multipl
        (BinaryOperator TokenType.plus OneValueOperator
          (BinaryOperator TokenType.multipl (ConstantOperator 2)
            (VariableOperator TokenType.var_xi 0)))
        (VariableOperator TokenType.var_mi 0)) ∧
    (Equation.parse null "(xi+xi^2)*mi" >>= fun e => derevative e TokenType.var_xi 0 >>=
      toString) = .ok "1+2*xi*mi" ∧
    Equation.parse null "1+2*xi*mi" = .ok (BinaryOperator TokenType.plus OneValueOperator
      (BinaryOperator TokenType.multipl SquareOperator
        (BinaryOperator TokenType.multipl (VariableOperator TokenType.var_xi 0)
          (VariableOperator TokenType.var_mi 0)))) ∧
    (Equation.parse null "(xi+xi^2)*mi" >>= fun e => derevative e TokenType.var_xi 0 >>=
      produce (Libm.mk (fun _ => 0) (fun _ _ => 0)) (CalculationContext.mk 3)) = .ok 21 ∧
    (Equation.parse null "(xi+xi^2)*mi" >>= fun e => derevative e TokenType.var_xi 0 >>=
      toString >>= Equation.parse null >>=
      produce (Libm.mk (fun _ => 0) (fun _ _ => 0)) (CalculationContext.mk 3)) = .ok 19 := by
  decide!

/-- C28: `derevative` is total.  On every tree and target it ends with a
pointer or a C++ failure and never by exhausting the activations the embedding
allows, which are `weight` of the tree; it satisfies the recursion of the
source; every virtual call an activation makes is on a tree of smaller
`weight`, the expanded square of the binomial branch included, which is not a
subtree of the node; and more activations do not change the result.  The
derivative of `(xi+mi)^2` by `xi`, which goes through the binomial branch,
renders `2*xi+2*mi`. -/
theorem C28_derevative_total (p : Operator) (t : TokenType) (deep : Int) :
    ((∃ r, derevative p t deep = .ok r) ∨
      (∃ e, derevative p t deep = .error e ∧ e ≠ Failure.fuel_exhausted)) ∧
    derevative p t deep = derevativeBody (fun q => derevative q t deep) t deep p ∧
    (∀ f g : Operator → Result Operator, (∀ q, weight q < weight p → f q = g q) →
      derevativeBody f t deep p = derevativeBody g t deep p) ∧
    (∀ n, weight p ≤ n → derevativeFuel t deep n p = derevative p t deep) ∧
    (∀ ut st sl sr right e, (st = TokenType.plus ∨ st = TokenType.minus) →
      expandedSquare st sl sr = .ok e →
      weight e < weight (BinaryOperator TokenType.ext
        (UnaryOperator ut (BinaryOperator st sl sr)) right)) ∧
    (Equation.parse null "(xi+mi)^2" >>= fun e => derevative e TokenType.var_xi 0 >>=
      toString) = .ok "2*xi+2*mi" := by
  refine ⟨?_, derevative_unfold p t deep, ?_, ?_, ?_, by decide!⟩
  · have hr := derevative_runs t deep (weight p) p (le_refl _)
    cases hd : derevative p t deep with
    | ok r => exact Or.inl ⟨r, rfl⟩
    | error e =>
      right
      refine ⟨e, rfl, ?_⟩
      intro he
      rw [hd, he] at hr
      exact hr rfl
  · intro f g h
    exact derevativeBody_congr f g t deep p h
  · intro n hn
    exact derevativeFuel_stable t deep n (weight p) p hn (le_refl _)
  · intro ut st sl sr right e hst he
    exact weight_expandedSquare_lt ut st sl sr right e hst he

theorem C28_derevative_total_witness :
    derevativeFuel TokenType.var_xi 0 40 (BinaryOperator TokenType.ext
      (UnaryOperator TokenType.bracket_gr (BinaryOperator TokenType.plus
        (VariableOperator TokenType.var_xi 0) (VariableOperator TokenType.var_mi 0)))
      SquareOperator) =
    derevative (BinaryOperator TokenType.ext
      (UnaryOperator TokenType.bracket_gr (BinaryOperator TokenType.plus
        (VariableOperator TokenType.var_xi 0) (VariableOperator TokenType.var_mi 0)))
      SquareOperator) TokenType.var_xi 0 :=
  (C28_derevative_total (BinaryOperator TokenType.ext
      (UnaryOperator TokenType.bracket_gr (BinaryOperator TokenType.plus
        (VariableOperator TokenType.var_xi 0) (VariableOperator TokenType.var_mi 0)))
      SquareOperator) TokenType.var_xi 0).2.2.2.1 40 (by decide)

/-! ## The reducer shortens the list -/

/-- The three shapes of the rules of `s_Grammatics`: the bracket rule, the one
rule of two tokens and the rules of three tokens. -/
theorem rule_shape (rule : Grammatic) (h : rule ∈ s_Grammatics) :
    (rule._grType = TokenType.bracket_gr ∧ rule._tokenOrdering =
      [TokenType.left_bracket, TokenType.all, TokenType.right_bracket]) ∨
    (∃ a b, rule._tokenOrdering = [a, b] ∧ a ≠ TokenType.all ∧ b ≠ TokenType.all ∧
      a ≠ TokenType.nothing ∧ b ≠ TokenType.nothing ∧
      rule._grType ≠ TokenType.single_minus_gr) ∨
    (∃ a b c, rule._tokenOrdering = [a, b, c] ∧ a ≠ TokenType.all ∧ b ≠ TokenType.all ∧
      c ≠ TokenType.all ∧ b ≠ TokenType.nothing ∧ c ≠ TokenType.nothing) := by
  simp only [s_Grammatics, List.mem_cons, List.mem_singleton, List.not_mem_nil, or_false] at h
  rcases h with rfl | rfl | rfl | rfl | rfl | rfl | rfl | rfl | rfl | rfl | rfl | rfl | rfl | rfl
  · left; exact ⟨rfl, rfl⟩
  · right; left; exact ⟨_, _, rfl, by decide, by decide, by decide, by decide, by decide⟩
  all_goals
    right; right; exact ⟨_, _, _, rfl, by decide, by decide, by decide, by decide, by decide⟩

/-- The scan after the `break`, and the scan between the two brackets of a
pair. -/
theorem scanStep_bound_all (rule : Grammatic) (len k : Nat) (st : ScanState)
    (ty : TokenType) (hinv : ScanBound rule len (k + 1) st)
    (hs : st.stopped = true ∨ st.allMode = true) :
    ∃ st1, scanStep rule len st k ty = .ok st1 ∧ ScanBound rule len k st1 := by
  rcases st with ⟨ets, et, first, endS, allMode, idx, bt, stopped⟩
  obtain ⟨h1, h2, h3⟩ := hinv
  simp only at h1 h2 h3 hs
  cases stopped with
  | true =>
    refine ⟨_, by simp [scanStep]; rfl, ?_⟩
    exact ⟨h1, h2, by simp⟩
  | false =>
    simp only [Bool.false_eq_true, false_or] at hs
    subst hs
    obtain ⟨hf, hall, -⟩ := h3 rfl
    obtain ⟨hg, he, hn, hend⟩ := hall rfl
    subst he
    by_cases hm : et ≠ TokenType.any ∧ ty ≠ et
    · by_cases hbt : some ty = bt
      · refine ⟨_, by simp [scanStep, hm, hbt]; rfl, ?_⟩
        refine ⟨h1, by simp, ?_⟩
        intro _
        exact ⟨hf, fun _ => ⟨hg, rfl, hn, by simp only; omega⟩, by simp⟩
      · refine ⟨_, by simp [scanStep, hm, hbt]; rfl, ?_⟩
        refine ⟨h1, by simp, ?_⟩
        intro _
        exact ⟨hf, fun _ => ⟨hg, rfl, hn, by simp only; omega⟩, by simp⟩
    · by_cases hi : idx = 0
      · refine ⟨_, by simp [scanStep, hm, hi, hg]; rfl, ?_⟩
        refine ⟨h1, ?_, by simp⟩
        intro _
        simp only
        omega
      · refine ⟨_, by simp [scanStep, hm, hi]; rfl, ?_⟩
        refine ⟨h1, by simp, ?_⟩
        intro _
        exact ⟨hf, fun _ => ⟨hg, rfl, hn, by simp only; omega⟩, by simp⟩

theorem scanStep_bound_three (g a b c : TokenType) (len k : Nat) (st : ScanState)
    (ty : TokenType) (hk : k + 1 ≤ len)
    (ha : a ≠ TokenType.all)
    (hb : b = TokenType.all → g ≠ TokenType.single_minus_gr ∧ a ≠ TokenType.nothing)
    (hinv : ScanBound ⟨g, [a, b, c]⟩ len (k + 1) st) :
    ∃ st1, scanStep ⟨g, [a, b, c]⟩ len st k ty = .ok st1 ∧
      ScanBound ⟨g, [a, b, c]⟩ len k st1 := by
  by_cases hs : st.stopped = true ∨ st.allMode = true
  · exact scanStep_bound_all _ len k st ty hinv hs
  rcases st with ⟨ets, et, first, endS, allMode, idx, bt, stopped⟩
  simp only [not_or, Bool.not_eq_true] at hs
  obtain ⟨rfl, rfl⟩ := hs
  obtain ⟨h1, -, h3⟩ := hinv
  simp only at h1 h3
  obtain ⟨hf, -, hnot⟩ := h3 trivial
  obtain ⟨j, hj, hst, hend⟩ := hnot trivial
  simp only [List.length_cons, List.length_nil] at hj
  simp only [List.reverse_cons, List.reverse_nil, List.nil_append, List.cons_append] at hst
  have hj3 : j = 0 ∨ j = 1 ∨ j = 2 := by omega
  rcases hj3 with rfl | rfl | rfl
  · simp only [List.drop_zero, List.cons.injEq] at hst
    obtain ⟨rfl, rfl⟩ := hst
    by_cases hm : et ≠ TokenType.any ∧ ty ≠ et
    · refine ⟨_, by simp [scanStep, hm]; rfl, ?_⟩
      refine ⟨h1, by simp, ?_⟩
      intro _
      exact ⟨hf, by simp, fun _ => ⟨0, by simp, by simp, by simp⟩⟩
    · by_cases hball : b = TokenType.all
      · obtain ⟨hg, hn⟩ := hb hball
        refine ⟨_, by simp [scanStep, hm, hball]; rfl, ?_⟩
        refine ⟨by simp only; omega, by simp, ?_⟩
        intro _
        exact ⟨hf, fun _ => ⟨hg, rfl, hn, by simp⟩, by simp⟩
      · refine ⟨_, by simp [scanStep, hm, hball]; rfl, ?_⟩
        refine ⟨by simp only; omega, by simp, ?_⟩
        intro _
        exact ⟨hf, by simp, fun _ => ⟨1, by simp, by simp, by simp⟩⟩
  · simp only [List.drop_succ_cons, List.drop_zero, List.cons.injEq] at hst
    obtain ⟨rfl, rfl⟩ := hst
    have hend1 := hend (by omega)
    by_cases hm : et ≠ TokenType.any ∧ ty ≠ et
    · refine ⟨_, by simp [scanStep, hm, resetExpectation]; rfl, ?_⟩
      refine ⟨by simp, by simp, ?_⟩
      intro _
      exact ⟨rfl, by simp, fun _ => ⟨0, by simp, by simp, by simp⟩⟩
    · refine ⟨_, by simp [scanStep, hm, ha]; rfl, ?_⟩
      refine ⟨by simp only; omega, by simp, ?_⟩
      intro _
      exact ⟨hf, by simp, fun _ => ⟨2, by simp, by simp, fun _ => by simp only; omega⟩⟩
  · simp only [List.drop_succ_cons, List.drop_zero, List.cons.injEq] at hst
    obtain ⟨rfl, rfl⟩ := hst
    have hend1 := hend (by omega)
    by_cases hm : et ≠ TokenType.any ∧ ty ≠ et
    · refine ⟨_, by simp [scanStep, hm, resetExpectation]; rfl, ?_⟩
      refine ⟨by simp, by simp, ?_⟩
      intro _
      exact ⟨rfl, by simp, fun _ => ⟨0, by simp, by simp, by simp⟩⟩
    · refine ⟨_, by simp [scanStep, hm]; rfl, ?_⟩
      refine ⟨by simp only; omega, ?_, by simp⟩
      intro _
      simp only
      split <;> omega

theorem scanStep_bound_two (g a b : TokenType) (len k : Nat) (st : ScanState)
    (ty : TokenType) (hk : k + 1 ≤ len)
    (ha : a ≠ TokenType.all) (hg : g ≠ TokenType.single_minus_gr)
    (hinv : ScanBound ⟨g, [a, b]⟩ len (k + 1) st) :
    ∃ st1, scanStep ⟨g, [a, b]⟩ len st k ty = .ok st1 ∧
      ScanBound ⟨g, [a, b]⟩ len k st1 := by
  by_cases hs : st.stopped = true ∨ st.allMode = true
  · exact scanStep_bound_all _ len k st ty hinv hs
  rcases st with ⟨ets, et, first, endS, allMode, idx, bt, stopped⟩
  simp only [not_or, Bool.not_eq_true] at hs
  obtain ⟨rfl, rfl⟩ := hs
  obtain ⟨h1, -, h3⟩ := hinv
  simp only at h1 h3
  obtain ⟨hf, -, hnot⟩ := h3 trivial
  obtain ⟨j, hj, hst, hend⟩ := hnot trivial
  simp only [List.length_cons, List.length_nil] at hj
  simp only [List.reverse_cons, List.reverse_nil, List.nil_append, List.cons_append] at hst
  have hj2 : j = 0 ∨ j = 1 := by omega
  rcases hj2 with rfl | rfl
  · simp only [List.drop_zero, List.cons.injEq] at hst
    obtain ⟨rfl, rfl⟩ := hst
    by_cases hm : et ≠ TokenType.any ∧ ty ≠ et
    · refine ⟨_, by simp [scanStep, hm]; rfl, ?_⟩
      refine ⟨h1, by simp, ?_⟩
      intro _
      exact ⟨hf, by simp, fun _ => ⟨0, by simp, by simp, by simp⟩⟩
    · refine ⟨_, by simp [scanStep, hm, ha]; rfl, ?_⟩
      refine ⟨by simp only; omega, by simp, ?_⟩
      intro _
      exact ⟨hf, by simp, fun _ => ⟨1, by simp, by simp, by simp⟩⟩
  · simp only [List.drop_succ_cons, List.drop_zero, List.cons.injEq] at hst
    obtain ⟨rfl, rfl⟩ := hst
    have hend1 := hend (by omega)
    by_cases hm : et ≠ TokenType.any ∧ ty ≠ et
    · refine ⟨_, by simp [scanStep, hm, resetExpectation]; rfl, ?_⟩
      refine ⟨by simp, by simp, ?_⟩
      intro _
      exact ⟨rfl, by simp, fun _ => ⟨0, by simp, by simp, by simp⟩⟩
    · refine ⟨_, by simp [scanStep, hm, hg]; rfl, ?_⟩
      refine ⟨by simp only; omega, ?_, by simp⟩
      intro _
      simp only
      omega

theorem scanStep_bound (rule : Grammatic) (hrule : rule ∈ s_Grammatics) (len k : Nat)
    (st : ScanState) (ty : TokenType) (hk : k + 1 ≤ len)
    (hinv : ScanBound rule len (k + 1) st) :
    ∃ st1, scanStep rule len st k ty = .ok st1 ∧ ScanBound rule len k st1 := by
  rcases rule with ⟨g, o⟩
  rcases rule_shape _ hrule with ⟨hg, ho⟩ | ⟨a, b, ho, ha, -, -, -, hg⟩ |
    ⟨a, b, c, ho, ha, hb, -, -, -⟩
  · simp only at hg ho
    subst hg; subst ho
    exact scanStep_bound_three _ _ _ _ len k st ty hk (by decide)
      (fun _ => ⟨by decide, by decide⟩) hinv
  · simp only at hg ho
    subst ho
    exact scanStep_bound_two g a b len k st ty hk ha hg hinv
  · simp only at ho
    subst ho
    exact scanStep_bound_three g a b c len k st ty hk ha (fun h => absurd h hb) hinv

theorem resetExpectation_bound (rule : Grammatic) (hrule : rule ∈ s_Grammatics) (len : Nat)
    (st : ScanState) (hs : st.stopped = false) (ha : st.allMode = false) :
    ∃ st1, resetExpectation rule len st = .ok st1 ∧ ScanBound rule len len st1 := by
  rcases st with ⟨ets, et, first, endS, allMode, idx, bt, stopped⟩
  simp only at hs ha
  subst hs; subst ha
  rcases rule with ⟨g, o⟩
  rcases rule_shape _ hrule with ⟨-, ho⟩ | ⟨a, b, ho, -⟩ | ⟨a, b, c, ho, -⟩ <;>
    simp only at ho <;> subst ho
  · refine ⟨_, by simp [resetExpectation]; rfl, ?_⟩
    exact ⟨by simp, by simp, fun _ => ⟨rfl, by simp, fun _ => ⟨0, by simp, by simp, by simp⟩⟩⟩
  · refine ⟨_, by simp [resetExpectation]; rfl, ?_⟩
    exact ⟨by simp, by simp, fun _ => ⟨rfl, by simp, fun _ => ⟨0, by simp, by simp, by simp⟩⟩⟩
  · refine ⟨_, by simp [resetExpectation]; rfl, ?_⟩
    exact ⟨by simp, by simp, fun _ => ⟨rfl, by simp, fun _ => ⟨0, by simp, by simp, by simp⟩⟩⟩

theorem scanLoop_bound (rule : Grammatic) (hrule : rule ∈ s_Grammatics) (len : Nat) :
    ∀ (k : Nat) (l : List (Nat × Token)) (st : ScanState),
      l.map Prod.fst = (List.range k).reverse → k ≤ len → ScanBound rule len k st →
      ∃ st1, scanLoop rule len l st = .ok st1 ∧ ScanBound rule len 0 st1 := by
  intro k
  induction k with
  | zero =>
    intro l st hl _ hinv
    simp only [List.range_zero, List.reverse_nil, List.map_eq_nil_iff] at hl
    subst hl
    exact ⟨st, rfl, hinv⟩
  | succ k ih =>
    intro l st hl hk hinv
    rw [List.range_succ, List.reverse_append] at hl
    simp only [List.reverse_cons, List.reverse_nil, List.nil_append, List.singleton_append] at hl
    cases l with
    | nil => simp at hl
    | cons p rest =>
      simp only [List.map_cons, List.cons.injEq] at hl
      obtain ⟨hp, hrest⟩ := hl
      obtain ⟨st1, h1, hinv1⟩ := scanStep_bound rule hrule len k st p.2.type hk hinv
      obtain ⟨st2, h2, hinv2⟩ := ih rest st1 hrest (by omega) hinv1
      refine ⟨st2, ?_, hinv2⟩
      rcases p with ⟨i, tok⟩
      simp only at hp
      subst hp
      simp only [scanLoop, h1, Result.ok_bind]
      exact h2

/-- The range the scan leaves when it ends without the `break` and with the
expectation `nothing`: the first two tokens of the list. -/
theorem scan_nothing_end (rule : Grammatic) (hrule : rule ∈ s_Grammatics) (len : Nat)
    (st : ScanState) (hinv : ScanBound rule len 0 st) (hs : st.stopped = false)
    (hn : st.expectedToken = TokenType.nothing) : st.endSubToken = 2 := by
  obtain ⟨-, -, h3⟩ := hinv
  obtain ⟨-, hall, hnot⟩ := h3 hs
  cases ha : st.allMode with
  | true => exact absurd hn (hall ha).2.2.1
  | false =>
    obtain ⟨j, hj, hst, hend⟩ := hnot ha
    rcases rule with ⟨g, o⟩
    rcases rule_shape _ hrule with ⟨-, ho⟩ | ⟨a, b, ho, -, -, han, hbn, -⟩ |
      ⟨a, b, c, ho, -, -, -, hbn, hcn⟩ <;> simp only at ho <;> subst ho <;>
      simp only [List.length_cons, List.length_nil] at hj <;>
      simp only [List.reverse_cons, List.reverse_nil, List.nil_append, List.cons_append] at hst
    · have hj3 : j = 0 ∨ j = 1 ∨ j = 2 := by omega
      rcases hj3 with rfl | rfl | rfl <;>
        simp only [List.drop_succ_cons, List.drop_zero, List.cons.injEq] at hst <;>
        rw [hn] at hst <;> exact absurd hst.1 (by decide)
    · have hj2 : j = 0 ∨ j = 1 := by omega
      rcases hj2 with rfl | rfl <;>
        simp only [List.drop_succ_cons, List.drop_zero, List.cons.injEq] at hst <;>
        rw [hn] at hst
      · exact absurd hst.1.symm hbn
      · exact absurd hst.1.symm han
    · have hj3 : j = 0 ∨ j = 1 ∨ j = 2 := by omega
      rcases hj3 with rfl | rfl | rfl <;>
        simp only [List.drop_succ_cons, List.drop_zero, List.cons.injEq] at hst
      · rw [hn] at hst; exact absurd hst.1.symm hcn
      · rw [hn] at hst; exact absurd hst.1.symm hbn
      · have := hend (by omega)
        omega

/-- The result of `ruleProcessor` for a rule of `s_Grammatics`: `false`, or
the list in which the range `[first, endS)` of at least two tokens is replaced
by one group token, whose contents are the tokens of the range or the result
of the recursive call on the tokens strictly between its first and last.  The
range does not depend on the recursive call. -/
theorem ruleProcessor_cases (rule : Grammatic) (hrule : rule ∈ s_Grammatics)
    (tokens : List Token) :
    (∀ recurse, ruleProcessor recurse rule tokens = .ok none) ∨
    ∃ first endS, first + 2 ≤ endS ∧ endS ≤ tokens.length ∧
      ((∀ recurse, ruleProcessor recurse rule tokens = .ok (some (tokens.take first ++
          [Token.TokenGroup rule._grType ((tokens.drop first).take (endS - first))] ++
          tokens.drop endS))) ∨
       (∀ recurse, ruleProcessor recurse rule tokens =
        (recurse ((tokens.drop (first + 1)).take (endS - 1 - (first + 1))) >>= fun group =>
          pure (some (tokens.take first ++ [Token.TokenGroup rule._grType group] ++
            tokens.drop endS))))) := by
  obtain ⟨st0, h0, hinv0⟩ := resetExpectation_bound rule hrule tokens.length
    { expectedTokens := [], expectedToken := TokenType.nothing,
      firstSubToken := tokens.length, endSubToken := tokens.length, allMode := false,
      sub_bracket_index := 0, bracket_type := none, stopped := false } rfl rfl
  have hl : (((List.range tokens.length).zip tokens).reverse).map Prod.fst =
      (List.range tokens.length).reverse := by
    rw [List.map_reverse, List.map_fst_zip]
    simp
  obtain ⟨st, h1, hinv⟩ := scanLoop_bound rule hrule tokens.length tokens.length _ st0 hl
    (le_refl _) hinv0
  unfold ruleProcessor
  simp only [h0, h1, Result.ok_bind]
  by_cases hfirst : (if st.expectedToken = TokenType.nothing then 0 else st.firstSubToken) =
      tokens.length
  · left
    intro recurse
    simp [hfirst]
  · right
    have hb : (if st.expectedToken = TokenType.nothing then 0 else st.firstSubToken) + 2 ≤
        st.endSubToken := by
      cases hs : st.stopped with
      | true =>
        have := hinv.2.1 hs
        split <;> omega
      | false =>
        have hf := (hinv.2.2 hs).1
        by_cases hn : st.expectedToken = TokenType.nothing
        · have := scan_nothing_end rule hrule tokens.length st hinv hs hn
          simp only [hn, if_true]
          omega
        · simp only [hn, if_false] at hfirst
          exact absurd hf hfirst
    refine ⟨_, st.endSubToken, hb, hinv.1, ?_⟩
    cases ha : st.allMode with
    | false => left; intro recurse; simp [hfirst, ha]
    | true => right; intro recurse; simp [hfirst, ha]

theorem ruleProcessor_shorter (recurse : List Token → Result (List Token)) (rule : Grammatic)
    (hrule : rule ∈ s_Grammatics) (tokens out : List Token)
    (h : ruleProcessor recurse rule tokens = .ok (some out)) :
    ∃ first endS group, first + 2 ≤ endS ∧ endS ≤ tokens.length ∧
      out = tokens.take first ++ [Token.TokenGroup rule._grType group] ++ tokens.drop endS ∧
      out.length + (endS - first) = tokens.length + 1 := by
  have hlen : ∀ (first endS : Nat) (group : List Token), first + 2 ≤ endS →
      endS ≤ tokens.length →
      (tokens.take first ++ [Token.TokenGroup rule._grType group] ++ tokens.drop endS).length +
        (endS - first) = tokens.length + 1 := by
    intro first endS group h1 h2
    simp only [List.length_append, List.length_take, List.length_cons, List.length_nil,
      List.length_drop]
    omega
  rcases ruleProcessor_cases rule hrule tokens with h0 | ⟨first, endS, h1, h2, h3 | h3⟩
  · rw [h0] at h; cases h
  · rw [h3] at h
    cases h
    exact ⟨first, endS, _, h1, h2, rfl, hlen _ _ _ h1 h2⟩
  · rw [h3] at h
    cases hr : recurse ((tokens.drop (first + 1)).take (endS - 1 - (first + 1))) with
    | error e => simp [hr] at h
    | ok group =>
      simp only [hr, Result.ok_bind, Result.pure_eq] at h
      cases h
      exact ⟨first, endS, group, h1, h2, rfl, hlen _ _ _ h1 h2⟩

theorem ruleProcessor_total (recurse : List Token → Result (List Token)) (rule : Grammatic)
    (hrule : rule ∈ s_Grammatics) (tokens : List Token)
    (hrec : ∀ x : List Token, x.length + 2 ≤ tokens.length → ∃ y, recurse x = .ok y) :
    ∃ r, ruleProcessor recurse rule tokens = .ok r := by
  rcases ruleProcessor_cases rule hrule tokens with h0 | ⟨first, endS, h1, h2, h3 | h3⟩
  · exact ⟨_, h0 recurse⟩
  · exact ⟨_, h3 recurse⟩
  · obtain ⟨y, hy⟩ := hrec ((tokens.drop (first + 1)).take (endS - 1 - (first + 1))) (by
      simp only [List.length_take, List.length_drop]
      omega)
    exact ⟨_, by rw [h3, hy]; rfl⟩

theorem whileRule_total (recurse : List Token → Result (List Token)) (rule : Grammatic)
    (hrule : rule ∈ s_Grammatics) (bound : Nat)
    (hrec : ∀ x : List Token, x.length + 2 ≤ bound → ∃ y, recurse x = .ok y) :
    ∀ (n : Nat) (tokens : List Token), tokens.length < n → tokens.length ≤ bound →
      ∃ out, whileRule recurse rule n tokens = .ok out ∧ out.length ≤ tokens.length := by
  intro n
  induction n with
  | zero => intro tokens h; omega
  | succ n ih =>
    intro tokens hn hb
    obtain ⟨r, hr⟩ := ruleProcessor_total recurse rule hrule tokens
      (fun x hx => hrec x (by omega))
    cases r with
    | none => exact ⟨tokens, by simp [whileRule, hr], le_refl _⟩
    | some tokens1 =>
      obtain ⟨first, endS, group, h1, h2, -, h4⟩ :=
        ruleProcessor_shorter recurse rule hrule tokens tokens1 hr
      obtain ⟨out, ho, hlen⟩ := ih tokens1 (by omega) (by omega)
      exact ⟨out, by simp [whileRule, hr, ho], by omega⟩

theorem foldlM_rules_total (recurse : List Token → Result (List Token)) (bound : Nat)
    (hrec : ∀ x : List Token, x.length + 2 ≤ bound → ∃ y, recurse x = .ok y) :
    ∀ (rules : List Grammatic), (∀ r ∈ rules, r ∈ s_Grammatics) →
      ∀ tokens : List Token, tokens.length ≤ bound →
      ∃ out, rules.foldlM
          (fun toks rule => whileRule recurse rule (toks.length + 1) toks) tokens = .ok out ∧
        out.length ≤ tokens.length := by
  intro rules
  induction rules with
  | nil => intro _ tokens _; exact ⟨tokens, rfl, le_refl _⟩
  | cons rule rest ih =>
    intro hmem tokens hb
    obtain ⟨t1, h1, hl1⟩ := whileRule_total recurse rule (hmem rule (List.mem_cons_self _ _))
      bound hrec (tokens.length + 1) tokens (by omega) hb
    obtain ⟨out, h2, hl2⟩ := ih (fun r hr => hmem r (List.mem_cons_of_mem _ hr)) t1 (by omega)
    refine ⟨out, ?_, by omega⟩
    simp only [List.foldlM_cons, h1, Result.ok_bind]
    exact h2

theorem grammatics_rules_applyFuel_total :
    ∀ (n : Nat) (tokens : List Token), tokens.length < n →
      ∃ out, grammatics_rules_applyFuel n tokens = .ok out ∧ out.length ≤ tokens.length := by
  intro n
  induction n with
  | zero => intro tokens h; omega
  | succ n ih =>
    intro tokens hn
    simp only [grammatics_rules_applyFuel]
    exact foldlM_rules_total (grammatics_rules_applyFuel n) tokens.length
      (fun x hx => by
        obtain ⟨y, hy, _⟩ := ih x (by omega)
        exact ⟨y, hy⟩)
      s_Grammatics (fun r hr => hr) tokens (le_refl _)

theorem ruleProcessor_congr (f g : List Token → Result (List Token)) (rule : Grammatic)
    (hrule : rule ∈ s_Grammatics) (tokens : List Token)
    (h : ∀ x : List Token, x.length + 2 ≤ tokens.length → f x = g x) :
    ruleProcessor f rule tokens = ruleProcessor g rule tokens := by
  rcases ruleProcessor_cases rule hrule tokens with h0 | ⟨first, endS, h1, h2, h3 | h3⟩
  · rw [h0 f, h0 g]
  · rw [h3 f, h3 g]
  · rw [h3 f, h3 g, h _ (by
      simp only [List.length_take, List.length_drop]
      omega)]

theorem whileRule_congr (f g : List Token → Result (List Token)) (rule : Grammatic)
    (hrule : rule ∈ s_Grammatics) (bound : Nat)
    (h : ∀ x : List Token, x.length + 2 ≤ bound → f x = g x) :
    ∀ (n : Nat) (tokens : List Token), tokens.length ≤ bound →
      whileRule f rule n tokens = whileRule g rule n tokens := by
  intro n
  induction n with
  | zero => intro tokens _; rfl
  | succ n ih =>
    intro tokens hb
    simp only [whileRule]
    rw [ruleProcessor_congr f g rule hrule tokens (fun x hx => h x (by omega))]
    cases hr : ruleProcessor g rule tokens with
    | error e => rfl
    | ok r =>
      cases r with
      | none => rfl
      | some tokens1 =>
        obtain ⟨first, endS, group, h1, h2, -, h4⟩ :=
          ruleProcessor_shorter g rule hrule tokens tokens1 hr
        simp only [Result.ok_bind]
        exact ih tokens1 (by omega)

theorem whileRule_length (recurse : List Token → Result (List Token)) (rule : Grammatic)
    (hrule : rule ∈ s_Grammatics) :
    ∀ (n : Nat) (tokens out : List Token), whileRule recurse rule n tokens = .ok out →
      out.length ≤ tokens.length := by
  intro n
  induction n with
  | zero => intro tokens out h; cases h
  | succ n ih =>
    intro tokens out h
    simp only [whileRule] at h
    cases hr : ruleProcessor recurse rule tokens with
    | error e => simp [hr] at h
    | ok r =>
      cases r with
      | none =>
        simp only [hr, Result.ok_bind, Result.pure_eq] at h
        cases h
        exact le_refl _
      | some tokens1 =>
        obtain ⟨first, endS, group, h1, h2, -, h4⟩ :=
          ruleProcessor_shorter recurse rule hrule tokens tokens1 hr
        simp only [hr, Result.ok_bind] at h
        have := ih tokens1 out h
        omega

theorem foldlM_rules_congr (f g : List Token → Result (List Token)) (bound : Nat)
    (h : ∀ x : List Token, x.length + 2 ≤ bound → f x = g x) :
    ∀ (rules : List Grammatic), (∀ r ∈ rules, r ∈ s_Grammatics) →
      ∀ tokens : List Token, tokens.length ≤ bound →
      rules.foldlM (fun toks rule => whileRule f rule (toks.length + 1) toks) tokens =
        rules.foldlM (fun toks rule => whileRule g rule (toks.length + 1) toks) tokens := by
  intro rules
  induction rules with
  | nil => intro _ tokens _; rfl
  | cons rule rest ih =>
    intro hmem tokens hb
    simp only [List.foldlM_cons]
    rw [whileRule_congr f g rule (hmem rule (List.mem_cons_self _ _)) bound h _ tokens hb]
    cases hw : whileRule g rule (tokens.length + 1) tokens with
    | error e => rfl
    | ok t1 =>
      have := whileRule_length g rule (hmem rule (List.mem_cons_self _ _)) _ tokens t1 hw
      simp only [Result.ok_bind]
      exact ih (fun r hr => hmem r (List.mem_cons_of_mem _ hr)) t1 (by omega)

theorem grammatics_rules_applyFuel_stable :
    ∀ (n m : Nat) (tokens : List Token), tokens.length < n → tokens.length < m →
      grammatics_rules_applyFuel n tokens = grammatics_rules_applyFuel m tokens := by
  intro n
  induction n with
  | zero => intro m tokens h; omega
  | succ n ih =>
    intro m tokens hn hm
    cases m with
    | zero => omega
    | succ m =>
      simp only [grammatics_rules_applyFuel]
      exact foldlM_rules_congr _ _ tokens.length
        (fun x hx => ih m x (by omega) (by omega)) s_Grammatics (fun r hr => hr) tokens
        (le_refl _)

/-- C29: `grammatics_rules_apply` terminates on every token list and returns
a list that is not longer than its input; a larger bound on the nesting of
the recursive calls gives the same result.  Every successful application of a
rule of `s_Grammatics` by `ruleProcessor` replaces a range `[first, endS)` of at
least two tokens by one group token, so the list gets strictly shorter; hence
the loop `while(ruleProcessor(rule));` ends within `tokens.size() + 1` rounds
whenever the recursive call returns on the lists that are at least two tokens
shorter, which are the only ones it is made on. -/
theorem C29_grammatics_rules_apply_terminates (tokens : List Token) :
    (∃ out, grammatics_rules_apply tokens = .ok out ∧ out.length ≤ tokens.length) ∧
    (∀ n, tokens.length < n →
      grammatics_rules_applyFuel n tokens = grammatics_rules_apply tokens) ∧
    (∀ recurse rule out, rule ∈ s_Grammatics →
      ruleProcessor recurse rule tokens = .ok (some out) →
      ∃ first endS group, first + 2 ≤ endS ∧ endS ≤ tokens.length ∧
        out = tokens.take first ++ [Token.TokenGroup rule._grType group] ++
          tokens.drop endS ∧
        out.length < tokens.length) ∧
    (∀ recurse rule, rule ∈ s_Grammatics →
      (∀ x : List Token, x.length + 2 ≤ tokens.length → ∃ y, recurse x = .ok y) →
      ∃ out, whileRule recurse rule (tokens.length + 1) tokens = .ok out ∧
        out.length ≤ tokens.length) ∧
    (∀ f g rule, rule ∈ s_Grammatics →
      (∀ x : List Token, x.length + 2 ≤ tokens.length → f x = g x) →
      ruleProcessor f rule tokens = ruleProcessor g rule tokens) := by
  refine ⟨?_, ?_, ?_, ?_, ?_⟩
  · exact grammatics_rules_applyFuel_total (tokens.length + 1) tokens (Nat.lt_succ_self _)
  · intro n hn
    exact grammatics_rules_applyFuel_stable n (tokens.length + 1) tokens hn (Nat.lt_succ_self _)
  · intro recurse rule out hrule h
    obtain ⟨first, endS, group, h1, h2, h3, h4⟩ :=
      ruleProcessor_shorter recurse rule hrule tokens out h
    exact ⟨first, endS, group, h1, h2, h3, by omega⟩
  · intro recurse rule hrule hrec
    exact whileRule_total recurse rule hrule tokens.length hrec (tokens.length + 1) tokens
      (Nat.lt_succ_self _) (le_refl _)
  · intro f g rule hrule h
    exact ruleProcessor_congr f g rule hrule tokens h

theorem C29_grammatics_rules_apply_terminates_witness :
    (3 : Nat) < 7 ∧
    grammatics_rules_applyFuel 7 [Token.TokenValue 1, Token.plain TokenType.plus,
      Token.TokenValue 2] =
    grammatics_rules_apply [Token.TokenValue 1, Token.plain TokenType.plus,
      Token.TokenValue 2] :=
  ⟨by decide, (C29_grammatics_rules_apply_terminates [Token.TokenValue 1,
    Token.plain TokenType.plus, Token.TokenValue 2]).2.1 7 (by decide)⟩

end math
